import Mathlib

/-!
# Online study room: peer-connection lifecycle of `frontend/main.js`

A shallow embedding of the WebRTC mesh code of `frontend/main.js`
(`syncPeers`, `shouldInitiate`, `ensurePeer`, `closePeer`, `syncPeerSender`,
`negotiateWith`, `handleOffer`, `handleAnswer`, `handleCandidate`, the socket
message handler and the media toggles).

The global variables of the script become the fields of `State`.  Every call
into the browser (a new `RTCPeerConnection`, `addTrack`, `close`,
`socket.send`, ...) is recorded, in order, in `State.log`.  An `async` function
is cut at each `await`: the part that runs before the first `await` is a
function on `State`, and what remains is stored as a `Task` in `State.tasks`
until the browser settles the awaited promise (`settle`).
-/

namespace StudyRoom

/-! ## Data model -/

/-- A `MediaStreamTrack`, known by its identity. -/
abbrev Track := Nat

/-- A session description (the value of `createOffer` / `createAnswer`, the `sdp` field). -/
abbrev Sdp := Nat

/-- An ICE candidate (the `candidate` field). -/
abbrev Candidate := Nat

/-- The three sender slots of a peer entry: the keys of `peer.senders`. -/
inductive Kind where
  | audio
  | video
  | screen
deriving DecidableEq, Repr

/-- The object `{ audio, video, screen }`: `mediaState` and the values of `remoteMediaStates`. -/
structure MediaState where
  audio : Bool
  video : Bool
  screen : Bool
deriving DecidableEq, Repr

/-- The object `peer.senders`: each slot is `null` or an `RTCRtpSender` (known by its identity). -/
structure Senders where
  audio : Option Nat
  video : Option Nat
  screen : Option Nat
deriving DecidableEq, Repr

/-- The peer entry built by `ensurePeer`; `pc` is the identity of its `RTCPeerConnection`. -/
structure Peer where
  pc : Nat
  senders : Senders
  makingOffer : Bool
  initialOfferSent : Bool
deriving DecidableEq, Repr


/-- A `MediaStream`: its audio tracks and its video tracks, in order. -/
structure MediaStream where
  audioTracks : List Track
  videoTracks : List Track
deriving DecidableEq, Repr

/-- A signaling message, inbound (`JSON.parse(event.data)`) or outbound (the payload of
`sendMessage`).  A field that the JSON object lacks is `none`; `participants` and
`media_states` are `data.data.participants` and the entries of `data.data.media_states` of a
`state` message. -/
structure Message where
  type : String
  user : String := ""
  target : Option String := none
  sdp : Option Sdp := none
  candidate : Option Candidate := none
  media : Option MediaState := none
  participants : List String := []
  media_states : List (String × MediaState) := []
deriving DecidableEq, Repr

/-- One call into the browser, as recorded in `State.log`. -/
inductive Effect where
  /-- The call `new RTCPeerConnection(rtcConfig)`, giving the connection `pc`. -/
  | newConnection (pc : Nat)
  /-- The call `pc.addTrack(track, stream)`, giving the sender `sender`. -/
  | addTrack (pc : Nat) (track : Track) (sender : Nat)
  /-- The call `sender.replaceTrack(track)`. -/
  | replaceTrack (sender : Nat) (track : Track)
  /-- The call `pc.removeTrack(sender)`. -/
  | removeTrack (pc : Nat) (sender : Nat)
  /-- The call `pc.close()`. -/
  | close (pc : Nat)
  /-- The call `pc.createOffer()`. -/
  | createOffer (pc : Nat)
  /-- The call `pc.createAnswer()`. -/
  | createAnswer (pc : Nat)
  /-- The call `pc.setLocalDescription(sdp)`. -/
  | setLocalDescription (pc : Nat) (sdp : Sdp)
  /-- The call `pc.setRemoteDescription(sdp)`. -/
  | setRemoteDescription (pc : Nat) (sdp : Sdp)
  /-- The call `pc.addIceCandidate(new RTCIceCandidate(candidate))`. -/
  | addIceCandidate (pc : Nat) (candidate : Candidate)
  /-- The call `socket.send(JSON.stringify(payload))`. -/
  | send (payload : Message)
  /-- The call `navigator.mediaDevices.getUserMedia({ audio, video })`. -/
  | getUserMedia (audio video : Bool)
  /-- The call `navigator.mediaDevices.getDisplayMedia({ video: true, audio: false })`. -/
  | getDisplayMedia
  /-- The call `track.stop()`. -/
  | stopTrack (track : Track)
  /-- An error that reaches the console or the event list: the promise of the named
  function rejected, or its `catch` block ran. -/
  | error (source : String)
deriving DecidableEq, Repr

/-- The rest of an `async` function that is suspended at an `await`.  `user` and `pc` are the
variables the closure holds: the peer's name and the connection of the `peer` object. -/
inductive Task where
  /-- In `negotiateWith`, at `await peer.pc.createOffer()`. -/
  | negotiateCreateOffer (user : String) (pc : Nat)
  /-- In `negotiateWith`, at `await peer.pc.setLocalDescription(offer)`. -/
  | negotiateSetLocal (user : String) (pc : Nat) (offer : Sdp)
  /-- In `handleOffer`, at `await peer.pc.setRemoteDescription(message.sdp)`. -/
  | offerSetRemote (user : String) (pc : Nat)
  /-- In `handleOffer`, at `await peer.pc.createAnswer()`. -/
  | offerCreateAnswer (user : String) (pc : Nat)
  /-- In `handleOffer`, at `await peer.pc.setLocalDescription(answer)`. -/
  | offerSetLocal (user : String) (pc : Nat) (answer : Sdp)
  /-- In `handleAnswer`, at `await peer.pc.setRemoteDescription(message.sdp)`. -/
  | answerSetRemote (user : String) (pc : Nat)
  /-- In `handleCandidate`, at `await peer.pc.addIceCandidate(...)`. -/
  | candidateAdd (user : String) (pc : Nat)
  /-- In `toggleMic`, at `await navigator.mediaDevices.getUserMedia(...)`. -/
  | micCapture
  /-- In `toggleCamera`, at `await navigator.mediaDevices.getUserMedia(...)`. -/
  | cameraCapture
  /-- In `toggleScreenShare`, at `await navigator.mediaDevices.getDisplayMedia(...)`. -/
  | screenCapture
deriving DecidableEq, Repr

/-- How the browser settles an awaited promise. -/
inductive Outcome where
  /-- The promise rejects. -/
  | rejected
  /-- The promise fulfils without a value (`setLocalDescription`, `setRemoteDescription`,
  `addIceCandidate`). -/
  | fulfilled
  /-- The promise of `createOffer` or `createAnswer` fulfils with a description. -/
  | description (sdp : Sdp)
  /-- The promise of `getUserMedia` or `getDisplayMedia` fulfils with a stream. -/
  | stream (captured : MediaStream)
deriving DecidableEq, Repr

/-- The global variables of the script that the peer-connection code reads and writes.
`peers` is the `Map` in insertion order; `socketOpen` is
`socket && socket.readyState === WebSocket.OPEN`; `nextId` numbers the objects the browser
hands out (connections and senders); `tasks` are the suspended `async` calls and `log` the
calls made into the browser so far.  `mediaTiles` holds the keys of the `Map` of that name
(its values are elements of the page) and `remoteMediaStates` the entries of that object. -/
structure State where
  localUser : String
  peers : List (String × Peer)
  localStream : MediaStream
  screenStream : Option MediaStream
  mediaState : MediaState
  remoteMediaStates : List (String × MediaState)
  mediaTiles : List String
  socketOpen : Bool
  nextId : Nat
  tasks : List Task
  log : List Effect
deriving DecidableEq, Repr

/-! ## The `Map` of peers -/

/-- The call `peers.get(user)`: `none` is `undefined`. -/
def peersGet : List (String × Peer) → String → Option Peer
  | [], _ => none
  | (k, p) :: rest, user => if k = user then some p else peersGet rest user

/-- The call `peers.has(user)`. -/
def peersHas (ps : List (String × Peer)) (user : String) : Bool :=
  (peersGet ps user).isSome

/-- The call `peers.delete(user)`. -/
def peersDelete (ps : List (String × Peer)) (user : String) : List (String × Peer) :=
  ps.filter (fun e => decide (e.1 ≠ user))

/-- The call `peers.set(user, peer)`: an existing key keeps its place, a new key goes last. -/
def peersSet (ps : List (String × Peer)) (user : String) (peer : Peer) : List (String × Peer) :=
  if peersHas ps user then ps.map (fun e => if e.1 = user then (e.1, peer) else e)
  else ps ++ [(user, peer)]

/-- A write to a field of the `peer` object that a closure holds: the entry of `user` changes
when it still is that object (the one owning connection `pc`); an object that has left the map
is no longer read by anything. -/
def updatePeer (user : String) (pc : Nat) (f : Peer → Peer) (s : State) : State :=
  { s with peers := s.peers.map (fun e => if e.1 = user ∧ e.2.pc = pc then (e.1, f e.2) else e) }

/-! ## Calls into the browser -/

/-- Record one call into the browser. -/
def emit (e : Effect) (s : State) : State :=
  { s with log := s.log ++ [e] }

/-- Suspend the running `async` function at an `await`. -/
def suspend (t : Task) (s : State) : State :=
  { s with tasks := s.tasks ++ [t] }

/-- The function `sendMessage(payload)`. -/
def sendMessage (payload : Message) (s : State) : State :=
  if s.socketOpen then emit (.send payload) s else s

/-! ## Role assignment -/

/-- Comparison of two sequences of collation weights, weight by weight, the shorter of two
that agree first: -1, 0 or 1. -/
def compareWeights : List Nat → List Nat → Int
  | [], [] => 0
  | [], _ :: _ => -1
  | _ :: _, [] => 1
  | a :: as, b :: bs =>
    if a < b then -1
    else if b < a then 1
    else compareWeights as bs

/-- The canonical decompositions of the Unicode Character Database for the letters of the
Latin-1 Supplement, for U+0178, and for the Kelvin and Angstrom signs: the code point, then what
it decomposes to. -/
def canonicalDecompositions : List (Nat × List Nat) :=
  [(192, [65, 768]), (193, [65, 769]), (194, [65, 770]), (195, [65, 771]), (196, [65, 776]),
   (197, [65, 778]), (199, [67, 807]), (200, [69, 768]), (201, [69, 769]), (202, [69, 770]),
   (203, [69, 776]), (204, [73, 768]), (205, [73, 769]), (206, [73, 770]), (207, [73, 776]),
   (209, [78, 771]), (210, [79, 768]), (211, [79, 769]), (212, [79, 770]), (213, [79, 771]),
   (214, [79, 776]), (217, [85, 768]), (218, [85, 769]), (219, [85, 770]), (220, [85, 776]),
   (221, [89, 769]), (224, [97, 768]), (225, [97, 769]), (226, [97, 770]), (227, [97, 771]),
   (228, [97, 776]), (229, [97, 778]), (231, [99, 807]), (232, [101, 768]), (233, [101, 769]),
   (234, [101, 770]), (235, [101, 776]), (236, [105, 768]), (237, [105, 769]), (238, [105, 770]),
   (239, [105, 776]), (241, [110, 771]), (242, [111, 768]), (243, [111, 769]), (244, [111, 770]),
   (245, [111, 771]), (246, [111, 776]), (249, [117, 768]), (250, [117, 769]), (251, [117, 770]),
   (252, [117, 776]), (253, [121, 769]), (255, [121, 776]), (376, [89, 776]), (8490, [75]),
   (8491, [65, 778])]

/-- The entry of a code point in a table, when it has one. -/
def lookup {α : Type} (n : Nat) : List (Nat × α) → Option α
  | [] => none
  | (m, v) :: rest => if n = m then some v else lookup n rest

/-- The canonical decomposition of one code point; a code point below U+00C0 is its own. -/
def decompose (n : Nat) : List Nat :=
  if n < 192 then [n] else (lookup n canonicalDecompositions).getD [n]

/-- The secondary weights of the combining marks that those decompositions use, in the order
of the root collation: acute, grave, circumflex, ring above, diaeresis, tilde, cedilla. -/
def markWeights : List (Nat × Nat) :=
  [(769, 36), (768, 37), (770, 39), (778, 41), (776, 43), (771, 45), (807, 48)]

/-- The canonical combining class: 202 for the cedilla, 230 for the marks above, 0 for a
starter. -/
def combiningClass (n : Nat) : Nat :=
  if n < 768 then 0
  else if n = 807 then 202
  else if (lookup n markWeights).isSome then 230
  else 0

/-- Put a combining mark in its place among the marks before it (the sequence is held last
code point first): it moves in front of every mark of a greater combining class. -/
def placeMark (c : Nat) : List Nat → List Nat
  | [] => [c]
  | d :: rest =>
    if combiningClass c < combiningClass d then d :: placeMark c rest else c :: d :: rest

/-- The canonical ordering of a decomposed sequence; the result is held last code point first. -/
def canonicalOrder : List Nat → List Nat → List Nat
  | done, [] => done
  | done, c :: rest =>
    canonicalOrder (if combiningClass c = 0 then c :: done else placeMark c done) rest

/-- Code points that carry no weight at any level: the control characters other than the
line and tab characters, the soft hyphen, the zero-width and directional marks U+200B to U+200F
and the byte-order mark. -/
def isIgnorable (n : Nat) : Bool :=
  n ≤ 8 || (14 ≤ n && n ≤ 31) || (127 ≤ n && n ≤ 132) || (134 ≤ n && n ≤ 159) || n == 173 ||
    (8203 ≤ n && n ≤ 8207) || n == 65279

/-- The white space, punctuation, symbols and currency sign of ASCII (with U+0085), in the
order of the root collation; the digits and then the letters follow them. -/
def variableOrder : List Nat :=
  [9, 10, 11, 12, 13, 133, 32, 95, 45, 44, 59, 58, 33, 63, 46, 39, 34, 40, 41, 91, 93, 123, 125,
   64, 42, 47, 92, 38, 35, 37, 96, 94, 43, 60, 61, 62, 124, 126, 36]

/-- The place of a code point in a list, counted from 1; 0 when it is not there. -/
def placeIn (n : Nat) : List Nat → Nat
  | [] => 0
  | m :: rest => if n = m then 1 else if placeIn n rest = 0 then 0 else placeIn n rest + 1

/-- The primary weight of a code point: 0 for a combining mark; a letter has the weight of its
place in the alphabet, whatever its case; a code point outside the tables sorts after them, by
its number. -/
def primaryWeight (n : Nat) : Nat :=
  if 97 ≤ n ∧ n ≤ 122 then 200 + (n - 97)
  else if 65 ≤ n ∧ n ≤ 90 then 200 + (n - 65)
  else if 48 ≤ n ∧ n ≤ 57 then 100 + (n - 48)
  else if combiningClass n ≠ 0 then 0
  else if placeIn n variableOrder ≠ 0 then placeIn n variableOrder
  else 1000 + n

/-- The secondary weight: that of the mark, and the common weight 32 for everything else. -/
def secondaryWeight (n : Nat) : Nat :=
  if n < 768 then 32 else (lookup n markWeights).getD 32

/-- The tertiary weight: 8 for an upper-case letter, the common weight 2 for everything else. -/
def tertiaryWeight (n : Nat) : Nat :=
  if 65 ≤ n ∧ n ≤ 90 then 8 else 2

/-- The code points of a string as the collation reads them: decomposed, in canonical order,
without the ignorable ones. -/
def collationUnits (a : String) : List Nat :=
  ((canonicalOrder [] ((a.data.map Char.toNat).flatMap decompose)).reverse).filter
    (fun n => !isIgnorable n)

/-- The weights of one level of a string: those of its units that are not 0. -/
def levelKey (weight : Nat → Nat) (a : String) : List Nat :=
  ((collationUnits a).map weight).filter (fun w => w != 0)

/-- The method `a.localeCompare(b)`.  It is a builtin of the runtime, not code of the
repository: ECMAScript defines it as a consistent comparison of the two strings by the
collation of the host locale that returns 0 for canonically equivalent strings, and browsers
compute it with the Unicode Collation Algorithm.  This is that algorithm with the weights of the
root collation (the one English locales use): the primary weights (base letters) decide, then
the secondary ones (accents), then the tertiary ones (case), and the result is -1, 0 or 1.  The
tables cover ASCII, the Latin-1 letters that have a canonical decomposition and their combining
marks; a code point outside them is given a primary weight of its own after the tables, so for
such strings, and under a locale with a tailored collation, the order of the builtin may differ.
Swapping the two strings negates the result, as for any consistent comparison. -/
def localeCompare (a b : String) : Int :=
  if compareWeights (levelKey primaryWeight a) (levelKey primaryWeight b) ≠ 0 then
    compareWeights (levelKey primaryWeight a) (levelKey primaryWeight b)
  else if compareWeights (levelKey secondaryWeight a) (levelKey secondaryWeight b) ≠ 0 then
    compareWeights (levelKey secondaryWeight a) (levelKey secondaryWeight b)
  else compareWeights (levelKey tertiaryWeight a) (levelKey tertiaryWeight b)

/-- The function `shouldInitiate(remoteUser)`, with the global `localUser` as first argument. -/
def shouldInitiate (localUser remoteUser : String) : Bool :=
  if localUser = "" then false
  else decide (localeCompare localUser remoteUser > 0)

/-- The name "é" written as the single code point U+00E9. -/
def composedName : String := String.mk [Char.ofNat 233]

/-- The name "é" written as "e" followed by the combining acute accent U+0301. -/
def decomposedName : String := String.mk [Char.ofNat 101, Char.ofNat 769]

/-! ## Track synchroniser -/

/-- The slot `senders[kind]`. -/
def Senders.get (ss : Senders) : Kind → Option Nat
  | .audio => ss.audio
  | .video => ss.video
  | .screen => ss.screen

/-- The assignment `senders[kind] = value`. -/
def Senders.set (ss : Senders) (kind : Kind) (value : Option Nat) : Senders :=
  match kind with
  | .audio => { ss with audio := value }
  | .video => { ss with video := value }
  | .screen => { ss with screen := value }

/-- The variable `track` of `syncPeerSender`: the first local track of the slot's kind, or
`null`. -/
def localTrack (s : State) : Kind → Option Track
  | .audio => s.localStream.audioTracks.head?
  | .video => s.localStream.videoTracks.head?
  | .screen => s.screenStream.bind (fun st => st.videoTracks.head?)

/-- The variable `stream` of `syncPeerSender`, as a truth value: `localStream` always is an
object, `screenStream` may be `null`. -/
def localStreamPresent (s : State) : Kind → Bool
  | .audio => true
  | .video => true
  | .screen => s.screenStream.isSome

/-- The function `syncPeerSender(peer, kind)`: the `peer` object after the call, and the
state. -/
def syncPeerSender (peer : Peer) (kind : Kind) (s : State) : Peer × State :=
  match localTrack s kind, localStreamPresent s kind with
  | some track, true =>
    match peer.senders.get kind with
    | some current => (peer, emit (.replaceTrack current track) s)
    | none =>
      ({ peer with senders := peer.senders.set kind (some s.nextId) },
        emit (.addTrack peer.pc track s.nextId) { s with nextId := s.nextId + 1 })
  | _, _ =>
    match peer.senders.get kind with
    | some current =>
      ({ peer with senders := peer.senders.set kind none }, emit (.removeTrack peer.pc current) s)
    | none => (peer, s)

/-- The loop `peers.forEach((peer) => syncPeerSender(peer, kind))` over the entries. -/
def syncEntries (kind : Kind) : List (String × Peer) → State → List (String × Peer) × State
  | [], s => ([], s)
  | (user, peer) :: rest, s =>
    let r := syncPeerSender peer kind s
    let rs := syncEntries kind rest r.2
    ((user, r.1) :: rs.1, rs.2)

/-- The statement `peers.forEach((peer) => syncPeerSender(peer, kind))`. -/
def syncAllPeers (kind : Kind) (s : State) : State :=
  let r := syncEntries kind s.peers s
  { r.2 with peers := r.1 }

/-! ## Peer registry -/

/-- The three statements `syncPeerSender(peer, "audio")`, `syncPeerSender(peer, "video")` and
`syncPeerSender(peer, "screen")` that end `ensurePeer`. -/
def syncSenders (peer : Peer) (s : State) : Peer × State :=
  let a := syncPeerSender peer .audio s
  let v := syncPeerSender a.1 .video a.2
  syncPeerSender v.1 .screen v.2

/-- The part of `ensurePeer(user)` that runs when the map has no entry for `user`: a new
connection, a new entry with empty slots stored in the map, then its senders; the entry in the
map is the `peer` object, so it ends with the senders set. -/
def createPeer (user : String) (s : State) : Peer × State :=
  let pc := s.nextId
  let peer : Peer :=
    { pc := pc, senders := { audio := none, video := none, screen := none },
      makingOffer := false, initialOfferSent := false }
  let s0 := emit (.newConnection pc) { s with nextId := s.nextId + 1 }
  let s1 := { s0 with peers := peersSet s0.peers user peer }
  let r := syncSenders peer s1
  (r.1, { r.2 with peers := peersSet r.2.peers user r.1 })

/-- The function `ensurePeer(user)`: the entry it returns, and the state. -/
def ensurePeer (user : String) (s : State) : Peer × State :=
  match peersGet s.peers user with
  | some peer => (peer, s)
  | none => createPeer user s

/-- The loop of `closePeer` over `Object.values(peer.senders)`: one `removeTrack` for each
slot that holds a sender. -/
def releaseSenders (pc : Nat) (slots : List (Option Nat)) (s : State) : State :=
  slots.foldl (fun st slot =>
    match slot with
    | some sender => emit (.removeTrack pc sender) st
    | none => st) s

/-- The function `closePeer(user)`. -/
def closePeer (user : String) (s : State) : State :=
  match peersGet s.peers user with
  | none => s
  | some peer =>
    let s1 := releaseSenders peer.pc [peer.senders.audio, peer.senders.video, peer.senders.screen] s
    let s2 := emit (.close peer.pc) s1
    { s2 with peers := peersDelete s2.peers user }

/-! ## Negotiation engine -/

/-- The function `negotiateWith(user)` up to its first `await`: past the guard it raises
`makingOffer`, calls `createOffer` and waits. -/
def negotiateWith (user : String) (s : State) : State :=
  let r := ensurePeer user s
  if r.1.makingOffer then r.2
  else
    suspend (.negotiateCreateOffer user r.1.pc)
      (emit (.createOffer r.1.pc)
        (updatePeer user r.1.pc (fun p => { p with makingOffer := true }) r.2))

/-- The function `handleOffer(message)` up to its first `await`. -/
def handleOffer (message : Message) (s : State) : State :=
  let r := ensurePeer message.user s
  match message.sdp with
  | none => r.2
  | some sdp =>
    suspend (.offerSetRemote message.user r.1.pc) (emit (.setRemoteDescription r.1.pc sdp) r.2)

/-- The function `handleAnswer(message)` up to its first `await`. -/
def handleAnswer (message : Message) (s : State) : State :=
  match peersGet s.peers message.user with
  | none => s
  | some peer =>
    match message.sdp with
    | none => s
    | some sdp =>
      suspend (.answerSetRemote message.user peer.pc) (emit (.setRemoteDescription peer.pc sdp) s)

/-- The function `handleCandidate(message)` up to its first `await`. -/
def handleCandidate (message : Message) (s : State) : State :=
  match peersGet s.peers message.user, message.candidate with
  | some peer, some candidate =>
    suspend (.candidateAdd message.user peer.pc) (emit (.addIceCandidate peer.pc candidate) s)
  | _, _ => s

/-! ## Roster reconciler -/

/-- The first loop of `syncPeers`: `peers.forEach` visits the entries that are still in the
map, and closes and deletes those whose key is not in `others`. -/
def removeDeparted (others : List String) (keys : List String) (s : State) : State :=
  keys.foldl (fun st user =>
    if peersHas st.peers user then
      if others.contains user then st
      else
        let st1 := closePeer user st
        { st1 with peers := peersDelete st1.peers user }
    else st) s

/-- The body of the second loop of `syncPeers` for one name of `others`. -/
def connectOther (s : State) (user : String) : State :=
  let r := ensurePeer user s
  if shouldInitiate r.2.localUser user && !r.1.initialOfferSent then
    negotiateWith user (updatePeer user r.1.pc (fun p => { p with initialOfferSent := true }) r.2)
  else r.2

/-- The function `syncPeers(participants)`. -/
def syncPeers (participants : List String) (s : State) : State :=
  if s.localUser = "" then s
  else
    let others := participants.filter (fun name => decide (name ≠ "" ∧ name ≠ s.localUser))
    let s1 := removeDeparted others (s.peers.map Prod.fst) s
    others.foldl connectOther s1

/-! ## Media tiles and remote media states -/

/-- The function `ensureMediaTile(user)`, on the keys of `mediaTiles`; the page is taken to
have its media grid (`mediaGrid` is an element). -/
def ensureMediaTile (user : String) (s : State) : State :=
  if s.mediaTiles.contains user then s
  else { s with mediaTiles := s.mediaTiles ++ [user] }

/-- The function `removeMediaTile(user)`, on the keys of `mediaTiles`. -/
def removeMediaTile (user : String) (s : State) : State :=
  { s with mediaTiles := s.mediaTiles.filter (fun k => decide (k ≠ user)) }

/-- The function `updateTileStatus(user, state)`: it writes to the page after
`ensureMediaTile(user)`. -/
def updateTileStatus (user : String) (s : State) : State :=
  ensureMediaTile user s

/-- The assignment `remoteMediaStates[user] = state`. -/
def remoteSet (table : List (String × MediaState)) (user : String) (state : MediaState) :
    List (String × MediaState) :=
  if table.any (fun e => decide (e.1 = user)) then
    table.map (fun e => if e.1 = user then (e.1, state) else e)
  else table ++ [(user, state)]

/-- The statement `delete remoteMediaStates[user]`. -/
def remoteDelete (table : List (String × MediaState)) (user : String) :
    List (String × MediaState) :=
  table.filter (fun e => decide (e.1 ≠ user))

/-- The function `updateRemoteMedia(user, state)`. -/
def updateRemoteMedia (user : String) (state : MediaState) (s : State) : State :=
  updateTileStatus user { s with remoteMediaStates := remoteSet s.remoteMediaStates user state }

/-- The function `pruneMediaTiles(participants)`. -/
def pruneMediaTiles (participants : List String) (s : State) : State :=
  s.mediaTiles.foldl (fun st user =>
    if participants.contains user || decide (user = st.localUser) then st
    else
      let st1 := removeMediaTile user st
      { st1 with remoteMediaStates := remoteDelete st1.remoteMediaStates user }) s

/-- The function `updateLocalTile()`, on the keys of `mediaTiles`. -/
def updateLocalTile (s : State) : State :=
  if s.localUser = "" then s
  else updateTileStatus s.localUser (ensureMediaTile s.localUser s)

/-- The function `handleRemoteTrack(user, event)`; `hasStream` tells whether `event.streams`
holds a stream. -/
def handleRemoteTrack (user : String) (hasStream : Bool) (s : State) : State :=
  if hasStream then ensureMediaTile user s else s

/-- The function `renderState(state)`. -/
def renderState (participants : List String) (mediaStates : List (String × MediaState))
    (s : State) : State :=
  let s1 := participants.foldl (fun st name => ensureMediaTile name st) s
  let s2 := syncPeers participants (pruneMediaTiles participants s1)
  mediaStates.foldl (fun st e => updateRemoteMedia e.1 e.2 st) s2

/-! ## Local media source -/

/-- The function `sendMediaUpdate()`. -/
def sendMediaUpdate (s : State) : State :=
  if s.localUser = "" then s
  else sendMessage { type := "media:update", user := s.localUser, media := some s.mediaState } s

/-- The calls `track.stop()` for a list of tracks. -/
def stopTracks (tracks : List Track) (s : State) : State :=
  tracks.foldl (fun st track => emit (.stopTrack track) st) s

/-- The function `stopAudioTracks()`. -/
def stopAudioTracks (s : State) : State :=
  let s1 := stopTracks s.localStream.audioTracks s
  { s1 with localStream := { s1.localStream with audioTracks := [] } }

/-- The function `stopVideoTracks()`. -/
def stopVideoTracks (s : State) : State :=
  let s1 := stopTracks s.localStream.videoTracks s
  { s1 with localStream := { s1.localStream with videoTracks := [] } }

/-- The function `stopScreenShare()`. -/
def stopScreenShare (s : State) : State :=
  let s1 :=
    match s.screenStream with
    | some st => { stopTracks (st.audioTracks ++ st.videoTracks) s with screenStream := none }
    | none => s
  sendMediaUpdate (updateLocalTile
    (syncAllPeers .screen { s1 with mediaState := { s1.mediaState with screen := false } }))

/-- The statements of `toggleMic` after its `if`/`else`: the senders of every peer, the local
tile, then the media update. -/
def toggleMicFinish (s : State) : State :=
  sendMediaUpdate (updateLocalTile (syncAllPeers .audio s))

/-- The function `toggleMic()` up to its first `await`. -/
def toggleMic (s : State) : State :=
  if s.mediaState.audio then
    let s1 := stopAudioTracks s
    toggleMicFinish { s1 with mediaState := { s1.mediaState with audio := false } }
  else suspend .micCapture (emit (.getUserMedia true false) s)

/-- The statements of `toggleCamera` after its `if`/`else`. -/
def toggleCameraFinish (s : State) : State :=
  sendMediaUpdate (updateLocalTile (syncAllPeers .video s))

/-- The function `toggleCamera()` up to its first `await`. -/
def toggleCamera (s : State) : State :=
  if s.mediaState.video then
    let s1 := stopVideoTracks s
    toggleCameraFinish { s1 with mediaState := { s1.mediaState with video := false } }
  else suspend .cameraCapture (emit (.getUserMedia false true) s)

/-- The function `toggleScreenShare()` up to its first `await`. -/
def toggleScreenShare (s : State) : State :=
  if s.mediaState.screen then stopScreenShare s
  else suspend .screenCapture (emit .getDisplayMedia s)

/-- The function `stopAllMedia()`. -/
def stopAllMedia (s : State) : State :=
  let s1 := stopScreenShare (stopVideoTracks (stopAudioTracks s))
  updateLocalTile { s1 with mediaState := { audio := false, video := false, screen := false } }

/-- The function `cleanupPeers()`: of the tiles only the local one is kept. -/
def cleanupPeers (s : State) : State :=
  let s1 := (s.peers.map Prod.fst).foldl (fun st user => closePeer user st) s
  { s1 with
    peers := [], remoteMediaStates := [],
    mediaTiles := s1.mediaTiles.filter (fun k => decide (k = s1.localUser)) }

/-! ## Resuming a suspended call -/

/-- What a suspended call does when the promise it awaits settles, up to its next `await` or
its end; `none` when the promise of that call cannot settle this way. -/
def resumeTask (t : Task) (r : Outcome) (s : State) : Option State :=
  match t, r with
  | .negotiateCreateOffer user pc, .description offer =>
    some (suspend (.negotiateSetLocal user pc offer) (emit (.setLocalDescription pc offer) s))
  | .negotiateCreateOffer user pc, .rejected =>
    some (emit (.error "negotiateWith") (updatePeer user pc (fun p => { p with makingOffer := false }) s))
  | .negotiateSetLocal user pc offer, .fulfilled =>
    some (updatePeer user pc (fun p => { p with makingOffer := false })
      (sendMessage { type := "webrtc:offer", user := s.localUser, target := some user, sdp := some offer } s))
  | .negotiateSetLocal user pc _, .rejected =>
    some (emit (.error "negotiateWith") (updatePeer user pc (fun p => { p with makingOffer := false }) s))
  | .offerSetRemote user pc, .fulfilled =>
    some (suspend (.offerCreateAnswer user pc) (emit (.createAnswer pc) s))
  | .offerSetRemote _ _, .rejected => some (emit (.error "handleOffer") s)
  | .offerCreateAnswer user pc, .description answer =>
    some (suspend (.offerSetLocal user pc answer) (emit (.setLocalDescription pc answer) s))
  | .offerCreateAnswer _ _, .rejected => some (emit (.error "handleOffer") s)
  | .offerSetLocal user _ answer, .fulfilled =>
    some (sendMessage { type := "webrtc:answer", user := s.localUser, target := some user, sdp := some answer } s)
  | .offerSetLocal _ _ _, .rejected => some (emit (.error "handleOffer") s)
  | .answerSetRemote _ _, .fulfilled => some s
  | .answerSetRemote _ _, .rejected => some (emit (.error "handleAnswer") s)
  | .candidateAdd _ _, .fulfilled => some s
  | .candidateAdd _ _, .rejected => some (emit (.error "candidate error") s)
  | .micCapture, .stream captured =>
    some (toggleMicFinish
      { s with
        localStream := { s.localStream with audioTracks := s.localStream.audioTracks ++ captured.audioTracks },
        mediaState := { s.mediaState with audio := true } })
  | .micCapture, .rejected => some (toggleMicFinish (emit (.error "toggleMic") s))
  | .cameraCapture, .stream captured =>
    some (toggleCameraFinish
      { s with
        localStream := { s.localStream with videoTracks := s.localStream.videoTracks ++ captured.videoTracks },
        mediaState := { s.mediaState with video := true } })
  | .cameraCapture, .rejected => some (toggleCameraFinish (emit (.error "toggleCamera") s))
  | .screenCapture, .stream captured =>
    some (sendMediaUpdate (updateLocalTile (syncAllPeers .screen
      { s with screenStream := some captured, mediaState := { s.mediaState with screen := true } })))
  | .screenCapture, .rejected => some (emit (.error "toggleScreenShare") s)
  | _, _ => none

/-- The browser settles the promise awaited by the suspended call number `index`: the call
leaves the list of suspended calls and runs on.  Nothing happens when there is no such call or
its promise cannot settle this way. -/
def settle (index : Nat) (r : Outcome) (s : State) : State :=
  match s.tasks.get? index with
  | none => s
  | some t =>
    match resumeTask t r { s with tasks := s.tasks.eraseIdx index } with
    | some s1 => s1
    | none => s

/-! ## Event handlers -/

/-- The `message` listener of the socket in `connectRoom`, on the parsed `data`.  The cases
`chat` and `event` only write to the page. -/
def onMessage (data : Message) (s : State) : State :=
  if data.type = "state" then renderState data.participants data.media_states s
  else if data.type = "chat" then s
  else if data.type = "event" then s
  else if data.type = "media:update" then
    updateRemoteMedia data.user (data.media.getD { audio := false, video := false, screen := false }) s
  else if data.type = "webrtc:offer" then
    if data.target = some s.localUser then handleOffer data s else s
  else if data.type = "webrtc:answer" then
    if data.target = some s.localUser then handleAnswer data s else s
  else if data.type = "webrtc:candidate" then
    if data.target = some s.localUser then handleCandidate data s else s
  else s

/-- The callback `pc.onnegotiationneeded` of the connection made for `user`. -/
def onNegotiationNeeded (user : String) (s : State) : State :=
  if shouldInitiate s.localUser user then negotiateWith user s else s

/-- The callback `pc.onicecandidate` of the connection made for `user`. -/
def onIceCandidate (user : String) (candidate : Option Candidate) (s : State) : State :=
  match candidate with
  | some c =>
    sendMessage { type := "webrtc:candidate", user := s.localUser, target := some user, candidate := some c } s
  | none => s

/-- The callback `pc.onconnectionstatechange` of the connection made for `user`, with the
value of `pc.connectionState`. -/
def onConnectionStateChange (user : String) (connectionState : String) (s : State) : State :=
  if ["failed", "disconnected", "closed"].contains connectionState then closePeer user s else s

/-- The `close` listener of the socket: the socket is no longer open, then `cleanupPeers()`
and `stopAllMedia()`. -/
def onSocketClose (s : State) : State :=
  stopAllMedia (cleanupPeers { s with socketOpen := false })

/-- One reaction of the client: an event the browser delivers to one of the script's
listeners. -/
inductive Event where
  /-- A message arrives on the socket. -/
  | message (data : Message)
  /-- The connection made for `user` fires `negotiationneeded`. -/
  | negotiationNeeded (user : String)
  /-- The connection made for `user` fires `icecandidate`. -/
  | iceCandidate (user : String) (candidate : Option Candidate)
  /-- The connection made for `user` fires `connectionstatechange`. -/
  | connectionStateChange (user : String) (connectionState : String)
  /-- The connection made for `user` fires `track`. -/
  | track (user : String) (hasStream : Bool)
  /-- A click on the microphone button. -/
  | micClick
  /-- A click on the camera button. -/
  | cameraClick
  /-- A click on the screen-share button. -/
  | screenClick
  /-- The shared screen track fires `ended`. -/
  | screenEnded
  /-- The socket closes. -/
  | socketClose
  /-- An awaited promise settles. -/
  | settled (index : Nat) (outcome : Outcome)
deriving DecidableEq, Repr

/-- The state after one reaction. -/
def react (s : State) : Event → State
  | .message data => onMessage data s
  | .negotiationNeeded user => onNegotiationNeeded user s
  | .iceCandidate user candidate => onIceCandidate user candidate s
  | .connectionStateChange user connectionState => onConnectionStateChange user connectionState s
  | .track user hasStream => handleRemoteTrack user hasStream s
  | .micClick => toggleMic s
  | .cameraClick => toggleCamera s
  | .screenClick => toggleScreenShare s
  | .screenEnded => stopScreenShare s
  | .socketClose => onSocketClose s
  | .settled index outcome => settle index outcome s

/-- The state after a sequence of reactions. -/
def run (s : State) (events : List Event) : State :=
  events.foldl react s

/-- The state of a freshly joined client: `localUser` set by `connectRoom`, an open socket, an
empty map of peers, the local tile, no local media, nothing suspended and nothing logged. -/
def initialState (localUser : String) : State :=
  { localUser := localUser, peers := [],
    localStream := { audioTracks := [], videoTracks := [] }, screenStream := none,
    mediaState := { audio := false, video := false, screen := false },
    remoteMediaStates := [], mediaTiles := [localUser],
    socketOpen := true, nextId := 0, tasks := [], log := [] }

/-- A state used to instantiate the theorems: the client of dave, with an open socket, a
microphone track, and entries for alice, bob and carol. -/
def sampleState : State :=
  { localUser := "dave",
    peers :=
      [("alice",
        { pc := 0, senders := { audio := some 1, video := none, screen := none },
          makingOffer := false, initialOfferSent := true }),
       ("bob",
        { pc := 2, senders := { audio := some 3, video := some 4, screen := none },
          makingOffer := false, initialOfferSent := true }),
       ("carol",
        { pc := 5, senders := { audio := some 6, video := none, screen := none },
          makingOffer := true, initialOfferSent := true })],
    localStream := { audioTracks := [100], videoTracks := [] }, screenStream := none,
    mediaState := { audio := true, video := false, screen := false },
    remoteMediaStates := [("bob", { audio := true, video := true, screen := false })],
    mediaTiles := ["dave", "alice", "bob", "carol"],
    socketOpen := true, nextId := 7, tasks := [Task.negotiateCreateOffer "carol" 5],
    log := ([] : List Effect) }

/-! ## Predicates used in the statements -/

/-- The entry of `u` exists and, when the local side initiates toward `u`, has its first offer
marked as sent. -/
def Offered (s : State) (u : String) : Prop :=
  ∃ p, peersGet s.peers u = some p ∧ (shouldInitiate s.localUser u = true → p.initialOfferSent = true)

/-- The entry of bob in `sampleState`. -/
def sampleBob : Peer :=
  { pc := 2, senders := { audio := some 3, video := some 4, screen := none },
    makingOffer := false, initialOfferSent := true }

/-- The messages handed to `socket.send`, in order: the payloads of the `send` calls of the
log. -/
def sent (s : State) : List Message :=
  s.log.filterMap (fun e => match e with
    | .send payload => some payload
    | _ => none)

/-- The three reactions from the roster snapshot to the sent offer, on the side of bob: the
snapshot arrives, `createOffer` fulfils with description 7, `setLocalDescription` fulfils. -/
def offerRun : List Event :=
  [.message { type := "state", participants := ["alice", "bob"] },
   .settled 0 (.description 7),
   .settled 0 .fulfilled]

/-- The reactions of bob when applying the local description fails: the snapshot arrives,
`createOffer` fulfils with description 7, `setLocalDescription` rejects. -/
def failedOfferRun : List Event :=
  [.message { type := "state", participants := ["alice", "bob"] },
   .settled 0 (.description 7),
   .settled 0 .rejected]

/-- The entry of carol in `sampleState`. -/
def sampleCarol : Peer :=
  { pc := 5, senders := { audio := some 6, video := none, screen := none },
    makingOffer := true, initialOfferSent := true }

/-! ## The timer lengths -/

/-- The white space that `parseInt` skips at the start of its argument (`StrWhiteSpaceChar`),
by code point. -/
def isStrWhiteSpace (c : Char) : Bool :=
  [9, 10, 11, 12, 13, 32, 160, 5760, 8192, 8193, 8194, 8195, 8196, 8197, 8198, 8199, 8200,
    8201, 8202, 8232, 8233, 8239, 8287, 12288, 65279].contains c.toNat

/-- The value of the longest run of decimal digits at the start of `cs`, read after the digits
of value `acc`; `none` when no digit has been read. -/
def readDigits : List Char → Option Nat → Option Nat
  | [], acc => acc
  | c :: cs, acc =>
    if 48 ≤ c.toNat ∧ c.toNat ≤ 57 then readDigits cs (some (acc.getD 0 * 10 + (c.toNat - 48)))
    else acc

/-- The call `parseInt(text, 10)`: leading white space, an optional sign, then the longest run
of decimal digits; `none` is `NaN`.  The value is the exact integer (a JavaScript number
rounds it beyond 2^53, which no comparison made here can see). -/
def parseInt (text : String) : Option Int :=
  match text.data.dropWhile isStrWhiteSpace with
  | '-' :: rest => (readDigits rest none).map (fun n => - (n : Int))
  | '+' :: rest => (readDigits rest none).map (fun n => (n : Int))
  | rest => (readDigits rest none).map (fun n => (n : Int))

/-- The function `getDurationSeconds(kind)`; `focusLengthInput` and `breakLengthInput` are the
`value` of the two inputs, `none` when the page lacks the element. -/
def getDurationSeconds (kind : String) (focusLengthInput breakLengthInput : Option String) : Int :=
  match (if kind = "focus" then focusLengthInput else breakLengthInput) with
  | none => (if kind = "focus" then 25 else 5) * 60
  | some text =>
    match parseInt text with
    | none => (if kind = "focus" then 25 else 5) * 60
    | some value =>
      if value ≤ 0 then (if kind = "focus" then 25 else 5) * 60
      else min value (if kind = "focus" then 300 else 180) * 60

/-- The states `s` and `s1` agree on what the signalling sees: the local identity, whether the
socket is open, and the messages sent so far. -/
def SameWire (s s1 : State) : Prop :=
  s1.localUser = s.localUser ∧ s1.socketOpen = s.socketOpen ∧ sent s1 = sent s

/-- The message is not an offer, or it is an offer addressed to a peer toward which the
identity `localUser` is the initiator. -/
def offerAllowed (localUser : String) (m : Message) : Prop :=
  m.type = "webrtc:offer" → ∃ target, m.target = some target ∧ shouldInitiate localUser target = true

/-- The suspended call is not a `negotiateWith`, or it is one for a peer toward which the
identity `localUser` is the initiator. -/
def taskAllowed (localUser : String) : Task → Prop
  | .negotiateCreateOffer user _ => shouldInitiate localUser user = true
  | .negotiateSetLocal user _ _ => shouldInitiate localUser user = true
  | _ => True

/-- Every offer sent so far, and every offer being made, goes to a peer toward which the local
identity is the initiator. -/
def GlareFree (s : State) : Prop :=
  (∀ m ∈ sent s, offerAllowed s.localUser m) ∧ (∀ t ∈ s.tasks, taskAllowed s.localUser t)

/-- From `s` to `s1` the local identity is kept, and what is new among the messages sent and
the suspended calls is allowed for an initiator. -/
def Quiet (s s1 : State) : Prop :=
  s1.localUser = s.localUser ∧
  (∀ m ∈ sent s1, m ∈ sent s ∨ offerAllowed s.localUser m) ∧
  (∀ t ∈ s1.tasks, t ∈ s.tasks ∨ taskAllowed s.localUser t)

/-- The connection on which a call is made, for the calls made on a connection. -/
def Effect.connection? : Effect → Option Nat
  | .newConnection pc => some pc
  | .addTrack pc _ _ => some pc
  | .removeTrack pc _ => some pc
  | .close pc => some pc
  | .createOffer pc => some pc
  | .createAnswer pc => some pc
  | .setLocalDescription pc _ => some pc
  | .setRemoteDescription pc _ => some pc
  | .addIceCandidate pc _ => some pc
  | _ => none

/-- From `s` to `s1` the log grows, and every call added satisfies `P`. -/
def LogAdds (P : Effect → Prop) (s s1 : State) : Prop :=
  ∃ added, s1.log = s.log ++ added ∧ ∀ e ∈ added, P e

/-- An offer of erin addressed to dave, the local identity of `sampleState`. -/
def sampleOffer : Message :=
  { type := "webrtc:offer", user := "erin", target := some "dave", sdp := some 11 }

/-- The reactions of alice when the connection of bob fails and bob then sends an offer: the
roster snapshot arrives (alice does not initiate toward bob), the connection made for bob
reports "failed", an offer of bob arrives, and the three promises of `handleOffer` fulfil. -/
def failedThenOfferRun : List Event :=
  [.message { type := "state", participants := ["alice", "bob"] },
   .connectionStateChange "bob" "failed",
   .message { type := "webrtc:offer", user := "bob", target := some "alice", sdp := some 7 },
   .settled 0 .fulfilled,
   .settled 0 (.description 9),
   .settled 0 .fulfilled]

/-- An inbound message that is dropped while `peer` has no entry: an answer or a candidate of
`peer`, or a roster snapshot without `peer`. -/
def DroppedFor (peer : String) (e : Event) : Prop :=
  ∃ data, e = .message data ∧
    ((data.user = peer ∧ (data.type = "webrtc:answer" ∨ data.type = "webrtc:candidate")) ∨
     (data.type = "state" ∧ peer ∉ data.participants))

/-- The calls `closePeer` makes on the connection of the entry `p`: one `removeTrack` for each
slot that holds a sender, in the order audio, video, screen, then one `close`. -/
def teardownCalls (p : Peer) : List Effect :=
  ([p.senders.audio, p.senders.video, p.senders.screen].filterMap id).map (Effect.removeTrack p.pc)
    ++ [Effect.close p.pc]

/-- The connection `c` is not the connection of any entry of the map, and is older than the
next object the browser will hand out. -/
def Away (c : Nat) (s : State) : Prop :=
  c < s.nextId ∧ ∀ e ∈ s.peers, e.2.pc ≠ c

/-- Every slot of the entry `p` is occupied exactly when the state has a local track of its
kind. -/
def PeerSynced (s : State) (p : Peer) : Prop :=
  ∀ kind, (p.senders.get kind).isSome = (localTrack s kind).isSome

/-- Every entry of the map has its slots in line with the local tracks. -/
def Synced (s : State) : Prop :=
  ∀ e ∈ s.peers, PeerSynced s e.2

/-- From `s` to `s1` the map of peers and the local streams are the same. -/
def SameMedia (s s1 : State) : Prop :=
  s1.peers = s.peers ∧ s1.localStream = s.localStream ∧ s1.screenStream = s.screenStream

/-- From `s` to `s1` the local streams are the same, and every entry of the map either has the
senders of an entry of `s` or is in line with the local tracks. -/
def Keeps (s s1 : State) : Prop :=
  s1.localStream = s.localStream ∧ s1.screenStream = s.screenStream ∧
  ∀ e ∈ s1.peers, (∃ e0 ∈ s.peers, e.2.senders = e0.2.senders) ∨ PeerSynced s e.2

end StudyRoom

namespace StudyRoom

/-! ## Role assignment: one initiator for names the comparison tells apart -/

theorem compareWeights_swap (a b : List Nat) : compareWeights b a = - compareWeights a b := by
  induction a generalizing b with
  | nil => cases b <;> simp [compareWeights]
  | cons x xs ih =>
    cases b with
    | nil => simp [compareWeights]
    | cons y ys =>
      simp only [compareWeights]
      by_cases h1 : x < y
      · have h2 : ¬ y < x := by omega
        simp [h1, h2]
      · by_cases h2 : y < x
        · simp [h1, h2]
        · simp [h1, h2, ih]

theorem compareWeights_nil_left (b : List Nat) : compareWeights [] b ≤ 0 := by
  cases b <;> simp [compareWeights]

theorem levelKey_empty (weight : Nat → Nat) : levelKey weight "" = [] := rfl

theorem localeCompare_swap (a b : String) : localeCompare b a = - localeCompare a b := by
  unfold localeCompare
  rw [compareWeights_swap (levelKey primaryWeight a) (levelKey primaryWeight b),
    compareWeights_swap (levelKey secondaryWeight a) (levelKey secondaryWeight b),
    compareWeights_swap (levelKey tertiaryWeight a) (levelKey tertiaryWeight b)]
  by_cases h1 : compareWeights (levelKey primaryWeight a) (levelKey primaryWeight b) = 0
  · by_cases h2 : compareWeights (levelKey secondaryWeight a) (levelKey secondaryWeight b) = 0
    · simp [h1, h2]
    · simp [h1, h2]
  · simp [h1]

theorem localeCompare_empty_left (b : String) : localeCompare "" b ≤ 0 := by
  unfold localeCompare
  simp only [levelKey_empty]
  split
  · exact compareWeights_nil_left _
  · split
    · exact compareWeights_nil_left _
    · exact compareWeights_nil_left _

theorem shouldInitiate_empty (B : String) : shouldInitiate "" B = false := by
  simp [shouldInitiate]

theorem shouldInitiate_of_ne_empty (A B : String) (h : A ≠ "") :
    shouldInitiate A B = decide (localeCompare A B > 0) := by
  simp [shouldInitiate, h]

/-- C1, as stated, fails: "é" written as U+00E9 and written as "e" with the combining acute
accent U+0301 are two distinct identities, `localeCompare` returns 0 for them, and
`shouldInitiate` is false on both sides: it is not the case that one side is the initiator
exactly when the other is not. -/
theorem equivalent_spellings_no_initiator :
    composedName ≠ decomposedName ∧
    localeCompare composedName decomposedName = 0 ∧
    shouldInitiate composedName decomposedName = false ∧
    shouldInitiate decomposedName composedName = false ∧
    ¬ (shouldInitiate composedName decomposedName = true ↔
        shouldInitiate decomposedName composedName = false) := by
  decide

/-- C1, amended: for two identities `A` and `B`, exactly one side is the initiator
(`shouldInitiate` with local `A` and remote `B` is true if and only if `shouldInitiate` with
local `B` and remote `A` is false) precisely when `A.localeCompare(B)` is not 0, and neither side
is precisely when it is 0; local "bob" toward "alice" is true and local "alice" toward "bob" is
false. -/
theorem shouldInitiate_exactly_one_iff_told_apart (A B : String) :
    ((shouldInitiate A B = true ↔ shouldInitiate B A = false) ↔ localeCompare A B ≠ 0) ∧
    ((shouldInitiate A B = false ∧ shouldInitiate B A = false) ↔ localeCompare A B = 0) ∧
    shouldInitiate "bob" "alice" = true ∧ shouldInitiate "alice" "bob" = false := by
  refine ⟨?_, ?_, by decide, by decide⟩
  all_goals
    have hsw := localeCompare_swap A B
    by_cases hA : A = ""
    · subst hA
      have h0 := localeCompare_empty_left B
      by_cases hB : B = ""
      · subst hB
        simp only [shouldInitiate_empty]
        have : localeCompare "" "" = 0 := by omega
        simp [this]
      · simp only [shouldInitiate_empty, shouldInitiate_of_ne_empty B "" hB,
          decide_eq_true_eq, decide_eq_false_iff_not]
        constructor <;> intro h <;> first | omega | (constructor <;> omega) | (simp at h ⊢; omega)
    · by_cases hB : B = ""
      · subst hB
        have h0 := localeCompare_empty_left A
        simp only [shouldInitiate_empty, shouldInitiate_of_ne_empty A "" hA,
          decide_eq_true_eq, decide_eq_false_iff_not]
        constructor <;> intro h <;> first | omega | (constructor <;> omega) | (simp at h ⊢; omega)
      · simp only [shouldInitiate_of_ne_empty A B hA, shouldInitiate_of_ne_empty B A hB,
          decide_eq_true_eq, decide_eq_false_iff_not]
        constructor <;> intro h <;> omega

/-! ## Frame lemmas: what each operation leaves alone -/

@[simp] theorem emit_peers (e : Effect) (s : State) : (emit e s).peers = s.peers := rfl
@[simp] theorem emit_localUser (e : Effect) (s : State) : (emit e s).localUser = s.localUser := rfl
@[simp] theorem emit_tasks (e : Effect) (s : State) : (emit e s).tasks = s.tasks := rfl
@[simp] theorem emit_log (e : Effect) (s : State) : (emit e s).log = s.log ++ [e] := rfl
@[simp] theorem emit_socketOpen (e : Effect) (s : State) : (emit e s).socketOpen = s.socketOpen := rfl
@[simp] theorem suspend_peers (t : Task) (s : State) : (suspend t s).peers = s.peers := rfl
@[simp] theorem suspend_localUser (t : Task) (s : State) : (suspend t s).localUser = s.localUser := rfl
@[simp] theorem suspend_tasks (t : Task) (s : State) : (suspend t s).tasks = s.tasks ++ [t] := rfl
@[simp] theorem suspend_log (t : Task) (s : State) : (suspend t s).log = s.log := rfl
@[simp] theorem suspend_socketOpen (t : Task) (s : State) : (suspend t s).socketOpen = s.socketOpen := rfl
@[simp] theorem updatePeer_localUser (u : String) (pc : Nat) (f : Peer → Peer) (s : State) :
    (updatePeer u pc f s).localUser = s.localUser := rfl
@[simp] theorem updatePeer_tasks (u : String) (pc : Nat) (f : Peer → Peer) (s : State) :
    (updatePeer u pc f s).tasks = s.tasks := rfl
@[simp] theorem updatePeer_log (u : String) (pc : Nat) (f : Peer → Peer) (s : State) :
    (updatePeer u pc f s).log = s.log := rfl
@[simp] theorem updatePeer_socketOpen (u : String) (pc : Nat) (f : Peer → Peer) (s : State) :
    (updatePeer u pc f s).socketOpen = s.socketOpen := rfl

theorem updatePeer_keys (u : String) (pc : Nat) (f : Peer → Peer) (s : State) :
    (updatePeer u pc f s).peers.map Prod.fst = s.peers.map Prod.fst := by
  simp only [updatePeer, List.map_map]
  apply List.map_congr_left
  intro e _
  simp only [Function.comp]
  split <;> rfl

@[simp] theorem syncPeerSender_peers (p : Peer) (k : Kind) (s : State) :
    (syncPeerSender p k s).2.peers = s.peers := by
  unfold syncPeerSender; split <;> split <;> rfl
@[simp] theorem syncPeerSender_localUser (p : Peer) (k : Kind) (s : State) :
    (syncPeerSender p k s).2.localUser = s.localUser := by
  unfold syncPeerSender; split <;> split <;> rfl
@[simp] theorem syncPeerSender_tasks (p : Peer) (k : Kind) (s : State) :
    (syncPeerSender p k s).2.tasks = s.tasks := by
  unfold syncPeerSender; split <;> split <;> rfl
@[simp] theorem syncPeerSender_socketOpen (p : Peer) (k : Kind) (s : State) :
    (syncPeerSender p k s).2.socketOpen = s.socketOpen := by
  unfold syncPeerSender; split <;> split <;> rfl

@[simp] theorem syncSenders_peers (p : Peer) (s : State) : (syncSenders p s).2.peers = s.peers := by
  simp [syncSenders]
@[simp] theorem syncSenders_localUser (p : Peer) (s : State) :
    (syncSenders p s).2.localUser = s.localUser := by
  simp [syncSenders]
@[simp] theorem syncSenders_tasks (p : Peer) (s : State) : (syncSenders p s).2.tasks = s.tasks := by
  simp [syncSenders]
@[simp] theorem syncSenders_socketOpen (p : Peer) (s : State) :
    (syncSenders p s).2.socketOpen = s.socketOpen := by
  simp [syncSenders]
@[simp] theorem createPeer_localUser (u : String) (s : State) :
    (createPeer u s).2.localUser = s.localUser := by
  simp [createPeer]
@[simp] theorem createPeer_tasks (u : String) (s : State) :
    (createPeer u s).2.tasks = s.tasks := by
  simp [createPeer]
@[simp] theorem createPeer_socketOpen (u : String) (s : State) :
    (createPeer u s).2.socketOpen = s.socketOpen := by
  simp [createPeer]

/-! ## The map of peers -/

theorem peersHas_iff_mem (ps : List (String × Peer)) (u : String) :
    peersHas ps u = true ↔ u ∈ ps.map Prod.fst := by
  induction ps with
  | nil => simp [peersHas, peersGet]
  | cons e rest ih =>
    rcases e with ⟨k, p⟩
    by_cases h : k = u
    · simp [peersHas, peersGet, h]
    · have h2 : ¬ u = k := fun e => h e.symm
      simpa [peersHas, peersGet, h, h2] using ih

theorem peersGet_isSome_iff_mem (ps : List (String × Peer)) (u : String) :
    (peersGet ps u).isSome = true ↔ u ∈ ps.map Prod.fst := peersHas_iff_mem ps u

theorem peersGet_eq_none_iff (ps : List (String × Peer)) (u : String) :
    peersGet ps u = none ↔ u ∉ ps.map Prod.fst := by
  rw [← peersGet_isSome_iff_mem]
  cases peersGet ps u <;> simp

theorem mem_keys_peersDelete (ps : List (String × Peer)) (u v : String) :
    v ∈ (peersDelete ps u).map Prod.fst ↔ v ∈ ps.map Prod.fst ∧ v ≠ u := by
  simp only [peersDelete, List.mem_map, List.mem_filter, decide_eq_true_eq]
  constructor
  · rintro ⟨e, ⟨he, hne⟩, rfl⟩
    exact ⟨⟨e, he, rfl⟩, hne⟩
  · rintro ⟨⟨e, he, rfl⟩, hne⟩
    exact ⟨e, ⟨he, hne⟩, rfl⟩

theorem mem_keys_peersSet (ps : List (String × Peer)) (u v : String) (p : Peer) :
    v ∈ (peersSet ps u p).map Prod.fst ↔ v ∈ ps.map Prod.fst ∨ v = u := by
  unfold peersSet
  by_cases h : peersHas ps u = true
  · have hu := (peersHas_iff_mem ps u).1 h
    have hk : (ps.map (fun e => if e.1 = u then (e.1, p) else e)).map Prod.fst = ps.map Prod.fst := by
      rw [List.map_map]
      apply List.map_congr_left
      intro e _
      simp only [Function.comp]
      split <;> rfl
    rw [if_pos h, hk]
    constructor
    · exact Or.inl
    · rintro (h1 | rfl)
      · exact h1
      · exact hu
  · rw [if_neg h]
    simp

/-! ## Keys of the map after each operation -/

@[simp] theorem ensurePeer_localUser (u : String) (s : State) :
    (ensurePeer u s).2.localUser = s.localUser := by
  unfold ensurePeer
  cases peersGet s.peers u <;> simp

theorem ensurePeer_of_get (u : String) (s : State) (p : Peer) (h : peersGet s.peers u = some p) :
    ensurePeer u s = (p, s) := by
  unfold ensurePeer
  rw [h]

theorem mem_keys_ensurePeer (u v : String) (s : State) :
    v ∈ (ensurePeer u s).2.peers.map Prod.fst ↔ v ∈ s.peers.map Prod.fst ∨ v = u := by
  unfold ensurePeer
  cases h : peersGet s.peers u with
  | some p =>
    have hu : u ∈ s.peers.map Prod.fst := by
      rw [← peersGet_isSome_iff_mem, h]; rfl
    constructor
    · exact Or.inl
    · rintro (h1 | rfl)
      · exact h1
      · exact hu
  | none =>
    simp only [createPeer, mem_keys_peersSet, syncSenders_peers, emit_peers]
    tauto

@[simp] theorem releaseSenders_peers (pc : Nat) (slots : List (Option Nat)) (s : State) :
    (releaseSenders pc slots s).peers = s.peers := by
  unfold releaseSenders
  induction slots generalizing s with
  | nil => rfl
  | cons x xs ih =>
    simp only [List.foldl_cons]
    rw [ih]
    cases x <;> rfl

@[simp] theorem releaseSenders_localUser (pc : Nat) (slots : List (Option Nat)) (s : State) :
    (releaseSenders pc slots s).localUser = s.localUser := by
  unfold releaseSenders
  induction slots generalizing s with
  | nil => rfl
  | cons x xs ih =>
    simp only [List.foldl_cons]
    rw [ih]
    cases x <;> rfl

@[simp] theorem closePeer_localUser (u : String) (s : State) :
    (closePeer u s).localUser = s.localUser := by
  unfold closePeer
  cases peersGet s.peers u <;> simp

theorem mem_keys_closePeer (u v : String) (s : State) :
    v ∈ (closePeer u s).peers.map Prod.fst ↔ v ∈ s.peers.map Prod.fst ∧ v ≠ u := by
  unfold closePeer
  cases h : peersGet s.peers u with
  | none =>
    have hu := (peersGet_eq_none_iff s.peers u).1 h
    constructor
    · intro hv
      exact ⟨hv, fun e => hu (e ▸ hv)⟩
    · exact fun hv => hv.1
  | some p =>
    simp only [mem_keys_peersDelete, emit_peers, releaseSenders_peers]

@[simp] theorem negotiateWith_localUser (u : String) (s : State) :
    (negotiateWith u s).localUser = s.localUser := by
  unfold negotiateWith
  simp only []
  split <;> simp

theorem mem_keys_negotiateWith (u v : String) (s : State) :
    v ∈ (negotiateWith u s).peers.map Prod.fst ↔ v ∈ s.peers.map Prod.fst ∨ v = u := by
  unfold negotiateWith
  simp only []
  split
  · exact mem_keys_ensurePeer u v s
  · simp only [suspend_peers, emit_peers, updatePeer_keys]
    exact mem_keys_ensurePeer u v s

@[simp] theorem connectOther_localUser (s : State) (u : String) :
    (connectOther s u).localUser = s.localUser := by
  unfold connectOther
  simp only []
  split <;> simp

theorem mem_keys_connectOther (s : State) (u v : String) :
    v ∈ (connectOther s u).peers.map Prod.fst ↔ v ∈ s.peers.map Prod.fst ∨ v = u := by
  unfold connectOther
  simp only []
  split
  · rw [mem_keys_negotiateWith, updatePeer_keys, mem_keys_ensurePeer]
    tauto
  · exact mem_keys_ensurePeer u v s

@[simp] theorem foldl_connectOther_localUser (others : List String) (s : State) :
    (others.foldl connectOther s).localUser = s.localUser := by
  induction others generalizing s with
  | nil => rfl
  | cons u us ih => simp [List.foldl_cons, ih]

theorem mem_keys_foldl_connectOther (others : List String) (s : State) (v : String) :
    v ∈ (others.foldl connectOther s).peers.map Prod.fst ↔ v ∈ s.peers.map Prod.fst ∨ v ∈ others := by
  induction others generalizing s with
  | nil => simp
  | cons u us ih =>
    rw [List.foldl_cons, ih, mem_keys_connectOther, List.mem_cons]
    tauto

@[simp] theorem removeDeparted_localUser (others keys : List String) (s : State) :
    (removeDeparted others keys s).localUser = s.localUser := by
  unfold removeDeparted
  induction keys generalizing s with
  | nil => rfl
  | cons u us ih =>
    rw [List.foldl_cons, ih]
    split
    · split <;> simp
    · rfl

theorem mem_keys_removeDeparted (others keys : List String) (s : State) (v : String) :
    v ∈ (removeDeparted others keys s).peers.map Prod.fst ↔
      v ∈ s.peers.map Prod.fst ∧ (v ∈ keys → v ∈ others) := by
  unfold removeDeparted
  induction keys generalizing s with
  | nil => simp
  | cons u us ih =>
    rw [List.foldl_cons, ih]
    by_cases hhas : peersHas s.peers u = true
    · rw [if_pos hhas]
      by_cases hin : others.contains u = true
      · rw [if_pos hin]
        have hu : u ∈ others := by simpa using hin
        simp only [List.mem_cons]
        constructor
        · rintro ⟨h1, h2⟩
          refine ⟨h1, ?_⟩
          rintro (rfl | h3)
          · exact hu
          · exact h2 h3
        · rintro ⟨h1, h2⟩
          exact ⟨h1, fun h3 => h2 (Or.inr h3)⟩
      · rw [if_neg hin]
        have hu : u ∉ others := by simpa using hin
        simp only [mem_keys_peersDelete, mem_keys_closePeer, List.mem_cons]
        constructor
        · rintro ⟨⟨⟨h1, h2⟩, _⟩, h3⟩
          refine ⟨h1, ?_⟩
          rintro (rfl | h4)
          · exact absurd rfl h2
          · exact h3 h4
        · rintro ⟨h1, h2⟩
          have hne : v ≠ u := fun e => hu (e ▸ h2 (Or.inl e))
          exact ⟨⟨⟨h1, hne⟩, hne⟩, fun h3 => h2 (Or.inr h3)⟩
    · rw [if_neg hhas]
      have hu : u ∉ s.peers.map Prod.fst := fun h => hhas ((peersHas_iff_mem _ _).2 h)
      simp only [List.mem_cons]
      constructor
      · rintro ⟨h1, h2⟩
        refine ⟨h1, ?_⟩
        rintro (rfl | h3)
        · exact absurd h1 hu
        · exact h2 h3
      · rintro ⟨h1, h2⟩
        exact ⟨h1, fun h3 => h2 (Or.inr h3)⟩

/-! ## Roster reconciliation: the keys are the roster minus the local identity -/

theorem mem_keys_syncPeers (roster : List String) (s : State) (user : String)
    (hlocal : s.localUser ≠ "") :
    user ∈ (syncPeers roster s).peers.map Prod.fst ↔
      user ∈ roster ∧ user ≠ "" ∧ user ≠ s.localUser := by
  unfold syncPeers
  rw [if_neg hlocal]
  simp only [mem_keys_foldl_connectOther, mem_keys_removeDeparted, List.mem_filter,
    decide_eq_true_eq]
  tauto

/-- C2: when the local identity is non-empty, after `syncPeers(roster)` the keys of the map of
peers are exactly the roster names that are non-empty and differ from the local identity:
each such name has an entry, and no other key is left. -/
theorem syncPeers_keys (roster : List String) (s : State) (user : String)
    (hlocal : s.localUser ≠ "") :
    (user ∈ (syncPeers roster s).peers.map Prod.fst ↔
      user ∈ roster ∧ user ≠ "" ∧ user ≠ s.localUser) ∧
    (peersHas (syncPeers roster s).peers user = true ↔
      user ∈ roster ∧ user ≠ "" ∧ user ≠ s.localUser) :=
  ⟨mem_keys_syncPeers roster s user hlocal,
    (peersHas_iff_mem _ _).trans (mem_keys_syncPeers roster s user hlocal)⟩

/-- C2 at `sampleState` (local dave; entries for alice, bob and carol) and the roster alice,
dave, the empty name, carol and erin, for the name erin. -/
theorem syncPeers_keys_witness :
    sampleState.localUser ≠ "" ∧
    (("erin" ∈ (syncPeers ["alice", "dave", "", "carol", "erin"] sampleState).peers.map Prod.fst ↔
      "erin" ∈ ["alice", "dave", "", "carol", "erin"] ∧ "erin" ≠ "" ∧
        "erin" ≠ sampleState.localUser) ∧
    (peersHas (syncPeers ["alice", "dave", "", "carol", "erin"] sampleState).peers "erin" = true ↔
      "erin" ∈ ["alice", "dave", "", "carol", "erin"] ∧ "erin" ≠ "" ∧
        "erin" ≠ sampleState.localUser)) :=
  ⟨by decide, syncPeers_keys ["alice", "dave", "", "carol", "erin"] sampleState "erin" (by decide)⟩

/-! ## Looking an entry up after each operation -/

theorem peersGet_map (g : String → Peer → Peer) (ps : List (String × Peer)) (u : String) :
    peersGet (ps.map (fun e => (e.1, g e.1 e.2))) u = (peersGet ps u).map (g u) := by
  induction ps with
  | nil => rfl
  | cons e rest ih =>
    rcases e with ⟨k, p⟩
    simp only [List.map_cons, peersGet]
    by_cases hk : k = u
    · rw [if_pos hk, if_pos hk, hk]
      rfl
    · rw [if_neg hk, if_neg hk]
      exact ih

theorem peersGet_updatePeer (v : String) (pc : Nat) (f : Peer → Peer) (s : State) (u : String) :
    peersGet (updatePeer v pc f s).peers u =
      (peersGet s.peers u).map (fun p => if u = v ∧ p.pc = pc then f p else p) := by
  have hfun : (fun e : String × Peer => if e.1 = v ∧ e.2.pc = pc then (e.1, f e.2) else e) =
      (fun e => (e.1, (fun k p => if k = v ∧ p.pc = pc then f p else p) e.1 e.2)) := by
    funext e
    by_cases hc : e.1 = v ∧ e.2.pc = pc
    · simp only [if_pos hc]
    · simp only [if_neg hc]
  simp only [updatePeer]
  rw [hfun]
  exact peersGet_map (fun k p => if k = v ∧ p.pc = pc then f p else p) s.peers u

theorem peersGet_append_of_none (ps qs : List (String × Peer)) (u : String)
    (h : peersGet ps u = none) : peersGet (ps ++ qs) u = peersGet qs u := by
  induction ps with
  | nil => rfl
  | cons e rest ih =>
    rcases e with ⟨k, p⟩
    simp only [peersGet] at h
    show peersGet ((k, p) :: (rest ++ qs)) u = peersGet qs u
    simp only [peersGet]
    by_cases hk : k = u
    · rw [if_pos hk] at h
      cases h
    · rw [if_neg hk] at h
      rw [if_neg hk]
      exact ih h

theorem peersGet_append_of_ne (ps : List (String × Peer)) (u v : String) (p : Peer) (h : u ≠ v) :
    peersGet (ps ++ [(v, p)]) u = peersGet ps u := by
  induction ps with
  | nil =>
    simp only [List.nil_append, peersGet]
    rw [if_neg (fun e => h e.symm)]
  | cons e rest ih =>
    rcases e with ⟨k, q⟩
    show peersGet ((k, q) :: (rest ++ [(v, p)])) u = peersGet ((k, q) :: rest) u
    simp only [peersGet]
    rw [ih]

theorem peersSet_map_eq (u : String) (p : Peer) :
    (fun e : String × Peer => if e.1 = u then (e.1, p) else e) =
      (fun e => (e.1, (fun k q => if k = u then p else q) e.1 e.2)) := by
  funext e
  by_cases hc : e.1 = u
  · simp only [if_pos hc]
  · simp only [if_neg hc]

theorem peersGet_peersSet_self (ps : List (String × Peer)) (u : String) (p : Peer) :
    peersGet (peersSet ps u p) u = some p := by
  unfold peersSet
  by_cases h : peersHas ps u = true
  · rw [if_pos h, peersSet_map_eq]
    refine (peersGet_map (fun k q => if k = u then p else q) ps u).trans ?_
    unfold peersHas at h
    cases hg : peersGet ps u with
    | none => rw [hg] at h; cases h
    | some q => simp
  · rw [if_neg h]
    have hn : peersGet ps u = none := by
      unfold peersHas at h
      cases hg : peersGet ps u with
      | none => rfl
      | some q => rw [hg] at h; exact absurd rfl h
    rw [peersGet_append_of_none ps _ u hn]
    simp [peersGet]

theorem peersGet_peersSet_ne (ps : List (String × Peer)) (u v : String) (p : Peer) (h : u ≠ v) :
    peersGet (peersSet ps v p) u = peersGet ps u := by
  unfold peersSet
  split
  · rw [peersSet_map_eq]
    refine (peersGet_map (fun k q => if k = v then p else q) ps u).trans ?_
    cases peersGet ps u with
    | none => rfl
    | some q => simp [h]
  · exact peersGet_append_of_ne ps u v p h

theorem ensurePeer_get (u : String) (s : State) :
    peersGet (ensurePeer u s).2.peers u = some (ensurePeer u s).1 := by
  unfold ensurePeer
  cases h : peersGet s.peers u with
  | some p => simpa using h
  | none => simp only [createPeer, peersGet_peersSet_self]

theorem peersGet_ensurePeer_of_some (u v : String) (s : State) (p : Peer)
    (h : peersGet s.peers u = some p) : peersGet (ensurePeer v s).2.peers u = some p := by
  unfold ensurePeer
  cases hv : peersGet s.peers v with
  | some q => simpa using h
  | none =>
    have hne : u ≠ v := by
      rintro rfl
      rw [h] at hv
      cases hv
    simp only [createPeer, syncSenders_peers, emit_peers, peersGet_peersSet_ne _ _ _ _ hne]
    exact h


theorem negotiateWith_get (u v : String) (s : State) (p : Peer)
    (h : peersGet s.peers u = some p) :
    ∃ q, peersGet (negotiateWith v s).peers u = some q ∧ q.initialOfferSent = p.initialOfferSent := by
  unfold negotiateWith
  simp only []
  have h1 := peersGet_ensurePeer_of_some u v s p h
  split
  · exact ⟨p, h1, rfl⟩
  · simp only [suspend_peers, emit_peers, peersGet_updatePeer, h1, Option.map_some']
    split
    · exact ⟨_, rfl, rfl⟩
    · exact ⟨_, rfl, rfl⟩

theorem connectOther_offered_self (s : State) (u : String) : Offered (connectOther s u) u := by
  unfold Offered
  rw [connectOther_localUser]
  unfold connectOther
  simp only []
  have hget := ensurePeer_get u s
  split
  · have h2 : peersGet (updatePeer u (ensurePeer u s).1.pc
        (fun p => { p with initialOfferSent := true }) (ensurePeer u s).2).peers u
        = some { (ensurePeer u s).1 with initialOfferSent := true } := by
      rw [peersGet_updatePeer, hget]
      simp
    obtain ⟨q, hq, hq2⟩ := negotiateWith_get u u _ _ h2
    exact ⟨q, hq, fun _ => hq2⟩
  · rename_i hc
    refine ⟨_, hget, ?_⟩
    intro hs
    rw [ensurePeer_localUser] at hc
    simpa [hs] using hc

theorem connectOther_offered_other (s : State) (u v : String) (h : Offered s u) :
    Offered (connectOther s v) u := by
  obtain ⟨p, hp, himp⟩ := h
  unfold Offered
  rw [connectOther_localUser]
  unfold connectOther
  simp only []
  have h1 := peersGet_ensurePeer_of_some u v s p hp
  split
  · have h2 : ∃ q, peersGet (updatePeer v (ensurePeer v s).1.pc
        (fun p => { p with initialOfferSent := true }) (ensurePeer v s).2).peers u = some q ∧
        (p.initialOfferSent = true → q.initialOfferSent = true) := by
      rw [peersGet_updatePeer, h1]
      simp only [Option.map_some']
      split
      · exact ⟨_, rfl, fun _ => rfl⟩
      · exact ⟨_, rfl, id⟩
    obtain ⟨q, hq, hq2⟩ := h2
    obtain ⟨q', hq', hq2'⟩ := negotiateWith_get u v _ _ hq
    exact ⟨q', hq', fun hs => by rw [hq2']; exact hq2 (himp hs)⟩
  · exact ⟨p, h1, himp⟩

theorem foldl_connectOther_offered_of (others : List String) (s : State) (u : String)
    (h : Offered s u) : Offered (others.foldl connectOther s) u := by
  induction others generalizing s with
  | nil => exact h
  | cons v vs ih => exact ih _ (connectOther_offered_other s u v h)

theorem foldl_connectOther_offered (others : List String) (s : State) (u : String)
    (h : u ∈ others) : Offered (others.foldl connectOther s) u := by
  induction others generalizing s with
  | nil => cases h
  | cons v vs ih =>
    rw [List.foldl_cons]
    rcases List.mem_cons.1 h with rfl | h2
    · exact foldl_connectOther_offered_of vs _ u (connectOther_offered_self s u)
    · exact ih _ h2

theorem connectOther_noop (s : State) (u : String) (h : Offered s u) : connectOther s u = s := by
  obtain ⟨p, hp, himp⟩ := h
  unfold connectOther
  simp only [ensurePeer_of_get u s p hp]
  by_cases hs : shouldInitiate s.localUser u = true
  · simp [hs, himp hs]
  · simp [hs]

theorem foldl_connectOther_noop (others : List String) (s : State)
    (h : ∀ u ∈ others, Offered s u) : others.foldl connectOther s = s := by
  induction others with
  | nil => rfl
  | cons v vs ih =>
    rw [List.foldl_cons, connectOther_noop s v (h v (List.mem_cons_self _ _))]
    exact ih (fun u hu => h u (List.mem_cons_of_mem _ hu))

theorem removeDeparted_noop (others keys : List String) (s : State)
    (h : ∀ u ∈ keys, peersHas s.peers u = true → u ∈ others) :
    removeDeparted others keys s = s := by
  unfold removeDeparted
  induction keys with
  | nil => rfl
  | cons v vs ih =>
    rw [List.foldl_cons]
    have hv := h v (List.mem_cons_self _ _)
    have hstep : (if peersHas s.peers v = true then
        if others.contains v = true then s
        else { closePeer v s with peers := peersDelete (closePeer v s).peers v }
      else s) = s := by
      by_cases hh : peersHas s.peers v = true
      · have : others.contains v = true := by simpa using hv hh
        rw [if_pos hh, if_pos this]
      · rw [if_neg hh]
    rw [hstep]
    exact ih (fun u hu => h u (List.mem_cons_of_mem _ hu))

@[simp] theorem syncPeers_localUser (roster : List String) (s : State) :
    (syncPeers roster s).localUser = s.localUser := by
  unfold syncPeers
  split
  · rfl
  · simp

/-! ## Roster reconciliation is idempotent -/

/-- C3: `syncPeers` is idempotent: applying it a second time with the same roster, nothing
happening in between, returns the very state the first application left: nothing is added to
the log (no connection created or closed, no message sent), no call is suspended or resumed
(no offer is on its way), and the map of peers and every field of every entry are the same. -/
theorem syncPeers_idempotent (roster : List String) (s : State) :
    syncPeers roster (syncPeers roster s) = syncPeers roster s := by
  by_cases hlocal : s.localUser = ""
  · have h1 : syncPeers roster s = s := by
      unfold syncPeers
      rw [if_pos hlocal]
    rw [h1, h1]
  · have hkeys := fun u => mem_keys_syncPeers roster s u hlocal
    have hoff : ∀ u ∈ roster.filter (fun name => decide (name ≠ "" ∧ name ≠ s.localUser)),
        Offered (syncPeers roster s) u := by
      intro u hu
      have : syncPeers roster s = (roster.filter (fun name => decide (name ≠ "" ∧ name ≠ s.localUser))).foldl
          connectOther (removeDeparted (roster.filter (fun name => decide (name ≠ "" ∧ name ≠ s.localUser)))
            (s.peers.map Prod.fst) s) := by
        unfold syncPeers
        rw [if_neg hlocal]
      rw [this]
      exact foldl_connectOther_offered _ _ u hu
    generalize hs1 : syncPeers roster s = s1 at hkeys hoff
    have hl : s1.localUser = s.localUser := by rw [← hs1]; simp
    unfold syncPeers
    rw [hl, if_neg hlocal]
    simp only []
    rw [removeDeparted_noop]
    · exact foldl_connectOther_noop _ _ hoff
    · intro u hu _
      have := (hkeys u).1 hu
      simp only [List.mem_filter, decide_eq_true_eq]
      exact this

/-! ## Messages that are dropped -/

/-- C7: an answer or a candidate whose sender has no entry in the map of peers is dropped:
`handleAnswer` and `handleCandidate` return the state they were given, so no entry is made, no
entry or connection is touched, nothing is sent or logged (no error) and nothing is
suspended. -/
theorem handleAnswer_handleCandidate_without_entry (message : Message) (s : State)
    (h : peersGet s.peers message.user = none) :
    handleAnswer message s = s ∧ handleCandidate message s = s := by
  constructor
  · unfold handleAnswer
    rw [h]
  · unfold handleCandidate
    rw [h]

/-- C7 at `sampleState` and an answer of erin, who has no entry. -/
theorem handleAnswer_handleCandidate_without_entry_witness :
    peersGet sampleState.peers
        ({ type := "webrtc:answer", user := "erin", target := some "dave", sdp := some 3 } : Message).user
      = none ∧
    (handleAnswer { type := "webrtc:answer", user := "erin", target := some "dave", sdp := some 3 }
        sampleState = sampleState ∧
     handleCandidate { type := "webrtc:answer", user := "erin", target := some "dave", sdp := some 3 }
        sampleState = sampleState) :=
  ⟨by decide, handleAnswer_handleCandidate_without_entry
    { type := "webrtc:answer", user := "erin", target := some "dave", sdp := some 3 }
    sampleState (by decide)⟩

/-- C8: an inbound `webrtc:offer`, `webrtc:answer` or `webrtc:candidate` whose `target` is not
the local identity leaves the whole state as it was: the map of peers and its entries are
unchanged, nothing is sent, and none of the three handlers runs. -/
theorem onMessage_other_target (data : Message) (s : State)
    (htype : data.type = "webrtc:offer" ∨ data.type = "webrtc:answer" ∨
      data.type = "webrtc:candidate")
    (htarget : data.target ≠ some s.localUser) :
    onMessage data s = s := by
  unfold onMessage
  rcases htype with h | h | h <;> simp [h, htarget]

/-- C8 at `sampleState` (local dave) and an offer of alice addressed to bob. -/
theorem onMessage_other_target_witness :
    ((({ type := "webrtc:offer", user := "alice", target := some "bob", sdp := some 3 } : Message).type
        = "webrtc:offer" ∨
      ({ type := "webrtc:offer", user := "alice", target := some "bob", sdp := some 3 } : Message).type
        = "webrtc:answer" ∨
      ({ type := "webrtc:offer", user := "alice", target := some "bob", sdp := some 3 } : Message).type
        = "webrtc:candidate") ∧
     ({ type := "webrtc:offer", user := "alice", target := some "bob", sdp := some 3 } : Message).target
        ≠ some sampleState.localUser) ∧
    onMessage { type := "webrtc:offer", user := "alice", target := some "bob", sdp := some 3 }
      sampleState = sampleState :=
  ⟨⟨by decide, by decide⟩,
    onMessage_other_target
      { type := "webrtc:offer", user := "alice", target := some "bob", sdp := some 3 }
      sampleState (by decide) (by decide)⟩

/-! ## The in-flight guard of `negotiateWith` -/

/-- C9: for a peer whose entry has `makingOffer` set, `negotiateWith(peer)` returns the state it
was given: no offer is created, no description applied, nothing sent or suspended, and the
flag and the rest of the entry are unchanged. -/
theorem negotiateWith_in_flight (user : String) (s : State) (peer : Peer)
    (hget : peersGet s.peers user = some peer) (hflag : peer.makingOffer = true) :
    negotiateWith user s = s := by
  unfold negotiateWith
  simp only [ensurePeer_of_get user s peer hget, hflag, if_true]

/-- C9 at `sampleState`, whose entry of carol has `makingOffer` set. -/
theorem negotiateWith_in_flight_witness :
    (peersGet sampleState.peers "carol" =
        some { pc := 5, senders := { audio := some 6, video := none, screen := none },
               makingOffer := true, initialOfferSent := true } ∧
      ({ pc := 5, senders := { audio := some 6, video := none, screen := none },
         makingOffer := true, initialOfferSent := true } : Peer).makingOffer = true) ∧
    negotiateWith "carol" sampleState = sampleState :=
  ⟨⟨by decide, by decide⟩,
    negotiateWith_in_flight "carol" sampleState
      { pc := 5, senders := { audio := some 6, video := none, screen := none },
        makingOffer := true, initialOfferSent := true } (by decide) (by decide)⟩

/-! ## Termination of a connection -/

theorem peersGet_closePeer_self (user : String) (s : State) :
    peersGet (closePeer user s).peers user = none := by
  rw [peersGet_eq_none_iff, mem_keys_closePeer]
  exact fun h => h.2 rfl

/-- C11: when the state-change callback of the connection made for `user` fires with
`connectionState` equal to "failed", "disconnected" or "closed", the reaction is exactly
`closePeer(user)`, the routine `syncPeers` uses for a departed peer, and afterwards the map
holds no entry for `user`; for any other connection state the state is unchanged. -/
theorem onConnectionStateChange_teardown (user connectionState : String) (s : State) :
    (connectionState = "failed" ∨ connectionState = "disconnected" ∨ connectionState = "closed" →
      onConnectionStateChange user connectionState s = closePeer user s ∧
      peersGet (onConnectionStateChange user connectionState s).peers user = none) ∧
    (¬ (connectionState = "failed" ∨ connectionState = "disconnected" ∨ connectionState = "closed") →
      onConnectionStateChange user connectionState s = s) := by
  have hmem : ["failed", "disconnected", "closed"].contains connectionState = true ↔
      (connectionState = "failed" ∨ connectionState = "disconnected" ∨ connectionState = "closed") := by
    simp
  constructor
  · intro h
    have h1 : onConnectionStateChange user connectionState s = closePeer user s := by
      unfold onConnectionStateChange
      rw [if_pos (hmem.2 h)]
    rw [h1]
    exact ⟨rfl, peersGet_closePeer_self user s⟩
  · intro h
    unfold onConnectionStateChange
    rw [if_neg (fun hc => h (hmem.1 hc))]

/-- C11 at `sampleState`: the connection of bob reports "failed". -/
theorem onConnectionStateChange_teardown_witness :
    ("failed" = "failed" ∨ "failed" = "disconnected" ∨ "failed" = "closed") ∧
    onConnectionStateChange "bob" "failed" sampleState = closePeer "bob" sampleState ∧
    peersGet (onConnectionStateChange "bob" "failed" sampleState).peers "bob" = none :=
  ⟨by decide, (onConnectionStateChange_teardown "bob" "failed" sampleState).1 (by decide)⟩

/-! ## Track synchroniser: the four cases -/

theorem localStreamPresent_of_localTrack (s : State) (kind : Kind) (track : Track)
    (h : localTrack s kind = some track) : localStreamPresent s kind = true := by
  cases kind with
  | audio => rfl
  | video => rfl
  | screen =>
    simp only [localTrack] at h
    simp only [localStreamPresent]
    cases hs : s.screenStream with
    | none => rw [hs] at h; cases h
    | some st => rfl

theorem Senders.get_set_self (ss : Senders) (kind : Kind) (v : Option Nat) :
    (ss.set kind v).get kind = v := by
  cases kind <;> rfl

theorem Senders.get_set_other (ss : Senders) (kind other : Kind) (v : Option Nat)
    (h : other ≠ kind) : (ss.set kind v).get other = ss.get other := by
  cases kind <;> cases other <;> first | rfl | exact absurd rfl h

/-- C12: `syncPeerSender(peer, kind)` brings the slot in line with the local track of that
kind.  A track and an empty slot: one `addTrack`, and the slot holds the new sender.  A track
and an occupied slot: `replaceTrack` on the sender in the slot, and the entry is unchanged.
No track and an occupied slot: `removeTrack`, and the slot is empty.  No track and an empty
slot: nothing.  So afterwards the slot is occupied exactly when there is a local track. -/
theorem syncPeerSender_reconciles (peer : Peer) (kind : Kind) (s : State) :
    (∀ track, localTrack s kind = some track → peer.senders.get kind = none →
      (syncPeerSender peer kind s).1 = { peer with senders := peer.senders.set kind (some s.nextId) } ∧
      (syncPeerSender peer kind s).1.senders.get kind = some s.nextId ∧
      (syncPeerSender peer kind s).2.log = s.log ++ [.addTrack peer.pc track s.nextId] ∧
      (syncPeerSender peer kind s).2.nextId = s.nextId + 1) ∧
    (∀ track current, localTrack s kind = some track → peer.senders.get kind = some current →
      (syncPeerSender peer kind s).1 = peer ∧
      (syncPeerSender peer kind s).2.log = s.log ++ [.replaceTrack current track] ∧
      (syncPeerSender peer kind s).2.nextId = s.nextId) ∧
    (∀ current, localTrack s kind = none → peer.senders.get kind = some current →
      (syncPeerSender peer kind s).1 = { peer with senders := peer.senders.set kind none } ∧
      (syncPeerSender peer kind s).1.senders.get kind = none ∧
      (syncPeerSender peer kind s).2.log = s.log ++ [.removeTrack peer.pc current]) ∧
    (localTrack s kind = none → peer.senders.get kind = none →
      syncPeerSender peer kind s = (peer, s)) ∧
    ((syncPeerSender peer kind s).1.senders.get kind).isSome = (localTrack s kind).isSome := by
  refine ⟨?_, ?_, ?_, ?_, ?_⟩
  · intro track ht hc
    have hp := localStreamPresent_of_localTrack s kind track ht
    simp [syncPeerSender, ht, hp, hc, emit, Senders.get_set_self]
  · intro track current ht hc
    have hp := localStreamPresent_of_localTrack s kind track ht
    simp [syncPeerSender, ht, hp, hc, emit]
  · intro current ht hc
    simp [syncPeerSender, ht, hc, emit, Senders.get_set_self]
  · intro ht hc
    simp [syncPeerSender, ht, hc]
  · cases ht : localTrack s kind with
    | some track =>
      have hp := localStreamPresent_of_localTrack s kind track ht
      cases hc : peer.senders.get kind with
      | none => simp [syncPeerSender, ht, hp, hc, Senders.get_set_self]
      | some current => simp [syncPeerSender, ht, hp, hc]
    | none =>
      cases hc : peer.senders.get kind with
      | none => simp [syncPeerSender, ht, hc]
      | some current => simp [syncPeerSender, ht, hc, Senders.get_set_self]

/-- C12 at `sampleState` (one microphone track, 100) and a fresh entry: the audio slot is
filled by `addTrack`. -/
theorem syncPeerSender_reconciles_witness :
    (localTrack sampleState .audio = some 100 ∧
      ({ pc := 8, senders := { audio := none, video := none, screen := none },
         makingOffer := false, initialOfferSent := false } : Peer).senders.get .audio = none) ∧
    (syncPeerSender
        { pc := 8, senders := { audio := none, video := none, screen := none },
          makingOffer := false, initialOfferSent := false } .audio sampleState).1.senders.get .audio
      = some sampleState.nextId :=
  ⟨⟨by decide, by decide⟩,
    ((syncPeerSender_reconciles
      { pc := 8, senders := { audio := none, video := none, screen := none },
        makingOffer := false, initialOfferSent := false } .audio sampleState).1 100
      (by decide) (by decide)).2.1⟩

/-! ## More frame lemmas: the map of peers under the media functions -/

@[simp] theorem sendMessage_peers (m : Message) (s : State) : (sendMessage m s).peers = s.peers := by
  unfold sendMessage; split <;> rfl
@[simp] theorem sendMessage_localUser (m : Message) (s : State) :
    (sendMessage m s).localUser = s.localUser := by
  unfold sendMessage; split <;> rfl
@[simp] theorem sendMessage_tasks (m : Message) (s : State) : (sendMessage m s).tasks = s.tasks := by
  unfold sendMessage; split <;> rfl
@[simp] theorem sendMessage_socketOpen (m : Message) (s : State) :
    (sendMessage m s).socketOpen = s.socketOpen := by
  unfold sendMessage; split <;> rfl
@[simp] theorem sendMediaUpdate_peers (s : State) : (sendMediaUpdate s).peers = s.peers := by
  unfold sendMediaUpdate; split <;> simp
@[simp] theorem sendMediaUpdate_localUser (s : State) :
    (sendMediaUpdate s).localUser = s.localUser := by
  unfold sendMediaUpdate; split <;> simp
@[simp] theorem sendMediaUpdate_tasks (s : State) : (sendMediaUpdate s).tasks = s.tasks := by
  unfold sendMediaUpdate; split <;> simp
@[simp] theorem sendMediaUpdate_socketOpen (s : State) :
    (sendMediaUpdate s).socketOpen = s.socketOpen := by
  unfold sendMediaUpdate; split <;> simp
@[simp] theorem ensureMediaTile_peers (u : String) (s : State) :
    (ensureMediaTile u s).peers = s.peers := by
  unfold ensureMediaTile; split <;> rfl
@[simp] theorem ensureMediaTile_localUser (u : String) (s : State) :
    (ensureMediaTile u s).localUser = s.localUser := by
  unfold ensureMediaTile; split <;> rfl
@[simp] theorem ensureMediaTile_tasks (u : String) (s : State) :
    (ensureMediaTile u s).tasks = s.tasks := by
  unfold ensureMediaTile; split <;> rfl
@[simp] theorem ensureMediaTile_log (u : String) (s : State) :
    (ensureMediaTile u s).log = s.log := by
  unfold ensureMediaTile; split <;> rfl
@[simp] theorem ensureMediaTile_socketOpen (u : String) (s : State) :
    (ensureMediaTile u s).socketOpen = s.socketOpen := by
  unfold ensureMediaTile; split <;> rfl
@[simp] theorem ensureMediaTile_mediaState (u : String) (s : State) :
    (ensureMediaTile u s).mediaState = s.mediaState := by
  unfold ensureMediaTile; split <;> rfl
@[simp] theorem updateLocalTile_peers (s : State) : (updateLocalTile s).peers = s.peers := by
  unfold updateLocalTile updateTileStatus; split <;> simp
@[simp] theorem updateLocalTile_localUser (s : State) :
    (updateLocalTile s).localUser = s.localUser := by
  unfold updateLocalTile updateTileStatus; split <;> simp
@[simp] theorem updateLocalTile_tasks (s : State) : (updateLocalTile s).tasks = s.tasks := by
  unfold updateLocalTile updateTileStatus; split <;> simp
@[simp] theorem updateLocalTile_log (s : State) : (updateLocalTile s).log = s.log := by
  unfold updateLocalTile updateTileStatus; split <;> simp
@[simp] theorem updateLocalTile_socketOpen (s : State) :
    (updateLocalTile s).socketOpen = s.socketOpen := by
  unfold updateLocalTile updateTileStatus; split <;> simp
@[simp] theorem updateLocalTile_mediaState (s : State) :
    (updateLocalTile s).mediaState = s.mediaState := by
  unfold updateLocalTile updateTileStatus; split <;> simp

@[simp] theorem stopTracks_peers (tracks : List Track) (s : State) :
    (stopTracks tracks s).peers = s.peers := by
  unfold stopTracks
  induction tracks generalizing s with
  | nil => rfl
  | cons t ts ih => simp only [List.foldl_cons]; rw [ih]; rfl
@[simp] theorem stopTracks_localUser (tracks : List Track) (s : State) :
    (stopTracks tracks s).localUser = s.localUser := by
  unfold stopTracks
  induction tracks generalizing s with
  | nil => rfl
  | cons t ts ih => simp only [List.foldl_cons]; rw [ih]; rfl
@[simp] theorem stopTracks_tasks (tracks : List Track) (s : State) :
    (stopTracks tracks s).tasks = s.tasks := by
  unfold stopTracks
  induction tracks generalizing s with
  | nil => rfl
  | cons t ts ih => simp only [List.foldl_cons]; rw [ih]; rfl
@[simp] theorem stopTracks_socketOpen (tracks : List Track) (s : State) :
    (stopTracks tracks s).socketOpen = s.socketOpen := by
  unfold stopTracks
  induction tracks generalizing s with
  | nil => rfl
  | cons t ts ih => simp only [List.foldl_cons]; rw [ih]; rfl
@[simp] theorem stopTracks_mediaState (tracks : List Track) (s : State) :
    (stopTracks tracks s).mediaState = s.mediaState := by
  unfold stopTracks
  induction tracks generalizing s with
  | nil => rfl
  | cons t ts ih => simp only [List.foldl_cons]; rw [ih]; rfl

/-! ## Slots are independent -/

theorem syncPeerSender_get_other (peer : Peer) (kind other : Kind) (s : State) (h : other ≠ kind) :
    (syncPeerSender peer kind s).1.senders.get other = peer.senders.get other := by
  unfold syncPeerSender
  split <;> split <;> simp [Senders.get_set_other _ _ _ _ h]

theorem syncEntries_get_other (kind other : Kind) (h : other ≠ kind) (es : List (String × Peer))
    (s : State) (user : String) :
    (peersGet (syncEntries kind es s).1 user).map (fun p => p.senders.get other) =
      (peersGet es user).map (fun p => p.senders.get other) := by
  induction es generalizing s with
  | nil => rfl
  | cons e rest ih =>
    rcases e with ⟨k, p⟩
    simp only [syncEntries, peersGet]
    by_cases hk : k = user
    · simp only [if_pos hk, Option.map_some', syncPeerSender_get_other p kind other s h]
    · simp only [if_neg hk]
      exact ih _

theorem syncAllPeers_get_other (kind other : Kind) (h : other ≠ kind) (s : State) (user : String) :
    (peersGet (syncAllPeers kind s).peers user).map (fun p => p.senders.get other) =
      (peersGet s.peers user).map (fun p => p.senders.get other) := by
  unfold syncAllPeers
  exact syncEntries_get_other kind other h s.peers s user

theorem toggleCameraFinish_get_other (other : Kind) (h : other ≠ Kind.video) (s : State)
    (user : String) :
    (peersGet (toggleCameraFinish s).peers user).map (fun p => p.senders.get other) =
      (peersGet s.peers user).map (fun p => p.senders.get other) := by
  unfold toggleCameraFinish
  simp only [sendMediaUpdate_peers, updateLocalTile_peers]
  exact syncAllPeers_get_other .video other h s user

/-- C13: slots are independent.  `syncPeerSender(peer, kind)` leaves the two other slots of
the entry as they were and does not touch the map, so no slot of any other entry changes.  In
particular a camera toggle, which reconciles the video slot of every entry (at the click when
the camera was on, when the capture settles when it was off), changes no slot other than
video: the screen slot of every entry is the same before and after. -/
theorem slots_independent (peer : Peer) (kind other : Kind) (s : State) (h : other ≠ kind) :
    (syncPeerSender peer kind s).1.senders.get other = peer.senders.get other ∧
    (syncPeerSender peer kind s).2.peers = s.peers ∧
    (∀ user, (peersGet (toggleCamera s).peers user).map (fun p => p.senders.get .screen) =
      (peersGet s.peers user).map (fun p => p.senders.get .screen)) ∧
    (∀ r s1 user, resumeTask .cameraCapture r s = some s1 →
      (peersGet s1.peers user).map (fun p => p.senders.get .screen) =
        (peersGet s.peers user).map (fun p => p.senders.get .screen)) := by
  refine ⟨syncPeerSender_get_other peer kind other s h, syncPeerSender_peers peer kind s, ?_, ?_⟩
  · intro user
    unfold toggleCamera
    split
    · rw [toggleCameraFinish_get_other .screen (by decide)]
      simp [stopVideoTracks]
    · rfl
  · intro r s1 user hr
    cases r with
    | rejected =>
      simp only [resumeTask, Option.some.injEq] at hr
      rw [← hr, toggleCameraFinish_get_other .screen (by decide)]
      rfl
    | fulfilled => simp [resumeTask] at hr
    | description d => simp [resumeTask] at hr
    | stream captured =>
      simp only [resumeTask, Option.some.injEq] at hr
      rw [← hr, toggleCameraFinish_get_other .screen (by decide)]

/-- C13 at `sampleState` and the entry of bob: reconciling video leaves the audio slot. -/
theorem slots_independent_witness :
    Kind.audio ≠ Kind.video ∧
    (syncPeerSender sampleBob .video sampleState).1.senders.get .audio =
      sampleBob.senders.get .audio :=
  ⟨by decide, (slots_independent sampleBob .video .audio sampleState (by decide)).1⟩

/-! ## The flag `makingOffer` -/

theorem makingOffer_cleared (user : String) (pc : Nat) (s : State) (p : Peer)
    (hget : peersGet (updatePeer user pc (fun q => { q with makingOffer := false }) s).peers user
      = some p) (hpc : p.pc = pc) : p.makingOffer = false := by
  rw [peersGet_updatePeer] at hget
  cases hq : peersGet s.peers user with
  | none => rw [hq] at hget; cases hget
  | some q =>
    rw [hq, Option.map_some', Option.some.injEq] at hget
    by_cases hc : user = user ∧ q.pc = pc
    · rw [if_pos hc] at hget
      rw [← hget]
    · rw [if_neg hc] at hget
      rw [hget] at hc
      exact absurd ⟨rfl, hpc⟩ hc

/-- C19: `negotiateWith` always releases its guard.  A call that passed the guard ends in one
of three ways: `createOffer` rejects, `setLocalDescription` fulfils (and the offer is sent), or
`setLocalDescription` rejects.  In each the call runs to its end, and afterwards the entry of
`user`, when it still is the `peer` object of the call (the one of connection `pc`), has
`makingOffer` false. -/
theorem negotiateWith_releases_guard (user : String) (pc : Nat) (offer : Sdp) (s : State) :
    ((resumeTask (.negotiateCreateOffer user pc) .rejected s).isSome = true ∧
      (resumeTask (.negotiateSetLocal user pc offer) .fulfilled s).isSome = true ∧
      (resumeTask (.negotiateSetLocal user pc offer) .rejected s).isSome = true) ∧
    ∀ s1 p,
      (resumeTask (.negotiateCreateOffer user pc) .rejected s = some s1 ∨
        resumeTask (.negotiateSetLocal user pc offer) .fulfilled s = some s1 ∨
        resumeTask (.negotiateSetLocal user pc offer) .rejected s = some s1) →
      peersGet s1.peers user = some p → p.pc = pc → p.makingOffer = false := by
  refine ⟨⟨rfl, rfl, rfl⟩, ?_⟩
  intro s1 p hfinish hp hpc
  rcases hfinish with h | h | h
  · simp only [resumeTask, Option.some.injEq] at h
    rw [← h] at hp
    exact makingOffer_cleared user pc s p (by simpa using hp) hpc
  · simp only [resumeTask, Option.some.injEq] at h
    rw [← h] at hp
    exact makingOffer_cleared user pc (sendMessage _ s) p hp hpc
  · simp only [resumeTask, Option.some.injEq] at h
    rw [← h] at hp
    exact makingOffer_cleared user pc s p (by simpa using hp) hpc

/-- C19 at `sampleState`, where the call for carol on connection 5 is in flight: when
`createOffer` rejects, the entry of carol has `makingOffer` false. -/
theorem negotiateWith_releases_guard_witness :
    (resumeTask (.negotiateCreateOffer "carol" 5) .rejected sampleState =
        some (emit (.error "negotiateWith")
          (updatePeer "carol" 5 (fun p => { p with makingOffer := false }) sampleState)) ∧
      peersGet (emit (.error "negotiateWith")
          (updatePeer "carol" 5 (fun p => { p with makingOffer := false }) sampleState)).peers "carol" =
        some { sampleCarol with makingOffer := false } ∧
      ({ sampleCarol with makingOffer := false } : Peer).pc = 5) ∧
    ({ sampleCarol with makingOffer := false } : Peer).makingOffer = false :=
  ⟨⟨rfl, by decide, by decide⟩,
    (negotiateWith_releases_guard "carol" 5 0 sampleState).2 _ _ (Or.inl rfl)
      (show peersGet (emit (.error "negotiateWith")
          (updatePeer "carol" 5 (fun p => { p with makingOffer := false }) sampleState)).peers "carol" =
        some { sampleCarol with makingOffer := false } by decide)
      (by decide)⟩

/-! ## The messages sent -/

@[simp] theorem sent_emit_send (m : Message) (s : State) : sent (emit (.send m) s) = sent s ++ [m] := by
  simp [sent, emit, List.filterMap_append]

theorem sent_emit_other (e : Effect) (s : State) (h : ∀ m, e ≠ .send m) :
    sent (emit e s) = sent s := by
  cases e <;> first | exact absurd rfl (h _) | simp [sent, emit, List.filterMap_append]

@[simp] theorem sent_suspend (t : Task) (s : State) : sent (suspend t s) = sent s := rfl

@[simp] theorem sent_updatePeer (u : String) (pc : Nat) (f : Peer → Peer) (s : State) :
    sent (updatePeer u pc f s) = sent s := rfl

theorem sent_sendMessage (m : Message) (s : State) :
    sent (sendMessage m s) = sent s ++ (if s.socketOpen = true then [m] else []) := by
  unfold sendMessage
  split <;> simp

theorem sent_of_log_eq (s s1 : State) (h : s1.log = s.log) : sent s1 = sent s := by
  unfold sent
  rw [h]

/-! ## The flag `makingOffer` spans the creation of the offer, not the wait for the answer -/

/-- C10 as stated fails.  On the side of bob, once the roster snapshot has arrived and
`createOffer` and `setLocalDescription` have fulfilled, the `webrtc:offer` for alice has been
sent and no answer has been processed, yet the entry of alice has `makingOffer` false.  And in
`sampleState`, where an offer to carol is being made (`makingOffer` is true), an answer of
carol leaves the flag true, also once `setRemoteDescription` has fulfilled. -/
theorem makingOffer_false_once_offer_sent :
    (sent (run (initialState "bob") offerRun) =
        [{ type := "webrtc:offer", user := "bob", target := some "alice", sdp := some 7 }] ∧
      (peersGet (run (initialState "bob") offerRun).peers "alice").map (fun p => p.makingOffer) =
        some false) ∧
    (peersGet (run sampleState
        [.message { type := "webrtc:answer", user := "carol", target := some "dave", sdp := some 8 },
         .settled 1 .fulfilled]).peers "carol").map (fun p => p.makingOffer) = some true := by
  decide

/-- C10, amended: `makingOffer` is true while `negotiateWith` creates and applies its offer.
When the guard is passed the flag is raised; when `setLocalDescription` fulfils the offer is
sent (the socket being open) and the flag is cleared in the same step, before any answer;
`handleAnswer` and the rest of it after `setRemoteDescription` leave the map of peers, and so
the flag, as they were. -/
theorem makingOffer_spans_offer_creation (user : String) (s : State) (peer : Peer)
    (hget : peersGet s.peers user = some peer) (hflag : peer.makingOffer = false) :
    (peersGet (negotiateWith user s).peers user).map (fun p => p.makingOffer) = some true ∧
    (∀ offer st, ∃ st1,
      resumeTask (.negotiateSetLocal user peer.pc offer) .fulfilled st = some st1 ∧
      sent st1 = sent st ++
        (if st.socketOpen = true then
          [{ type := "webrtc:offer", user := st.localUser, target := some user, sdp := some offer }]
         else []) ∧
      ∀ p, peersGet st1.peers user = some p → p.pc = peer.pc → p.makingOffer = false) ∧
    (∀ message, (handleAnswer message s).peers = s.peers) ∧
    (∀ u pc r st st1, resumeTask (.answerSetRemote u pc) r st = some st1 → st1.peers = st.peers) := by
  refine ⟨?_, ?_, ?_, ?_⟩
  · unfold negotiateWith
    simp only [ensurePeer_of_get user s peer hget, hflag]
    simp [peersGet_updatePeer, hget]
  · intro offer st
    refine ⟨_, rfl, ?_, ?_⟩
    · simp [sent_sendMessage]
    · intro p hp hpc
      exact makingOffer_cleared user peer.pc (sendMessage _ st) p hp hpc
  · intro message
    unfold handleAnswer
    split
    · rfl
    · split <;> rfl
  · intro u pc r st st1 h
    cases r with
    | rejected =>
      simp only [resumeTask, Option.some.injEq] at h
      rw [← h]; rfl
    | fulfilled =>
      simp only [resumeTask, Option.some.injEq] at h
      rw [← h]
    | description d => simp [resumeTask] at h
    | stream c => simp [resumeTask] at h

/-- C10, amended, at `sampleState` and the entry of bob. -/
theorem makingOffer_spans_offer_creation_witness :
    (peersGet sampleState.peers "bob" = some sampleBob ∧ sampleBob.makingOffer = false) ∧
    (peersGet (negotiateWith "bob" sampleState).peers "bob").map (fun p => p.makingOffer) =
      some true :=
  ⟨⟨by decide, by decide⟩,
    (makingOffer_spans_offer_creation "bob" sampleState sampleBob (by decide) (by decide)).1⟩

/-! ## A failed description keeps the entry -/

/-- C17 as stated fails.  On the side of bob, the roster snapshot arrives, `createOffer`
fulfils and `setLocalDescription` rejects; after the failing reaction the entry of alice is
still in the map, on the same connection, and nothing was closed. -/
theorem entry_kept_after_failed_description :
    (run (initialState "bob") failedOfferRun).log =
        [.newConnection 0, .createOffer 0, .setLocalDescription 0 7, .error "negotiateWith"] ∧
    peersGet (run (initialState "bob") failedOfferRun).peers "alice" =
      some { pc := 0, senders := { audio := none, video := none, screen := none },
             makingOffer := false, initialOfferSent := true } := by
  decide

/-- C17, amended: when applying a description fails (in `negotiateWith`, `handleOffer` or
`handleAnswer`) the entry of the peer is kept.  The failing step runs to its end and only
reports the error: the map has the same keys, `handleOffer` and `handleAnswer` leave every
entry as it was, and `negotiateWith` changes nothing but `makingOffer`. -/
theorem failed_description_keeps_entry (user : String) (pc : Nat) (sdp : Sdp) (s : State) :
    (∃ s1, resumeTask (.negotiateSetLocal user pc sdp) .rejected s = some s1 ∧
      s1.peers.map Prod.fst = s.peers.map Prod.fst ∧ s1.log = s.log ++ [.error "negotiateWith"] ∧
      ∀ u, (peersGet s1.peers u).map (fun p => (p.pc, p.senders, p.initialOfferSent)) =
        (peersGet s.peers u).map (fun p => (p.pc, p.senders, p.initialOfferSent))) ∧
    (∃ s1, resumeTask (.offerSetRemote user pc) .rejected s = some s1 ∧
      s1.peers = s.peers ∧ s1.log = s.log ++ [.error "handleOffer"]) ∧
    (∃ s1, resumeTask (.offerSetLocal user pc sdp) .rejected s = some s1 ∧
      s1.peers = s.peers ∧ s1.log = s.log ++ [.error "handleOffer"]) ∧
    (∃ s1, resumeTask (.answerSetRemote user pc) .rejected s = some s1 ∧
      s1.peers = s.peers ∧ s1.log = s.log ++ [.error "handleAnswer"]) := by
  refine ⟨⟨_, rfl, ?_, rfl, ?_⟩, ⟨_, rfl, rfl, rfl⟩, ⟨_, rfl, rfl, rfl⟩, ⟨_, rfl, rfl, rfl⟩⟩
  · simp only [emit_peers]
    exact updatePeer_keys _ _ _ _
  · intro u
    simp only [emit_peers, peersGet_updatePeer]
    cases peersGet s.peers u with
    | none => rfl
    | some q =>
      simp only [Option.map_some', Option.some.injEq]
      split <;> rfl

/-! ## The timer lengths are bounded -/

/-- C20: `getDurationSeconds` returns a whole number of minutes, in seconds, within fixed
bounds.  With `input` the input it reads (the focus one for "focus", the break one for any
other kind): when the input is missing, its text does not parse, or parses to a value at most
0, the result is 1500 for "focus" and 300 otherwise; when it parses to a positive value the
result is `min value 300 * 60` for "focus" and `min value 180 * 60` otherwise.  So the result
lies between 60 and 18000 for "focus" and between 60 and 10800 for any other kind. -/
theorem getDurationSeconds_bounds (kind : String) (focusLengthInput breakLengthInput : Option String) :
    (∀ input, input = (if kind = "focus" then focusLengthInput else breakLengthInput) →
      ((input = none ∨ (∃ text, input = some text ∧ parseInt text = none) ∨
          (∃ text value, input = some text ∧ parseInt text = some value ∧ value ≤ 0)) →
        getDurationSeconds kind focusLengthInput breakLengthInput =
          if kind = "focus" then 1500 else 300) ∧
      (∀ text value, input = some text → parseInt text = some value → 0 < value →
        getDurationSeconds kind focusLengthInput breakLengthInput =
          if kind = "focus" then min value 300 * 60 else min value 180 * 60)) ∧
    getDurationSeconds kind focusLengthInput breakLengthInput % 60 = 0 ∧
    60 ≤ getDurationSeconds kind focusLengthInput breakLengthInput ∧
    getDurationSeconds kind focusLengthInput breakLengthInput ≤
      (if kind = "focus" then 18000 else 10800) := by
  refine ⟨?_, ?_⟩
  · intro input hinput
    constructor
    · rintro (h | ⟨text, h, hp⟩ | ⟨text, value, h, hp, hv⟩)
      · unfold getDurationSeconds
        rw [← hinput, h]
        by_cases hk : kind = "focus" <;> simp [hk]
      · unfold getDurationSeconds
        rw [← hinput, h]
        simp only [hp]
        by_cases hk : kind = "focus" <;> simp [hk]
      · unfold getDurationSeconds
        rw [← hinput, h]
        simp only [hp, if_pos hv]
        by_cases hk : kind = "focus" <;> simp [hk]
    · intro text value h hp hv
      unfold getDurationSeconds
      rw [← hinput, h]
      simp only [hp, if_neg (not_le.2 hv)]
      by_cases hk : kind = "focus" <;> simp [hk]
  · unfold getDurationSeconds
    by_cases hk : kind = "focus"
    · simp only [hk, if_true]
      cases focusLengthInput with
      | none => decide
      | some text =>
        simp only []
        cases parseInt text with
        | none => decide
        | some value =>
          simp only []
          by_cases hv : value ≤ 0
          · simp only [if_pos hv]; decide
          · simp only [if_neg hv]
            refine ⟨Int.mul_emod_left _ _, ?_, ?_⟩ <;> omega
    · simp only [hk, if_false]
      cases breakLengthInput with
      | none => decide
      | some text =>
        simp only []
        cases parseInt text with
        | none => decide
        | some value =>
          simp only []
          by_cases hv : value ≤ 0
          · simp only [if_pos hv]; decide
          · simp only [if_neg hv]
            refine ⟨Int.mul_emod_left _ _, ?_, ?_⟩ <;> omega

/-- C20 at the focus input " 45 min" (45 minutes), "999" (capped at 300 minutes) and "abc"
(the default of 25 minutes). -/
theorem getDurationSeconds_bounds_witness :
    (parseInt " 45 min" = some 45 ∧ (0 : Int) < 45) ∧
    getDurationSeconds "focus" (some " 45 min") none = 2700 ∧
    getDurationSeconds "focus" (some "999") none = 18000 ∧
    getDurationSeconds "focus" (some "abc") none = 1500 ∧
    getDurationSeconds "break" none (some "-3") = 300 :=
  ⟨⟨by decide, by decide⟩,
    ((getDurationSeconds_bounds "focus" (some " 45 min") none).1 (some " 45 min") rfl).2
      " 45 min" 45 rfl (by decide) (by decide),
    by decide, by decide, by decide⟩

/-! ## Operations that send nothing -/

theorem SameWire.wrefl (s : State) : SameWire s s := ⟨rfl, rfl, rfl⟩

theorem SameWire.wthen {a b c : State} (h1 : SameWire a b) (h2 : SameWire b c) : SameWire a c :=
  ⟨h2.1.trans h1.1, h2.2.1.trans h1.2.1, h2.2.2.trans h1.2.2⟩

theorem SameWire.of_log {s s1 : State} (h1 : s1.localUser = s.localUser)
    (h2 : s1.socketOpen = s.socketOpen) (h3 : s1.log = s.log) : SameWire s s1 :=
  ⟨h1, h2, sent_of_log_eq s s1 h3⟩

theorem sameWire_emit (e : Effect) (s : State) (h : ∀ m, e ≠ .send m) : SameWire s (emit e s) :=
  ⟨rfl, rfl, sent_emit_other e s h⟩

theorem sameWire_suspend (t : Task) (s : State) : SameWire s (suspend t s) := ⟨rfl, rfl, rfl⟩

theorem sameWire_updatePeer (u : String) (pc : Nat) (f : Peer → Peer) (s : State) :
    SameWire s (updatePeer u pc f s) := ⟨rfl, rfl, rfl⟩

theorem sameWire_syncPeerSender (p : Peer) (k : Kind) (s : State) :
    SameWire s (syncPeerSender p k s).2 := by
  unfold syncPeerSender
  split
  · split
    · exact sameWire_emit _ _ (fun m h => by cases h)
    · exact (SameWire.wrefl s).wthen ⟨rfl, rfl, sent_emit_other _ _ (fun m h => by cases h)⟩
  · split
    · exact sameWire_emit _ _ (fun m h => by cases h)
    · exact SameWire.wrefl s

@[simp] theorem syncEntries_tasks (kind : Kind) (es : List (String × Peer)) (s : State) :
    (syncEntries kind es s).2.tasks = s.tasks := by
  induction es generalizing s with
  | nil => rfl
  | cons e rest ih =>
    rcases e with ⟨k, p⟩
    simp only [syncEntries]
    rw [ih, syncPeerSender_tasks]

theorem sameWire_syncEntries (kind : Kind) (es : List (String × Peer)) (s : State) :
    SameWire s (syncEntries kind es s).2 := by
  induction es generalizing s with
  | nil => exact SameWire.wrefl s
  | cons e rest ih =>
    rcases e with ⟨k, p⟩
    simp only [syncEntries]
    exact (sameWire_syncPeerSender p kind s).wthen (ih _)

theorem sameWire_syncAllPeers (kind : Kind) (s : State) : SameWire s (syncAllPeers kind s) := by
  have h := sameWire_syncEntries kind s.peers s
  exact ⟨h.1, h.2.1, h.2.2⟩

@[simp] theorem syncAllPeers_tasks (kind : Kind) (s : State) :
    (syncAllPeers kind s).tasks = s.tasks := by
  unfold syncAllPeers
  exact syncEntries_tasks kind s.peers s

@[simp] theorem sent_peers_update (s : State) (ps : List (String × Peer)) :
    sent { s with peers := ps } = sent s := rfl

@[simp] theorem sent_nextId_update (s : State) (n : Nat) :
    sent { s with nextId := n } = sent s := rfl

@[simp] theorem sent_syncPeerSender (p : Peer) (k : Kind) (s : State) :
    sent (syncPeerSender p k s).2 = sent s := (sameWire_syncPeerSender p k s).2.2

@[simp] theorem ensurePeer_socketOpen (u : String) (s : State) :
    (ensurePeer u s).2.socketOpen = s.socketOpen := by
  unfold ensurePeer
  cases peersGet s.peers u <;> simp

theorem sameWire_ensurePeer (u : String) (s : State) : SameWire s (ensurePeer u s).2 := by
  refine ⟨ensurePeer_localUser u s, ensurePeer_socketOpen u s, ?_⟩
  unfold ensurePeer
  cases peersGet s.peers u with
  | some p => rfl
  | none =>
    simp only [createPeer, syncSenders, sent_peers_update, sent_syncPeerSender]
    exact sent_emit_other _ _ (fun m h => by cases h)

@[simp] theorem ensurePeer_tasks (u : String) (s : State) : (ensurePeer u s).2.tasks = s.tasks := by
  unfold ensurePeer
  cases peersGet s.peers u <;> simp

theorem sameWire_releaseSenders (pc : Nat) (slots : List (Option Nat)) (s : State) :
    SameWire s (releaseSenders pc slots s) := by
  unfold releaseSenders
  induction slots generalizing s with
  | nil => exact SameWire.wrefl s
  | cons x xs ih =>
    simp only [List.foldl_cons]
    cases x with
    | none => exact ih s
    | some sender => exact (sameWire_emit _ s (fun m h => by cases h)).wthen (ih _)

@[simp] theorem releaseSenders_tasks (pc : Nat) (slots : List (Option Nat)) (s : State) :
    (releaseSenders pc slots s).tasks = s.tasks := by
  unfold releaseSenders
  induction slots generalizing s with
  | nil => rfl
  | cons x xs ih =>
    simp only [List.foldl_cons]
    rw [ih]
    cases x <;> rfl

theorem sameWire_closePeer (u : String) (s : State) : SameWire s (closePeer u s) := by
  unfold closePeer
  cases peersGet s.peers u with
  | none => exact SameWire.wrefl s
  | some p =>
    have h := (sameWire_releaseSenders p.pc [p.senders.audio, p.senders.video, p.senders.screen] s).wthen
      (sameWire_emit (.close p.pc) _ (fun m h => by cases h))
    exact ⟨h.1, h.2.1, h.2.2⟩

@[simp] theorem closePeer_tasks (u : String) (s : State) : (closePeer u s).tasks = s.tasks := by
  unfold closePeer
  cases peersGet s.peers u <;> simp

theorem sameWire_negotiateWith (u : String) (s : State) : SameWire s (negotiateWith u s) := by
  unfold negotiateWith
  simp only []
  split
  · exact sameWire_ensurePeer u s
  · exact (sameWire_ensurePeer u s).wthen
      (((sameWire_updatePeer _ _ _ _).wthen (sameWire_emit _ _ (fun m h => by cases h))).wthen
        (sameWire_suspend _ _))

theorem negotiateWith_tasks (u : String) (s : State) :
    (negotiateWith u s).tasks = s.tasks ∨
      (negotiateWith u s).tasks = s.tasks ++ [.negotiateCreateOffer u (ensurePeer u s).1.pc] := by
  unfold negotiateWith
  simp only []
  split
  · exact Or.inl (ensurePeer_tasks u s)
  · exact Or.inr (by simp)

theorem sameWire_connectOther (s : State) (u : String) : SameWire s (connectOther s u) := by
  unfold connectOther
  simp only []
  split
  · exact (sameWire_ensurePeer u s).wthen
      ((sameWire_updatePeer _ _ _ _).wthen (sameWire_negotiateWith _ _))
  · exact sameWire_ensurePeer u s

theorem sameWire_foldl_connectOther (others : List String) (s : State) :
    SameWire s (others.foldl connectOther s) := by
  induction others generalizing s with
  | nil => exact SameWire.wrefl s
  | cons u us ih => exact (sameWire_connectOther s u).wthen (ih _)

theorem sameWire_removeDeparted (others keys : List String) (s : State) :
    SameWire s (removeDeparted others keys s) := by
  unfold removeDeparted
  induction keys generalizing s with
  | nil => exact SameWire.wrefl s
  | cons u us ih =>
    rw [List.foldl_cons]
    refine SameWire.wthen ?_ (ih _)
    split
    · split
      · exact SameWire.wrefl s
      · have h := sameWire_closePeer u s
        exact ⟨h.1, h.2.1, h.2.2⟩
    · exact SameWire.wrefl s

@[simp] theorem removeDeparted_tasks (others keys : List String) (s : State) :
    (removeDeparted others keys s).tasks = s.tasks := by
  unfold removeDeparted
  induction keys generalizing s with
  | nil => rfl
  | cons u us ih =>
    rw [List.foldl_cons, ih]
    split
    · split <;> simp
    · rfl

theorem sameWire_syncPeers (roster : List String) (s : State) : SameWire s (syncPeers roster s) := by
  unfold syncPeers
  split
  · exact SameWire.wrefl s
  · exact (sameWire_removeDeparted _ _ s).wthen (sameWire_foldl_connectOther _ _)

/-! ## Only the initiator sends offers -/

theorem Quiet.qrefl (s : State) : Quiet s s := ⟨rfl, fun _ h => Or.inl h, fun _ h => Or.inl h⟩

theorem Quiet.qthen {a b c : State} (h1 : Quiet a b) (h2 : Quiet b c) : Quiet a c := by
  refine ⟨h2.1.trans h1.1, ?_, ?_⟩
  · intro m hm
    rcases h2.2.1 m hm with h | h
    · exact h1.2.1 m h
    · exact Or.inr (h1.1 ▸ h)
  · intro t ht
    rcases h2.2.2 t ht with h | h
    · exact h1.2.2 t h
    · exact Or.inr (h1.1 ▸ h)

theorem GlareFree.step {s s1 : State} (h : GlareFree s) (hq : Quiet s s1) : GlareFree s1 := by
  refine ⟨?_, ?_⟩
  · intro m hm
    rw [hq.1]
    rcases hq.2.1 m hm with h1 | h1
    · exact h.1 m h1
    · exact h1
  · intro t ht
    rw [hq.1]
    rcases hq.2.2 t ht with h1 | h1
    · exact h.2 t h1
    · exact h1

theorem Quiet.of_sameWire {s s1 : State} (h : SameWire s s1)
    (ht : ∀ t ∈ s1.tasks, t ∈ s.tasks ∨ taskAllowed s.localUser t) : Quiet s s1 :=
  ⟨h.1, fun m hm => Or.inl (h.2.2 ▸ hm), ht⟩

theorem Quiet.of_sameWire_tasks {s s1 : State} (h : SameWire s s1) (ht : s1.tasks = s.tasks) :
    Quiet s s1 :=
  Quiet.of_sameWire h (fun t h1 => Or.inl (ht ▸ h1))

theorem quiet_sendMessage (m : Message) (s : State) (h : m.type ≠ "webrtc:offer") :
    Quiet s (sendMessage m s) := by
  refine ⟨sendMessage_localUser m s, ?_, fun t ht => Or.inl (by simpa using ht)⟩
  intro x hx
  rw [sent_sendMessage] at hx
  rcases List.mem_append.1 hx with h1 | h1
  · exact Or.inl h1
  · right
    split at h1
    · rw [List.mem_singleton.1 h1]
      exact fun hm => absurd hm h
    · cases h1

theorem quiet_suspend (t : Task) (s : State) (h : taskAllowed s.localUser t) :
    Quiet s (suspend t s) := by
  refine ⟨rfl, fun m hm => Or.inl hm, ?_⟩
  intro x hx
  rw [suspend_tasks] at hx
  rcases List.mem_append.1 hx with h1 | h1
  · exact Or.inl h1
  · rw [List.mem_singleton.1 h1]
    exact Or.inr h

theorem quiet_emit (e : Effect) (s : State) (h : ∀ m, e ≠ .send m) : Quiet s (emit e s) :=
  Quiet.of_sameWire_tasks (sameWire_emit e s h) rfl

theorem quiet_negotiateWith (u : String) (s : State) (h : shouldInitiate s.localUser u = true) :
    Quiet s (negotiateWith u s) := by
  refine Quiet.of_sameWire (sameWire_negotiateWith u s) ?_
  intro t ht
  rcases negotiateWith_tasks u s with h1 | h1
  · exact Or.inl (h1 ▸ ht)
  · rw [h1] at ht
    rcases List.mem_append.1 ht with h2 | h2
    · exact Or.inl h2
    · rw [List.mem_singleton.1 h2]
      exact Or.inr h

theorem quiet_connectOther (s : State) (u : String) : Quiet s (connectOther s u) := by
  unfold connectOther
  simp only []
  have he : Quiet s (ensurePeer u s).2 :=
    Quiet.of_sameWire_tasks (sameWire_ensurePeer u s) (ensurePeer_tasks u s)
  split
  · rename_i hc
    have hs : shouldInitiate (ensurePeer u s).2.localUser u = true := by
      simp only [Bool.and_eq_true] at hc
      exact hc.1
    refine he.qthen ?_
    refine Quiet.qthen ?_ (quiet_negotiateWith u _ hs)
    exact Quiet.of_sameWire_tasks (sameWire_updatePeer _ _ _ _) rfl
  · exact he

theorem quiet_foldl_connectOther (others : List String) (s : State) :
    Quiet s (others.foldl connectOther s) := by
  induction others generalizing s with
  | nil => exact Quiet.qrefl s
  | cons u us ih => exact (quiet_connectOther s u).qthen (ih _)

theorem quiet_syncPeers (roster : List String) (s : State) : Quiet s (syncPeers roster s) := by
  unfold syncPeers
  split
  · exact Quiet.qrefl s
  · exact (Quiet.of_sameWire_tasks (sameWire_removeDeparted _ _ s) (removeDeparted_tasks _ _ s)).qthen
      (quiet_foldl_connectOther _ _)

/-! ### The page and the media functions send no offer -/

theorem sameWire_ensureMediaTile (u : String) (s : State) : SameWire s (ensureMediaTile u s) :=
  SameWire.of_log (by simp) (by simp) (by simp)

theorem quiet_ensureMediaTile (u : String) (s : State) : Quiet s (ensureMediaTile u s) :=
  Quiet.of_sameWire_tasks (sameWire_ensureMediaTile u s) (by simp)

theorem quiet_updateLocalTile (s : State) : Quiet s (updateLocalTile s) :=
  Quiet.of_sameWire_tasks (SameWire.of_log (by simp) (by simp) (by simp)) (by simp)

theorem quiet_updateRemoteMedia (u : String) (m : MediaState) (s : State) :
    Quiet s (updateRemoteMedia u m s) := by
  unfold updateRemoteMedia updateTileStatus
  exact Quiet.qthen (Quiet.of_sameWire_tasks ⟨rfl, rfl, rfl⟩ rfl) (quiet_ensureMediaTile u _)

theorem quiet_pruneMediaTiles (participants : List String) (s : State) :
    Quiet s (pruneMediaTiles participants s) := by
  unfold pruneMediaTiles
  induction s.mediaTiles generalizing s with
  | nil => exact Quiet.qrefl s
  | cons u us ih =>
    rw [List.foldl_cons]
    refine Quiet.qthen ?_ (ih _)
    split
    · exact Quiet.qrefl s
    · exact Quiet.of_sameWire_tasks ⟨rfl, rfl, rfl⟩ rfl

theorem quiet_renderState (participants : List String) (mediaStates : List (String × MediaState))
    (s : State) : Quiet s (renderState participants mediaStates s) := by
  unfold renderState
  simp only []
  have h1 : ∀ (names : List String) (x : State),
      Quiet x (names.foldl (fun st name => ensureMediaTile name st) x) := by
    intro names
    induction names with
    | nil => exact fun x => Quiet.qrefl x
    | cons n ns ih => exact fun x => (quiet_ensureMediaTile n x).qthen (ih _)
  have h2 : ∀ (ms : List (String × MediaState)) (x : State),
      Quiet x (ms.foldl (fun st e => updateRemoteMedia e.1 e.2 st) x) := by
    intro ms
    induction ms with
    | nil => exact fun x => Quiet.qrefl x
    | cons n ns ih => exact fun x => (quiet_updateRemoteMedia n.1 n.2 x).qthen (ih _)
  exact ((h1 participants s).qthen ((quiet_pruneMediaTiles participants _).qthen
    (quiet_syncPeers participants _))).qthen (h2 mediaStates _)

theorem quiet_stopTracks (tracks : List Track) (s : State) : Quiet s (stopTracks tracks s) := by
  unfold stopTracks
  induction tracks generalizing s with
  | nil => exact Quiet.qrefl s
  | cons t ts ih =>
    rw [List.foldl_cons]
    exact (quiet_emit _ s (fun m h => by cases h)).qthen (ih _)

theorem quiet_sendMediaUpdate (s : State) : Quiet s (sendMediaUpdate s) := by
  unfold sendMediaUpdate
  split
  · exact Quiet.qrefl s
  · exact quiet_sendMessage _ s (by show "media:update" ≠ "webrtc:offer"; decide)

theorem quiet_syncAllPeers (kind : Kind) (s : State) : Quiet s (syncAllPeers kind s) :=
  Quiet.of_sameWire_tasks (sameWire_syncAllPeers kind s) (syncAllPeers_tasks kind s)

theorem quiet_finish (kind : Kind) (s : State) :
    Quiet s (sendMediaUpdate (updateLocalTile (syncAllPeers kind s))) :=
  (quiet_syncAllPeers kind s).qthen ((quiet_updateLocalTile _).qthen (quiet_sendMediaUpdate _))

theorem quiet_stopAudioTracks (s : State) : Quiet s (stopAudioTracks s) := by
  unfold stopAudioTracks
  exact (quiet_stopTracks _ s).qthen (Quiet.of_sameWire_tasks ⟨rfl, rfl, rfl⟩ rfl)

theorem quiet_stopVideoTracks (s : State) : Quiet s (stopVideoTracks s) := by
  unfold stopVideoTracks
  exact (quiet_stopTracks _ s).qthen (Quiet.of_sameWire_tasks ⟨rfl, rfl, rfl⟩ rfl)

theorem quiet_stopScreenShare (s : State) : Quiet s (stopScreenShare s) := by
  unfold stopScreenShare
  simp only []
  refine Quiet.qthen ?_ (quiet_finish .screen _)
  cases s.screenStream with
  | none => exact Quiet.of_sameWire_tasks ⟨rfl, rfl, rfl⟩ rfl
  | some st =>
    exact (quiet_stopTracks (st.audioTracks ++ st.videoTracks) s).qthen
      (Quiet.of_sameWire_tasks ⟨rfl, rfl, rfl⟩ rfl)

theorem quiet_toggleMic (s : State) : Quiet s (toggleMic s) := by
  unfold toggleMic toggleMicFinish
  split
  · exact ((quiet_stopAudioTracks s).qthen (Quiet.of_sameWire_tasks ⟨rfl, rfl, rfl⟩ rfl)).qthen
      (quiet_finish .audio _)
  · exact (quiet_emit _ s (fun m h => by cases h)).qthen (quiet_suspend _ _ trivial)

theorem quiet_toggleCamera (s : State) : Quiet s (toggleCamera s) := by
  unfold toggleCamera toggleCameraFinish
  split
  · exact ((quiet_stopVideoTracks s).qthen (Quiet.of_sameWire_tasks ⟨rfl, rfl, rfl⟩ rfl)).qthen
      (quiet_finish .video _)
  · exact (quiet_emit _ s (fun m h => by cases h)).qthen (quiet_suspend _ _ trivial)

theorem quiet_toggleScreenShare (s : State) : Quiet s (toggleScreenShare s) := by
  unfold toggleScreenShare
  split
  · exact quiet_stopScreenShare s
  · exact (quiet_emit _ s (fun m h => by cases h)).qthen (quiet_suspend _ _ trivial)

theorem quiet_cleanupPeers (s : State) : Quiet s (cleanupPeers s) := by
  unfold cleanupPeers
  simp only []
  have h : ∀ (keys : List String) (x : State),
      Quiet x (keys.foldl (fun st user => closePeer user st) x) := by
    intro keys
    induction keys with
    | nil => exact fun x => Quiet.qrefl x
    | cons k ks ih =>
      exact fun x => (Quiet.of_sameWire_tasks (sameWire_closePeer k x) (closePeer_tasks k x)).qthen (ih _)
  exact (h _ s).qthen (Quiet.of_sameWire_tasks ⟨rfl, rfl, rfl⟩ rfl)

theorem quiet_stopAllMedia (s : State) : Quiet s (stopAllMedia s) := by
  unfold stopAllMedia
  simp only []
  have h1 := ((quiet_stopAudioTracks s).qthen (quiet_stopVideoTracks _)).qthen
    (quiet_stopScreenShare _)
  refine h1.qthen ?_
  refine Quiet.qthen ?_ (quiet_updateLocalTile _)
  exact Quiet.of_sameWire_tasks ⟨rfl, rfl, rfl⟩ rfl

theorem quiet_onSocketClose (s : State) : Quiet s (onSocketClose s) := by
  unfold onSocketClose
  have h0 : Quiet s { s with socketOpen := false } :=
    ⟨rfl, fun m hm => Or.inl hm, fun t ht => Or.inl ht⟩
  exact h0.qthen ((quiet_cleanupPeers _).qthen (quiet_stopAllMedia _))

/-! ### The handlers and the callbacks -/

theorem sameWire_handleOffer (message : Message) (s : State) : SameWire s (handleOffer message s) := by
  unfold handleOffer
  simp only []
  cases message.sdp with
  | none => exact sameWire_ensurePeer _ s
  | some sdp =>
    exact (sameWire_ensurePeer _ s).wthen
      ((sameWire_emit _ _ (fun m h => by cases h)).wthen (sameWire_suspend _ _))

theorem handleOffer_tasks (message : Message) (s : State) :
    (handleOffer message s).tasks =
      s.tasks ++ (match message.sdp with
        | none => []
        | some _ => [.offerSetRemote message.user (ensurePeer message.user s).1.pc]) := by
  unfold handleOffer
  simp only []
  cases message.sdp <;> simp

theorem sameWire_handleAnswer (message : Message) (s : State) :
    SameWire s (handleAnswer message s) := by
  unfold handleAnswer
  split
  · exact SameWire.wrefl s
  · split
    · exact SameWire.wrefl s
    · exact (sameWire_emit _ _ (fun m h => by cases h)).wthen (sameWire_suspend _ _)

theorem sameWire_handleCandidate (message : Message) (s : State) :
    SameWire s (handleCandidate message s) := by
  unfold handleCandidate
  split
  · exact (sameWire_emit _ _ (fun m h => by cases h)).wthen (sameWire_suspend _ _)
  · exact SameWire.wrefl s

theorem quiet_handleOffer (message : Message) (s : State) : Quiet s (handleOffer message s) := by
  refine Quiet.of_sameWire (sameWire_handleOffer message s) ?_
  intro t ht
  rw [handleOffer_tasks] at ht
  rcases List.mem_append.1 ht with h | h
  · exact Or.inl h
  · right
    cases hs : message.sdp with
    | none => rw [hs] at h; cases h
    | some sdp =>
      rw [hs] at h
      rw [List.mem_singleton.1 h]
      trivial

theorem quiet_handleAnswer (message : Message) (s : State) : Quiet s (handleAnswer message s) := by
  refine Quiet.of_sameWire (sameWire_handleAnswer message s) ?_
  intro t ht
  unfold handleAnswer at ht
  split at ht
  · exact Or.inl ht
  · split at ht
    · exact Or.inl ht
    · rw [suspend_tasks, emit_tasks] at ht
      rcases List.mem_append.1 ht with h | h
      · exact Or.inl h
      · rw [List.mem_singleton.1 h]
        exact Or.inr trivial

theorem quiet_handleCandidate (message : Message) (s : State) :
    Quiet s (handleCandidate message s) := by
  refine Quiet.of_sameWire (sameWire_handleCandidate message s) ?_
  intro t ht
  unfold handleCandidate at ht
  split at ht
  · rw [suspend_tasks, emit_tasks] at ht
    rcases List.mem_append.1 ht with h | h
    · exact Or.inl h
    · rw [List.mem_singleton.1 h]
      exact Or.inr trivial
  · exact Or.inl ht

theorem quiet_onMessage (data : Message) (s : State) : Quiet s (onMessage data s) := by
  unfold onMessage
  split
  · exact quiet_renderState _ _ s
  · split
    · exact Quiet.qrefl s
    · split
      · exact Quiet.qrefl s
      · split
        · exact quiet_updateRemoteMedia _ _ s
        · split
          · split
            · exact quiet_handleOffer data s
            · exact Quiet.qrefl s
          · split
            · split
              · exact quiet_handleAnswer data s
              · exact Quiet.qrefl s
            · split
              · split
                · exact quiet_handleCandidate data s
                · exact Quiet.qrefl s
              · exact Quiet.qrefl s

theorem quiet_onNegotiationNeeded (user : String) (s : State) :
    Quiet s (onNegotiationNeeded user s) := by
  unfold onNegotiationNeeded
  split
  · rename_i h
    exact quiet_negotiateWith user s h
  · exact Quiet.qrefl s

theorem quiet_onIceCandidate (user : String) (candidate : Option Candidate) (s : State) :
    Quiet s (onIceCandidate user candidate s) := by
  unfold onIceCandidate
  cases candidate with
  | none => exact Quiet.qrefl s
  | some c => exact quiet_sendMessage _ s (by show "webrtc:candidate" ≠ "webrtc:offer"; decide)

theorem quiet_onConnectionStateChange (user connectionState : String) (s : State) :
    Quiet s (onConnectionStateChange user connectionState s) := by
  unfold onConnectionStateChange
  split
  · exact Quiet.of_sameWire_tasks (sameWire_closePeer user s) (closePeer_tasks user s)
  · exact Quiet.qrefl s

theorem quiet_handleRemoteTrack (user : String) (hasStream : Bool) (s : State) :
    Quiet s (handleRemoteTrack user hasStream s) := by
  unfold handleRemoteTrack
  split
  · exact quiet_ensureMediaTile user s
  · exact Quiet.qrefl s

/-! ### Resuming a suspended call -/

theorem quiet_resumeTask (t : Task) (r : Outcome) (s s1 : State)
    (ht : taskAllowed s.localUser t) (h : resumeTask t r s = some s1) : Quiet s s1 := by
  cases t with
  | negotiateCreateOffer user pc =>
    cases r with
    | description offer =>
      simp only [resumeTask, Option.some.injEq] at h
      rw [← h]
      exact (quiet_emit _ s (fun m h => by cases h)).qthen (quiet_suspend _ _ ht)
    | rejected =>
      simp only [resumeTask, Option.some.injEq] at h
      rw [← h]
      exact (Quiet.of_sameWire_tasks (sameWire_updatePeer _ _ _ s) rfl).qthen
        (quiet_emit _ _ (fun m h => by cases h))
    | fulfilled => simp [resumeTask] at h
    | stream c => simp [resumeTask] at h
  | negotiateSetLocal user pc offer =>
    cases r with
    | fulfilled =>
      simp only [resumeTask, Option.some.injEq] at h
      rw [← h]
      refine Quiet.qthen ?_ (Quiet.of_sameWire_tasks (sameWire_updatePeer _ _ _ _) rfl)
      refine ⟨sendMessage_localUser _ s, ?_, fun x hx => Or.inl (by simpa using hx)⟩
      intro x hx
      rw [sent_sendMessage] at hx
      rcases List.mem_append.1 hx with h1 | h1
      · exact Or.inl h1
      · right
        split at h1
        · rw [List.mem_singleton.1 h1]
          exact fun _ => ⟨user, rfl, ht⟩
        · cases h1
    | rejected =>
      simp only [resumeTask, Option.some.injEq] at h
      rw [← h]
      exact (Quiet.of_sameWire_tasks (sameWire_updatePeer _ _ _ s) rfl).qthen
        (quiet_emit _ _ (fun m h => by cases h))
    | description d => simp [resumeTask] at h
    | stream c => simp [resumeTask] at h
  | offerSetRemote user pc =>
    cases r with
    | fulfilled =>
      simp only [resumeTask, Option.some.injEq] at h
      rw [← h]
      exact (quiet_emit _ s (fun m h => by cases h)).qthen (quiet_suspend _ _ trivial)
    | rejected =>
      simp only [resumeTask, Option.some.injEq] at h
      rw [← h]
      exact quiet_emit _ s (fun m h => by cases h)
    | description d => simp [resumeTask] at h
    | stream c => simp [resumeTask] at h
  | offerCreateAnswer user pc =>
    cases r with
    | description answer =>
      simp only [resumeTask, Option.some.injEq] at h
      rw [← h]
      exact (quiet_emit _ s (fun m h => by cases h)).qthen (quiet_suspend _ _ trivial)
    | rejected =>
      simp only [resumeTask, Option.some.injEq] at h
      rw [← h]
      exact quiet_emit _ s (fun m h => by cases h)
    | fulfilled => simp [resumeTask] at h
    | stream c => simp [resumeTask] at h
  | offerSetLocal user pc answer =>
    cases r with
    | fulfilled =>
      simp only [resumeTask, Option.some.injEq] at h
      rw [← h]
      exact quiet_sendMessage _ s (by show "webrtc:answer" ≠ "webrtc:offer"; decide)
    | rejected =>
      simp only [resumeTask, Option.some.injEq] at h
      rw [← h]
      exact quiet_emit _ s (fun m h => by cases h)
    | description d => simp [resumeTask] at h
    | stream c => simp [resumeTask] at h
  | answerSetRemote user pc =>
    cases r with
    | fulfilled =>
      simp only [resumeTask, Option.some.injEq] at h
      rw [← h]
      exact Quiet.qrefl s
    | rejected =>
      simp only [resumeTask, Option.some.injEq] at h
      rw [← h]
      exact quiet_emit _ s (fun m h => by cases h)
    | description d => simp [resumeTask] at h
    | stream c => simp [resumeTask] at h
  | candidateAdd user pc =>
    cases r with
    | fulfilled =>
      simp only [resumeTask, Option.some.injEq] at h
      rw [← h]
      exact Quiet.qrefl s
    | rejected =>
      simp only [resumeTask, Option.some.injEq] at h
      rw [← h]
      exact quiet_emit _ s (fun m h => by cases h)
    | description d => simp [resumeTask] at h
    | stream c => simp [resumeTask] at h
  | micCapture =>
    cases r with
    | stream captured =>
      simp only [resumeTask, Option.some.injEq] at h
      rw [← h]
      unfold toggleMicFinish
      exact Quiet.qthen (Quiet.of_sameWire_tasks ⟨rfl, rfl, rfl⟩ rfl) (quiet_finish .audio _)
    | rejected =>
      simp only [resumeTask, Option.some.injEq] at h
      rw [← h]
      unfold toggleMicFinish
      exact (quiet_emit _ s (fun m h => by cases h)).qthen (quiet_finish .audio _)
    | fulfilled => simp [resumeTask] at h
    | description d => simp [resumeTask] at h
  | cameraCapture =>
    cases r with
    | stream captured =>
      simp only [resumeTask, Option.some.injEq] at h
      rw [← h]
      unfold toggleCameraFinish
      exact Quiet.qthen (Quiet.of_sameWire_tasks ⟨rfl, rfl, rfl⟩ rfl) (quiet_finish .video _)
    | rejected =>
      simp only [resumeTask, Option.some.injEq] at h
      rw [← h]
      unfold toggleCameraFinish
      exact (quiet_emit _ s (fun m h => by cases h)).qthen (quiet_finish .video _)
    | fulfilled => simp [resumeTask] at h
    | description d => simp [resumeTask] at h
  | screenCapture =>
    cases r with
    | stream captured =>
      simp only [resumeTask, Option.some.injEq] at h
      rw [← h]
      exact Quiet.qthen (Quiet.of_sameWire_tasks ⟨rfl, rfl, rfl⟩ rfl) (quiet_finish .screen _)
    | rejected =>
      simp only [resumeTask, Option.some.injEq] at h
      rw [← h]
      exact quiet_emit _ s (fun m h => by cases h)
    | fulfilled => simp [resumeTask] at h
    | description d => simp [resumeTask] at h

theorem glareFree_settle (index : Nat) (r : Outcome) (s : State) (h : GlareFree s) :
    GlareFree (settle index r s) := by
  unfold settle
  cases hg : s.tasks.get? index with
  | none => exact h
  | some t =>
    simp only []
    have htmem : t ∈ s.tasks := List.get?_mem hg
    have h0 : GlareFree { s with tasks := s.tasks.eraseIdx index } :=
      ⟨h.1, fun x hx => h.2 x (List.mem_of_mem_eraseIdx hx)⟩
    cases hr : resumeTask t r { s with tasks := s.tasks.eraseIdx index } with
    | none => exact h
    | some s1 => exact h0.step (quiet_resumeTask t r _ s1 (h.2 t htmem) hr)

theorem glareFree_react (s : State) (e : Event) (h : GlareFree s) : GlareFree (react s e) := by
  cases e with
  | message data => exact h.step (quiet_onMessage data s)
  | negotiationNeeded user => exact h.step (quiet_onNegotiationNeeded user s)
  | iceCandidate user candidate => exact h.step (quiet_onIceCandidate user candidate s)
  | connectionStateChange user cs => exact h.step (quiet_onConnectionStateChange user cs s)
  | track user hasStream => exact h.step (quiet_handleRemoteTrack user hasStream s)
  | micClick => exact h.step (quiet_toggleMic s)
  | cameraClick => exact h.step (quiet_toggleCamera s)
  | screenClick => exact h.step (quiet_toggleScreenShare s)
  | screenEnded => exact h.step (quiet_stopScreenShare s)
  | socketClose => exact h.step (quiet_onSocketClose s)
  | settled index outcome => exact glareFree_settle index outcome s h

theorem glareFree_run (events : List Event) (s : State) (h : GlareFree s) :
    GlareFree (run s events) := by
  unfold run
  induction events generalizing s with
  | nil => exact h
  | cons e es ih => exact ih _ (glareFree_react s e h)

theorem settle_localUser (index : Nat) (r : Outcome) (s : State) :
    (settle index r s).localUser = s.localUser := by
  unfold settle
  cases hg : s.tasks.get? index with
  | none => rfl
  | some t =>
    simp only []
    cases hr : resumeTask t r { s with tasks := s.tasks.eraseIdx index } with
    | none => rfl
    | some s1 =>
      cases t <;> cases r <;> simp [resumeTask] at hr <;> rw [← hr] <;>
        simp [toggleMicFinish, toggleCameraFinish, (sameWire_syncAllPeers _ _).1]

theorem react_localUser (s : State) (e : Event) : (react s e).localUser = s.localUser := by
  cases e with
  | message data => exact (quiet_onMessage data s).1
  | negotiationNeeded user => exact (quiet_onNegotiationNeeded user s).1
  | iceCandidate user candidate => exact (quiet_onIceCandidate user candidate s).1
  | connectionStateChange user cs => exact (quiet_onConnectionStateChange user cs s).1
  | track user hasStream => exact (quiet_handleRemoteTrack user hasStream s).1
  | micClick => exact (quiet_toggleMic s).1
  | cameraClick => exact (quiet_toggleCamera s).1
  | screenClick => exact (quiet_toggleScreenShare s).1
  | screenEnded => exact (quiet_stopScreenShare s).1
  | socketClose => exact (quiet_onSocketClose s).1
  | settled index outcome => exact settle_localUser index outcome s

theorem run_localUser (events : List Event) (s : State) : (run s events).localUser = s.localUser := by
  unfold run
  induction events generalizing s with
  | nil => rfl
  | cons e es ih =>
    rw [List.foldl_cons, ih]
    exact react_localUser s e

/-- C5: the responder never sends an offer.  From a freshly joined client, after any sequence
of reactions (socket messages, among them roster snapshots and inbound offers, answers and
candidates; the callbacks of the connections, among them `negotiationneeded`; clicks on the
media buttons and the end of a screen share; settled promises; the close of the socket), every
`webrtc:offer` that has been sent is addressed to a target for which `shouldInitiate(target)`
is true for the local identity; so no offer is ever sent to a target for which it is false. -/
theorem responder_never_offers (localUser : String) (events : List Event) (m : Message)
    (hsent : m ∈ sent (run (initialState localUser) events)) (htype : m.type = "webrtc:offer") :
    (∃ target, m.target = some target ∧ shouldInitiate localUser target = true) ∧
    ∀ target, shouldInitiate localUser target = false → m.target ≠ some target := by
  have h0 : GlareFree (initialState localUser) :=
    ⟨fun x hx => (by cases hx), fun x hx => (by cases hx)⟩
  have h := (glareFree_run events _ h0).1 m hsent htype
  rw [run_localUser] at h
  have h1 : ∃ target, m.target = some target ∧ shouldInitiate localUser target = true := h
  refine ⟨h1, ?_⟩
  intro target hfalse heq
  obtain ⟨t, ht, hs⟩ := h1
  rw [heq, Option.some.injEq] at ht
  rw [← ht, hfalse] at hs
  cases hs

/-- C5 on the side of bob: the offer sent after the roster snapshot goes to alice, toward whom
bob is the initiator. -/
theorem responder_never_offers_witness :
    (({ type := "webrtc:offer", user := "bob", target := some "alice", sdp := some 7 } : Message)
        ∈ sent (run (initialState "bob") offerRun) ∧
      ({ type := "webrtc:offer", user := "bob", target := some "alice", sdp := some 7 } : Message).type
        = "webrtc:offer") ∧
    ∃ target,
      ({ type := "webrtc:offer", user := "bob", target := some "alice", sdp := some 7 } : Message).target
        = some target ∧ shouldInitiate "bob" target = true :=
  ⟨⟨by decide, by decide⟩,
    (responder_never_offers "bob" offerRun
      { type := "webrtc:offer", user := "bob", target := some "alice", sdp := some 7 }
      (by decide) (by decide)).1⟩

/-! ## What an operation adds to the log -/

theorem settle_appended (ts : List Task) (t : Task) (r : Outcome) (s : State)
    (hs : s.tasks = ts ++ [t]) :
    settle ts.length r s = (resumeTask t r { s with tasks := ts }).getD s := by
  unfold settle
  have h1 : s.tasks.get? ts.length = some t := by
    rw [hs]
    simp
  have h2 : s.tasks.eraseIdx ts.length = ts := by
    rw [hs, List.eraseIdx_append_of_length_le (Nat.le_refl _)]
    simp
  rw [h1]
  simp only [h2]
  cases resumeTask t r { s with tasks := ts } <;> rfl

theorem LogAdds.lrefl (P : Effect → Prop) (s : State) : LogAdds P s s :=
  ⟨[], by simp, fun e h => (by cases h)⟩

theorem LogAdds.lthen {P : Effect → Prop} {a b c : State} (h1 : LogAdds P a b)
    (h2 : LogAdds P b c) : LogAdds P a c := by
  obtain ⟨d1, e1, p1⟩ := h1
  obtain ⟨d2, e2, p2⟩ := h2
  refine ⟨d1 ++ d2, by rw [e2, e1, List.append_assoc], ?_⟩
  intro e he
  rcases List.mem_append.1 he with h | h
  · exact p1 e h
  · exact p2 e h

theorem LogAdds.of_log_eq {P : Effect → Prop} {s s1 : State} (h : s1.log = s.log) :
    LogAdds P s s1 :=
  ⟨[], by simp [h], fun e he => (by cases he)⟩

theorem logAdds_emit {P : Effect → Prop} (e : Effect) (s : State) (h : P e) :
    LogAdds P s (emit e s) :=
  ⟨[e], rfl, fun x hx => by rw [List.mem_singleton.1 hx]; exact h⟩

theorem syncPeerSender_pc (p : Peer) (k : Kind) (s : State) :
    (syncPeerSender p k s).1.pc = p.pc := by
  unfold syncPeerSender
  split <;> split <;> rfl

theorem syncPeerSender_nextId_le (p : Peer) (k : Kind) (s : State) :
    s.nextId ≤ (syncPeerSender p k s).2.nextId := by
  unfold syncPeerSender
  split <;> split <;> simp [emit]

theorem logAdds_syncPeerSender (p : Peer) (k : Kind) (s : State) :
    LogAdds (fun e => (e.connection? = some p.pc ∨ e.connection? = none) ∧ ∀ pc, e ≠ .close pc)
      s (syncPeerSender p k s).2 := by
  unfold syncPeerSender
  split
  · split
    · exact logAdds_emit _ _ ⟨Or.inr rfl, fun pc h => by cases h⟩
    · exact ⟨[_], rfl, fun x hx => by
        rw [List.mem_singleton.1 hx]; exact ⟨Or.inl rfl, fun pc h => by cases h⟩⟩
  · split
    · exact logAdds_emit _ _ ⟨Or.inl rfl, fun pc h => by cases h⟩
    · exact LogAdds.lrefl _ s

theorem LogAdds.mono {P Q : Effect → Prop} {s s1 : State} (h : LogAdds P s s1)
    (hpq : ∀ e, P e → Q e) : LogAdds Q s s1 := by
  obtain ⟨d, e1, p1⟩ := h
  exact ⟨d, e1, fun e he => hpq e (p1 e he)⟩

theorem syncSenders_pc (p : Peer) (s : State) : (syncSenders p s).1.pc = p.pc := by
  simp [syncSenders, syncPeerSender_pc]

theorem syncSenders_nextId_le (p : Peer) (s : State) : s.nextId ≤ (syncSenders p s).2.nextId := by
  unfold syncSenders
  have h1 := syncPeerSender_nextId_le p .audio s
  have h2 := syncPeerSender_nextId_le (syncPeerSender p .audio s).1 .video (syncPeerSender p .audio s).2
  have h3 := syncPeerSender_nextId_le (syncPeerSender (syncPeerSender p .audio s).1 .video
    (syncPeerSender p .audio s).2).1 .screen (syncPeerSender (syncPeerSender p .audio s).1 .video
    (syncPeerSender p .audio s).2).2
  simp only []
  omega

theorem logAdds_syncSenders (p : Peer) (s : State) :
    LogAdds (fun e => (e.connection? = some p.pc ∨ e.connection? = none) ∧ ∀ pc, e ≠ .close pc)
      s (syncSenders p s).2 := by
  unfold syncSenders
  have ha := logAdds_syncPeerSender p .audio s
  have hv := logAdds_syncPeerSender (syncPeerSender p .audio s).1 .video (syncPeerSender p .audio s).2
  have hc := logAdds_syncPeerSender (syncPeerSender (syncPeerSender p .audio s).1 .video
    (syncPeerSender p .audio s).2).1 .screen (syncPeerSender (syncPeerSender p .audio s).1 .video
    (syncPeerSender p .audio s).2).2
  rw [syncPeerSender_pc, syncPeerSender_pc] at hc
  rw [syncPeerSender_pc] at hv
  exact (ha.lthen hv).lthen hc

/-- What `createPeer` does: the connection of the new entry is the next object of the browser,
the log grows by the `new RTCPeerConnection` and then by calls none of which is made on another
connection or is a `close`, and the numbering of objects moves on. -/
theorem createPeer_spec (u : String) (s : State) :
    (createPeer u s).1.pc = s.nextId ∧
    (∃ added, (createPeer u s).2.log = s.log ++ .newConnection s.nextId :: added ∧
      ∀ e ∈ added, (e.connection? = some s.nextId ∨ e.connection? = none) ∧ ∀ pc, e ≠ .close pc) ∧
    s.nextId < (createPeer u s).2.nextId := by
  unfold createPeer
  simp only []
  refine ⟨syncSenders_pc _ _, ?_, ?_⟩
  · obtain ⟨d, hd, hp⟩ := logAdds_syncSenders
      { pc := s.nextId, senders := { audio := none, video := none, screen := none },
        makingOffer := false, initialOfferSent := false }
      { emit (.newConnection s.nextId) { s with nextId := s.nextId + 1 } with
        peers := peersSet (emit (.newConnection s.nextId) { s with nextId := s.nextId + 1 }).peers u
          { pc := s.nextId, senders := { audio := none, video := none, screen := none },
            makingOffer := false, initialOfferSent := false } }
    refine ⟨d, ?_, hp⟩
    rw [hd]
    simp [emit]
  · have h := syncSenders_nextId_le
      { pc := s.nextId, senders := { audio := none, video := none, screen := none },
        makingOffer := false, initialOfferSent := false }
      { emit (.newConnection s.nextId) { s with nextId := s.nextId + 1 } with
        peers := peersSet (emit (.newConnection s.nextId) { s with nextId := s.nextId + 1 }).peers u
          { pc := s.nextId, senders := { audio := none, video := none, screen := none },
            makingOffer := false, initialOfferSent := false } }
    simp only [emit] at h
    simp only [emit]
    omega

theorem ensurePeer_of_none (u : String) (s : State) (h : peersGet s.peers u = none) :
    ensurePeer u s = createPeer u s := by
  unfold ensurePeer
  rw [h]

/-- C6: an inbound `webrtc:offer` addressed to the local identity and carrying a session
description is answered.  `handleOffer` makes sure the sender has an entry (a new connection
when the map had none, whatever `shouldInitiate` says about the two sides), calls
`setRemoteDescription` with the description on the connection of that entry and waits; when
that promise, the one of `createAnswer` and the one of `setLocalDescription` fulfil, the socket
being open, exactly one message has been sent since the offer arrived: the `webrtc:answer`
whose `user` is the local identity and whose `target` is the sender of the offer. -/
theorem handleOffer_answers (message : Message) (sdp answer : Sdp) (s : State)
    (htype : message.type = "webrtc:offer") (htarget : message.target = some s.localUser)
    (hsdp : message.sdp = some sdp) (hopen : s.socketOpen = true) :
    peersGet (onMessage message s).peers message.user = some (ensurePeer message.user s).1 ∧
    (peersGet s.peers message.user = none →
      (ensurePeer message.user s).1.pc = s.nextId ∧
      Effect.newConnection s.nextId ∈ (onMessage message s).log) ∧
    (onMessage message s).log = (ensurePeer message.user s).2.log ++
      [.setRemoteDescription (ensurePeer message.user s).1.pc sdp] ∧
    (onMessage message s).tasks = s.tasks ++
      [.offerSetRemote message.user (ensurePeer message.user s).1.pc] ∧
    sent (run (onMessage message s)
        [.settled s.tasks.length .fulfilled, .settled s.tasks.length (.description answer),
          .settled s.tasks.length .fulfilled]) =
      sent s ++ [{ type := "webrtc:answer", user := s.localUser, target := some message.user,
                   sdp := some answer }] := by
  have hon : onMessage message s =
      suspend (.offerSetRemote message.user (ensurePeer message.user s).1.pc)
        (emit (.setRemoteDescription (ensurePeer message.user s).1.pc sdp)
          (ensurePeer message.user s).2) := by
    unfold onMessage
    simp only [htype, htarget, if_true]
    simp only [show ¬ ("webrtc:offer" = "state") by decide, show ¬ ("webrtc:offer" = "chat") by decide,
      show ¬ ("webrtc:offer" = "event") by decide,
      show ¬ ("webrtc:offer" = "media:update") by decide, if_false]
    unfold handleOffer
    simp only [hsdp]
  have hwire := sameWire_ensurePeer message.user s
  refine ⟨?_, ?_, ?_, ?_, ?_⟩
  · rw [hon]
    exact ensurePeer_get message.user s
  · intro hnone
    rw [hon, ensurePeer_of_none _ _ hnone]
    obtain ⟨hpc, ⟨d, hd, _⟩, _⟩ := createPeer_spec message.user s
    refine ⟨hpc, ?_⟩
    simp only [suspend_log, emit_log, hd]
    simp
  · rw [hon]
    rfl
  · rw [hon]
    simp
  · rw [hon]
    generalize hpc : (ensurePeer message.user s).1.pc = pc
    generalize hs1 : (ensurePeer message.user s).2 = s1 at hwire
    have ht1 : s1.tasks = s.tasks := by rw [← hs1]; simp
    simp only [run, List.foldl_cons, List.foldl_nil, react]
    rw [← ht1]
    have e1 : settle s1.tasks.length .fulfilled
        (suspend (.offerSetRemote message.user pc) (emit (.setRemoteDescription pc sdp) s1)) =
        suspend (.offerCreateAnswer message.user pc)
          (emit (.createAnswer pc) (emit (.setRemoteDescription pc sdp) s1)) := by
      rw [settle_appended s1.tasks (.offerSetRemote message.user pc) .fulfilled _ rfl]
      rfl
    have e2 : settle s1.tasks.length (.description answer)
        (suspend (.offerCreateAnswer message.user pc)
          (emit (.createAnswer pc) (emit (.setRemoteDescription pc sdp) s1))) =
        suspend (.offerSetLocal message.user pc answer)
          (emit (.setLocalDescription pc answer)
            (emit (.createAnswer pc) (emit (.setRemoteDescription pc sdp) s1))) := by
      rw [settle_appended s1.tasks (.offerCreateAnswer message.user pc) (.description answer) _ rfl]
      rfl
    have e3 : settle s1.tasks.length .fulfilled
        (suspend (.offerSetLocal message.user pc answer)
          (emit (.setLocalDescription pc answer)
            (emit (.createAnswer pc) (emit (.setRemoteDescription pc sdp) s1)))) =
        sendMessage { type := "webrtc:answer", user := s1.localUser, target := some message.user,
                      sdp := some answer }
          (emit (.setLocalDescription pc answer)
            (emit (.createAnswer pc) (emit (.setRemoteDescription pc sdp) s1))) := by
      rw [settle_appended s1.tasks (.offerSetLocal message.user pc answer) .fulfilled _ rfl]
      rfl
    rw [e1, e2, e3, sent_sendMessage]
    have hso : s1.socketOpen = true := by rw [hwire.2.1, hopen]
    simp only [emit_socketOpen, hso, if_true, hwire.1]
    rw [sent_emit_other _ _ (fun m h => by cases h), sent_emit_other _ _ (fun m h => by cases h),
      sent_emit_other _ _ (fun m h => by cases h), hwire.2.2]

/-- C6 at `sampleState` (local dave) and an offer of erin, who has no entry. -/
theorem handleOffer_answers_witness :
    ((sampleOffer.type = "webrtc:offer" ∧ sampleOffer.target = some sampleState.localUser) ∧
      sampleOffer.sdp = some 11 ∧ sampleState.socketOpen = true) ∧
    sent (run (onMessage sampleOffer sampleState)
        [.settled sampleState.tasks.length .fulfilled,
          .settled sampleState.tasks.length (.description 12),
          .settled sampleState.tasks.length .fulfilled]) =
      sent sampleState ++ [{ type := "webrtc:answer", user := sampleState.localUser,
                             target := some sampleOffer.user, sdp := some 12 }] :=
  ⟨⟨⟨by decide, by decide⟩, by decide, by decide⟩,
    (handleOffer_answers sampleOffer 11 12 sampleState (by decide) (by decide) (by decide)
      (by decide)).2.2.2.2⟩

/-! ## After a connection has failed -/

@[simp] theorem updateRemoteMedia_peers (u : String) (m : MediaState) (s : State) :
    (updateRemoteMedia u m s).peers = s.peers := by
  simp [updateRemoteMedia, updateTileStatus]

@[simp] theorem updateRemoteMedia_localUser (u : String) (m : MediaState) (s : State) :
    (updateRemoteMedia u m s).localUser = s.localUser := by
  simp [updateRemoteMedia, updateTileStatus]

theorem sameWire_updateRemoteMedia (u : String) (m : MediaState) (s : State) :
    SameWire s (updateRemoteMedia u m s) := by
  unfold updateRemoteMedia updateTileStatus
  exact SameWire.wthen ⟨rfl, rfl, rfl⟩ (sameWire_ensureMediaTile u _)

theorem foldl_ensureMediaTile_frame (names : List String) (s : State) :
    (names.foldl (fun st name => ensureMediaTile name st) s).peers = s.peers ∧
    SameWire s (names.foldl (fun st name => ensureMediaTile name st) s) := by
  induction names generalizing s with
  | nil => exact ⟨rfl, SameWire.wrefl s⟩
  | cons n ns ih =>
    rw [List.foldl_cons]
    obtain ⟨h1, h2⟩ := ih (ensureMediaTile n s)
    exact ⟨h1.trans (ensureMediaTile_peers n s), (sameWire_ensureMediaTile n s).wthen h2⟩

theorem foldl_updateRemoteMedia_frame (ms : List (String × MediaState)) (s : State) :
    (ms.foldl (fun st e => updateRemoteMedia e.1 e.2 st) s).peers = s.peers ∧
    SameWire s (ms.foldl (fun st e => updateRemoteMedia e.1 e.2 st) s) := by
  induction ms generalizing s with
  | nil => exact ⟨rfl, SameWire.wrefl s⟩
  | cons n ns ih =>
    rw [List.foldl_cons]
    obtain ⟨h1, h2⟩ := ih (updateRemoteMedia n.1 n.2 s)
    exact ⟨h1.trans (updateRemoteMedia_peers n.1 n.2 s), (sameWire_updateRemoteMedia n.1 n.2 s).wthen h2⟩

theorem pruneMediaTiles_frame (participants : List String) (s : State) :
    (pruneMediaTiles participants s).peers = s.peers ∧
    SameWire s (pruneMediaTiles participants s) := by
  unfold pruneMediaTiles
  induction s.mediaTiles generalizing s with
  | nil => exact ⟨rfl, SameWire.wrefl s⟩
  | cons u us ih =>
    rw [List.foldl_cons]
    split
    · exact ih s
    · obtain ⟨h1, h2⟩ := ih ({ removeMediaTile u s with
        remoteMediaStates := remoteDelete (removeMediaTile u s).remoteMediaStates u })
      exact ⟨h1, SameWire.wthen ⟨rfl, rfl, rfl⟩ h2⟩

theorem sameWire_renderState (participants : List String) (ms : List (String × MediaState))
    (s : State) : SameWire s (renderState participants ms s) := by
  unfold renderState
  simp only []
  exact (((foldl_ensureMediaTile_frame participants s).2.wthen
    (pruneMediaTiles_frame participants _).2).wthen (sameWire_syncPeers participants _)).wthen
      (foldl_updateRemoteMedia_frame ms _).2

theorem peersGet_syncPeers_of_not_mem (roster : List String) (s : State) (peer : String)
    (hnone : peersGet s.peers peer = none) (h : peer ∉ roster) :
    peersGet (syncPeers roster s).peers peer = none := by
  by_cases hlocal : s.localUser = ""
  · unfold syncPeers
    rw [if_pos hlocal]
    exact hnone
  · rw [peersGet_eq_none_iff, mem_keys_syncPeers roster s peer hlocal]
    exact fun hh => h hh.1

theorem peersGet_renderState_of_not_mem (participants : List String)
    (ms : List (String × MediaState)) (s : State) (peer : String)
    (hnone : peersGet s.peers peer = none) (h : peer ∉ participants) :
    peersGet (renderState participants ms s).peers peer = none := by
  unfold renderState
  simp only []
  rw [(foldl_updateRemoteMedia_frame ms _).1]
  apply peersGet_syncPeers_of_not_mem _ _ _ _ h
  rw [(pruneMediaTiles_frame participants _).1, (foldl_ensureMediaTile_frame participants s).1]
  exact hnone

theorem dropped_step (peer : String) (s : State) (e : Event)
    (hnone : peersGet s.peers peer = none) (he : DroppedFor peer e) :
    peersGet (react s e).peers peer = none ∧ sent (react s e) = sent s := by
  obtain ⟨data, rfl, h⟩ := he
  simp only [react]
  rcases h with ⟨hu, ht | ht⟩ | ⟨ht, hp⟩
  · have h1 : handleAnswer data s = s := by
      unfold handleAnswer
      rw [hu, hnone]
    have h2 : onMessage data s = s := by
      unfold onMessage
      simp only [ht, show ¬ ("webrtc:answer" = "state") by decide,
        show ¬ ("webrtc:answer" = "chat") by decide, show ¬ ("webrtc:answer" = "event") by decide,
        show ¬ ("webrtc:answer" = "media:update") by decide,
        show ¬ ("webrtc:answer" = "webrtc:offer") by decide, if_false, if_true, h1, ite_self]
    rw [h2]
    exact ⟨hnone, rfl⟩
  · have h1 : handleCandidate data s = s := by
      unfold handleCandidate
      rw [hu, hnone]
    have h2 : onMessage data s = s := by
      unfold onMessage
      simp only [ht, show ¬ ("webrtc:candidate" = "state") by decide,
        show ¬ ("webrtc:candidate" = "chat") by decide,
        show ¬ ("webrtc:candidate" = "event") by decide,
        show ¬ ("webrtc:candidate" = "media:update") by decide,
        show ¬ ("webrtc:candidate" = "webrtc:offer") by decide,
        show ¬ ("webrtc:candidate" = "webrtc:answer") by decide, if_false, if_true, h1, ite_self]
    rw [h2]
    exact ⟨hnone, rfl⟩
  · have h2 : onMessage data s = renderState data.participants data.media_states s := by
      unfold onMessage
      rw [if_pos ht]
    rw [h2]
    exact ⟨peersGet_renderState_of_not_mem _ _ s peer hnone hp, (sameWire_renderState _ _ s).2.2⟩

/-- C16 as stated fails.  On the side of alice the roster snapshot arrives, the connection of
bob reports "failed" and the entry of bob is removed; then an offer of bob arrives, with no
roster snapshot in between, and once the three promises of `handleOffer` have fulfilled a
`webrtc:answer` with target bob has been sent, on a new connection. -/
theorem answer_sent_to_failed_peer :
    peersGet (run (initialState "alice") (failedThenOfferRun.take 2)).peers "bob" = none ∧
    sent (run (initialState "alice") (failedThenOfferRun.take 2)) = [] ∧
    sent (run (initialState "alice") failedThenOfferRun) =
      [{ type := "webrtc:answer", user := "alice", target := some "bob", sdp := some 9 }] ∧
    (peersGet (run (initialState "alice") failedThenOfferRun).peers "bob").map (fun p => p.pc) =
      some 1 := by
  decide

/-- C16, amended: while a peer has no entry (as after its connection has reported "failed"),
its inbound answers and candidates and the roster snapshots that do not contain it are
dropped for it: over any sequence of such messages no message at all is sent and the peer
still has no entry.  An inbound offer of that peer addressed to the local identity, however,
makes a new entry for it (and is answered on it). -/
theorem removed_peer_stays_silent (peer : String) (s : State) (events : List Event)
    (hnone : peersGet s.peers peer = none) (hev : ∀ e ∈ events, DroppedFor peer e) :
    (peersGet (run s events).peers peer = none ∧ sent (run s events) = sent s) ∧
    ∀ data, data.type = "webrtc:offer" → data.user = peer → data.target = some s.localUser →
      peersHas (onMessage data s).peers peer = true := by
  constructor
  · unfold run
    induction events generalizing s with
    | nil => exact ⟨hnone, rfl⟩
    | cons e es ih =>
      rw [List.foldl_cons]
      obtain ⟨h1, h2⟩ := dropped_step peer s e hnone (hev e (List.mem_cons_self _ _))
      obtain ⟨h3, h4⟩ := ih (react s e) h1 (fun x hx => hev x (List.mem_cons_of_mem _ hx))
      exact ⟨h3, h4.trans h2⟩
  · intro data ht hu htarget
    have hon : onMessage data s = handleOffer data s := by
      unfold onMessage
      simp only [ht, htarget, show ¬ ("webrtc:offer" = "state") by decide,
        show ¬ ("webrtc:offer" = "chat") by decide, show ¬ ("webrtc:offer" = "event") by decide,
        show ¬ ("webrtc:offer" = "media:update") by decide, if_false, if_true]
    rw [hon, peersHas_iff_mem]
    unfold handleOffer
    simp only []
    have hk : peer ∈ (ensurePeer data.user s).2.peers.map Prod.fst := by
      rw [mem_keys_ensurePeer]
      exact Or.inr hu.symm
    cases data.sdp with
    | none => exact hk
    | some sdp => exact hk

/-- C16, amended, on the side of alice after the connection of bob has failed: an answer and a
candidate of bob and a roster snapshot without bob send nothing and make no entry. -/
theorem removed_peer_stays_silent_witness :
    (peersGet (run (initialState "alice") (failedThenOfferRun.take 2)).peers "bob" = none ∧
      ∀ e ∈ [Event.message { type := "webrtc:answer", user := "bob", target := some "alice", sdp := some 3 },
             Event.message { type := "state", participants := ["alice", "carol"] }],
        DroppedFor "bob" e) ∧
    sent (run (run (initialState "alice") (failedThenOfferRun.take 2))
      [Event.message { type := "webrtc:answer", user := "bob", target := some "alice", sdp := some 3 },
       Event.message { type := "state", participants := ["alice", "carol"] }]) =
      sent (run (initialState "alice") (failedThenOfferRun.take 2)) :=
  have hd : ∀ e ∈ [Event.message { type := "webrtc:answer", user := "bob", target := some "alice", sdp := some 3 },
             Event.message { type := "state", participants := ["alice", "carol"] }],
        DroppedFor "bob" e := by
    intro e he
    rcases List.mem_cons.1 he with h | h
    · exact ⟨_, h, Or.inl ⟨rfl, Or.inl rfl⟩⟩
    · rcases List.mem_cons.1 h with h1 | h1
      · exact ⟨_, h1, Or.inr ⟨rfl, by decide⟩⟩
      · cases h1
  ⟨⟨by decide, hd⟩,
    (removed_peer_stays_silent "bob" (run (initialState "alice") (failedThenOfferRun.take 2)) _
      (by decide) hd).1.2⟩

/-! ## The local identity as a key -/

/-- C18 fails on the code.  A fresh client of alice receives a `webrtc:offer` whose `user` and
`target` both are alice: the message passes the target filter, `handleOffer` calls
`ensurePeer("alice")`, and the map of peers then holds an entry under the local identity (with
a new connection), which `syncPeers` would never make. -/
theorem own_identity_keyed_by_offer :
    (initialState "alice").peers = [] ∧
    (run (initialState "alice")
      [.message { type := "webrtc:offer", user := "alice", target := some "alice", sdp := some 1 }]).peers
      = [("alice", { pc := 0, senders := { audio := none, video := none, screen := none },
                     makingOffer := false, initialOfferSent := false })] ∧
    (syncPeers ["alice", "bob"] (initialState "alice")).peers.map Prod.fst = ["bob"] := by
  decide

/-! ## The session disconnects -/

theorem mem_log_of_logAdds {P : Effect → Prop} {s s1 : State} (h : LogAdds P s s1) (e : Effect)
    (he : e ∈ s.log) : e ∈ s1.log := by
  obtain ⟨d, hd, _⟩ := h
  rw [hd]
  exact List.mem_append_left _ he

theorem logGrows_releaseSenders (pc : Nat) (slots : List (Option Nat)) (s : State) :
    LogAdds (fun _ => True) s (releaseSenders pc slots s) := by
  unfold releaseSenders
  induction slots generalizing s with
  | nil => exact LogAdds.lrefl _ s
  | cons x xs ih =>
    simp only [List.foldl_cons]
    cases x with
    | none => exact ih s
    | some sender => exact (logAdds_emit _ s trivial).lthen (ih _)

theorem logGrows_closePeer (u : String) (s : State) :
    LogAdds (fun _ => True) s (closePeer u s) := by
  unfold closePeer
  cases peersGet s.peers u with
  | none => exact LogAdds.lrefl _ s
  | some p =>
    obtain ⟨d, hd, _⟩ := (logGrows_releaseSenders p.pc
      [p.senders.audio, p.senders.video, p.senders.screen] s).lthen (logAdds_emit (.close p.pc) _ trivial)
    exact ⟨d, hd, fun _ _ => trivial⟩

theorem close_mem_closePeer (u : String) (s : State) (p : Peer)
    (h : peersGet s.peers u = some p) : Effect.close p.pc ∈ (closePeer u s).log := by
  unfold closePeer
  rw [h]
  simp

theorem peersGet_peersDelete_ne (ps : List (String × Peer)) (u k : String) (h : u ≠ k) :
    peersGet (peersDelete ps k) u = peersGet ps u := by
  unfold peersDelete
  induction ps with
  | nil => rfl
  | cons e rest ih =>
    rcases e with ⟨a, p⟩
    by_cases ha : a = k
    · have hau : ¬ a = u := fun e => h (e.symm.trans ha)
      simp only [List.filter_cons, ha, ne_eq, not_true_eq_false, decide_False, peersGet]
      rw [← ha, if_neg hau]
      rw [ha]
      exact ih
    · simp only [List.filter_cons, ne_eq, ha, not_false_eq_true, decide_True, peersGet, if_true]
      rw [ih]

theorem peersGet_closePeer_ne (u k : String) (s : State) (h : u ≠ k) :
    peersGet (closePeer k s).peers u = peersGet s.peers u := by
  unfold closePeer
  cases peersGet s.peers k with
  | none => rfl
  | some p =>
    simp only [emit_peers, releaseSenders_peers]
    exact peersGet_peersDelete_ne s.peers u k h

theorem logGrows_foldl_closePeer (keys : List String) (s : State) :
    LogAdds (fun _ => True) s (keys.foldl (fun st user => closePeer user st) s) := by
  induction keys generalizing s with
  | nil => exact LogAdds.lrefl _ s
  | cons k ks ih => exact (logGrows_closePeer k s).lthen (ih _)

theorem close_mem_foldl_closePeer (keys : List String) (s : State) (u : String) (p : Peer)
    (h : peersGet s.peers u = some p) (hmem : u ∈ keys) :
    Effect.close p.pc ∈ (keys.foldl (fun st user => closePeer user st) s).log := by
  induction keys generalizing s with
  | nil => cases hmem
  | cons k ks ih =>
    rw [List.foldl_cons]
    by_cases hk : u = k
    · rw [← hk]
      exact mem_log_of_logAdds (logGrows_foldl_closePeer ks _) _ (close_mem_closePeer u s p h)
    · apply ih
      · rw [peersGet_closePeer_ne u k s hk]
        exact h
      · rcases List.mem_cons.1 hmem with h1 | h1
        · exact absurd h1 hk
        · exact h1

theorem logGrows_syncEntries (kind : Kind) (es : List (String × Peer)) (s : State) :
    LogAdds (fun _ => True) s (syncEntries kind es s).2 := by
  induction es generalizing s with
  | nil => exact LogAdds.lrefl _ s
  | cons e rest ih =>
    rcases e with ⟨k, p⟩
    simp only [syncEntries]
    exact ((logAdds_syncPeerSender p kind s).mono (fun _ _ => trivial)).lthen (ih _)

theorem logGrows_syncAllPeers (kind : Kind) (s : State) :
    LogAdds (fun _ => True) s (syncAllPeers kind s) := by
  obtain ⟨d, hd, _⟩ := logGrows_syncEntries kind s.peers s
  exact ⟨d, hd, fun _ _ => trivial⟩

theorem logGrows_sendMessage (m : Message) (s : State) :
    LogAdds (fun _ => True) s (sendMessage m s) := by
  unfold sendMessage
  split
  · exact logAdds_emit _ s trivial
  · exact LogAdds.lrefl _ s

theorem logGrows_sendMediaUpdate (s : State) : LogAdds (fun _ => True) s (sendMediaUpdate s) := by
  unfold sendMediaUpdate
  split
  · exact LogAdds.lrefl _ s
  · exact logGrows_sendMessage _ s

theorem logGrows_stopTracks (tracks : List Track) (s : State) :
    LogAdds (fun _ => True) s (stopTracks tracks s) := by
  unfold stopTracks
  induction tracks generalizing s with
  | nil => exact LogAdds.lrefl _ s
  | cons t ts ih =>
    rw [List.foldl_cons]
    exact (logAdds_emit _ s trivial).lthen (ih _)

theorem logGrows_stopScreenShare (s : State) : LogAdds (fun _ => True) s (stopScreenShare s) := by
  unfold stopScreenShare
  simp only []
  have h2 : ∀ x : State, LogAdds (fun _ => True) x
      (sendMediaUpdate (updateLocalTile (syncAllPeers .screen x))) := fun x =>
    ((logGrows_syncAllPeers .screen x).lthen (LogAdds.of_log_eq (updateLocalTile_log _))).lthen
      (logGrows_sendMediaUpdate _)
  refine LogAdds.lthen ?_ (h2 _)
  cases s.screenStream with
  | none => exact LogAdds.of_log_eq rfl
  | some st =>
    obtain ⟨d, hd, _⟩ := logGrows_stopTracks (st.audioTracks ++ st.videoTracks) s
    exact ⟨d, hd, fun _ _ => trivial⟩

theorem logGrows_stopAllMedia (s : State) : LogAdds (fun _ => True) s (stopAllMedia s) := by
  unfold stopAllMedia
  simp only []
  have ha : LogAdds (fun _ => True) s (stopAudioTracks s) := by
    obtain ⟨d, hd, _⟩ := logGrows_stopTracks s.localStream.audioTracks s
    exact ⟨d, hd, fun _ _ => trivial⟩
  have hv : LogAdds (fun _ => True) (stopAudioTracks s) (stopVideoTracks (stopAudioTracks s)) := by
    obtain ⟨d, hd, _⟩ := logGrows_stopTracks (stopAudioTracks s).localStream.videoTracks
      (stopAudioTracks s)
    exact ⟨d, hd, fun _ _ => trivial⟩
  obtain ⟨d, hd, _⟩ := (ha.lthen hv).lthen (logGrows_stopScreenShare _)
  exact ⟨d, by rw [updateLocalTile_log]; exact hd, fun _ _ => trivial⟩

theorem syncAllPeers_peers_nil (kind : Kind) (s : State) (h : s.peers = []) :
    (syncAllPeers kind s).peers = [] := by
  unfold syncAllPeers
  rw [h]
  rfl

@[simp] theorem stopTracks_remoteMediaStates (tracks : List Track) (s : State) :
    (stopTracks tracks s).remoteMediaStates = s.remoteMediaStates := by
  unfold stopTracks
  induction tracks generalizing s with
  | nil => rfl
  | cons t ts ih => simp only [List.foldl_cons]; rw [ih]; rfl

@[simp] theorem syncPeerSender_remoteMediaStates (p : Peer) (k : Kind) (s : State) :
    (syncPeerSender p k s).2.remoteMediaStates = s.remoteMediaStates := by
  unfold syncPeerSender; split <;> split <;> rfl

@[simp] theorem syncAllPeers_remoteMediaStates (kind : Kind) (s : State) :
    (syncAllPeers kind s).remoteMediaStates = s.remoteMediaStates := by
  unfold syncAllPeers
  simp only []
  induction s.peers generalizing s with
  | nil => rfl
  | cons e rest ih =>
    rcases e with ⟨k, p⟩
    simp only [syncEntries]
    rw [ih, syncPeerSender_remoteMediaStates]

@[simp] theorem ensureMediaTile_remoteMediaStates (u : String) (s : State) :
    (ensureMediaTile u s).remoteMediaStates = s.remoteMediaStates := by
  unfold ensureMediaTile; split <;> rfl

@[simp] theorem updateLocalTile_remoteMediaStates (s : State) :
    (updateLocalTile s).remoteMediaStates = s.remoteMediaStates := by
  unfold updateLocalTile updateTileStatus; split <;> simp

@[simp] theorem sendMediaUpdate_remoteMediaStates (s : State) :
    (sendMediaUpdate s).remoteMediaStates = s.remoteMediaStates := by
  unfold sendMediaUpdate sendMessage
  split
  · rfl
  · split <;> rfl

theorem stopAllMedia_of_no_peers (s : State) (h : s.peers = []) :
    (stopAllMedia s).peers = [] ∧ (stopAllMedia s).remoteMediaStates = s.remoteMediaStates ∧
    (stopAllMedia s).mediaState = { audio := false, video := false, screen := false } := by
  unfold stopAllMedia
  simp only [updateLocalTile_peers, updateLocalTile_remoteMediaStates, updateLocalTile_mediaState]
  refine ⟨?_, ?_, trivial⟩
  · unfold stopScreenShare
    simp only [sendMediaUpdate_peers, updateLocalTile_peers]
    apply syncAllPeers_peers_nil
    cases hs : (stopVideoTracks (stopAudioTracks s)).screenStream <;>
      simp [stopVideoTracks, stopAudioTracks, h]
  · unfold stopScreenShare
    simp only [sendMediaUpdate_remoteMediaStates, updateLocalTile_remoteMediaStates,
      syncAllPeers_remoteMediaStates]
    cases hs : (stopVideoTracks (stopAudioTracks s)).screenStream <;>
      simp [stopVideoTracks, stopAudioTracks]

/-- C15: when the socket closes (`cleanupPeers()` then `stopAllMedia()`), whatever the state
was, the map of peers ends empty, the connection of every entry it held has been closed (a
`close` call on it is in the log), the table of remote media states is empty, and the three
local media flags are false. -/
theorem onSocketClose_releases (s : State) :
    (onSocketClose s).peers = [] ∧
    (∀ user p, peersGet s.peers user = some p → Effect.close p.pc ∈ (onSocketClose s).log) ∧
    (onSocketClose s).remoteMediaStates = [] ∧
    (onSocketClose s).mediaState = { audio := false, video := false, screen := false } := by
  unfold onSocketClose
  have hc : (cleanupPeers { s with socketOpen := false }).peers = [] := rfl
  have hr : (cleanupPeers { s with socketOpen := false }).remoteMediaStates = [] := rfl
  obtain ⟨h1, h2, h3⟩ := stopAllMedia_of_no_peers _ hc
  refine ⟨h1, ?_, h2.trans hr, h3⟩
  intro user p hp
  apply mem_log_of_logAdds (logGrows_stopAllMedia _)
  have hmem : user ∈ s.peers.map Prod.fst := by
    rw [← peersGet_isSome_iff_mem, hp]
    rfl
  exact close_mem_foldl_closePeer (s.peers.map Prod.fst) { s with socketOpen := false } user p hp hmem

/-- C15 at `sampleState`: after the close the connection of bob (2) has been closed. -/
theorem onSocketClose_releases_witness :
    peersGet sampleState.peers "bob" = some sampleBob ∧
    Effect.close sampleBob.pc ∈ (onSocketClose sampleState).log :=
  ⟨by decide, (onSocketClose_releases sampleState).2.1 "bob" sampleBob (by decide)⟩

/-! ## A departed peer is closed once -/

theorem mem_of_peersGet (ps : List (String × Peer)) (u : String) (p : Peer)
    (h : peersGet ps u = some p) : (u, p) ∈ ps := by
  induction ps with
  | nil => cases h
  | cons e rest ih =>
    rcases e with ⟨k, q⟩
    simp only [peersGet] at h
    by_cases hk : k = u
    · rw [if_pos hk, Option.some.injEq] at h
      rw [hk, h]
      exact List.mem_cons_self _ _
    · rw [if_neg hk] at h
      exact List.mem_cons_of_mem _ (ih h)

theorem mem_peersSet (ps : List (String × Peer)) (u : String) (p : Peer) (e : String × Peer)
    (h : e ∈ peersSet ps u p) : e ∈ ps ∨ e = (u, p) := by
  unfold peersSet at h
  split at h
  · obtain ⟨e0, he0, heq⟩ := List.mem_map.1 h
    by_cases hk : e0.1 = u
    · rw [if_pos hk] at heq
      right
      rw [← heq, hk]
    · rw [if_neg hk] at heq
      left
      rw [← heq]
      exact he0
  · rcases List.mem_append.1 h with h1 | h1
    · exact Or.inl h1
    · exact Or.inr (List.mem_singleton.1 h1)

theorem mem_peersDelete (ps : List (String × Peer)) (k : String) (e : String × Peer)
    (h : e ∈ peersDelete ps k) : e ∈ ps ∧ e.1 ≠ k := by
  unfold peersDelete at h
  obtain ⟨h1, h2⟩ := List.mem_filter.1 h
  exact ⟨h1, by simpa using h2⟩

theorem releaseSenders_log (pc : Nat) (slots : List (Option Nat)) (s : State) :
    (releaseSenders pc slots s).log = s.log ++ (slots.filterMap id).map (Effect.removeTrack pc) := by
  unfold releaseSenders
  induction slots generalizing s with
  | nil => simp
  | cons x xs ih =>
    simp only [List.foldl_cons]
    rw [ih]
    cases x with
    | none => simp
    | some sender => simp [emit]

@[simp] theorem releaseSenders_nextId (pc : Nat) (slots : List (Option Nat)) (s : State) :
    (releaseSenders pc slots s).nextId = s.nextId := by
  unfold releaseSenders
  induction slots generalizing s with
  | nil => rfl
  | cons x xs ih =>
    simp only [List.foldl_cons]
    rw [ih]
    cases x <;> rfl

theorem closePeer_log (u : String) (s : State) (p : Peer) (h : peersGet s.peers u = some p) :
    (closePeer u s).log = s.log ++ teardownCalls p := by
  unfold closePeer teardownCalls
  rw [h]
  simp only [emit_log, releaseSenders_log]
  rw [List.append_assoc]

@[simp] theorem closePeer_nextId (u : String) (s : State) : (closePeer u s).nextId = s.nextId := by
  unfold closePeer
  cases peersGet s.peers u <;> simp [emit]

theorem mem_closePeer_peers (u : String) (s : State) (e : String × Peer)
    (h : e ∈ (closePeer u s).peers) : e ∈ s.peers := by
  unfold closePeer at h
  cases hg : peersGet s.peers u with
  | none => rw [hg] at h; exact h
  | some p =>
    rw [hg] at h
    simp only [emit_peers, releaseSenders_peers] at h
    exact (mem_peersDelete _ _ _ h).1

theorem teardownCalls_connection (p : Peer) (e : Effect) (h : e ∈ teardownCalls p) :
    e.connection? = some p.pc := by
  unfold teardownCalls at h
  rcases List.mem_append.1 h with h1 | h1
  · obtain ⟨x, _, hx⟩ := List.mem_map.1 h1
    rw [← hx]
    rfl
  · rw [List.mem_singleton.1 h1]
    rfl

theorem teardownCalls_close (p : Peer) (c : Nat) (h : Effect.close c ∈ teardownCalls p) :
    c = p.pc := by
  have := teardownCalls_connection p _ h
  simpa [Effect.connection?] using this

/-- The first loop of `syncPeers`, for a connection that is not in the map: no call is made on
it, the entries that remain were there before, and the numbering of objects is unchanged. -/
theorem removeDeparted_away (others keys : List String) (c : Nat) (s : State)
    (h : ∀ e ∈ s.peers, e.2.pc ≠ c) :
    LogAdds (fun e => e.connection? ≠ some c) s (removeDeparted others keys s) ∧
    (∀ e ∈ (removeDeparted others keys s).peers, e ∈ s.peers) ∧
    (removeDeparted others keys s).nextId = s.nextId := by
  unfold removeDeparted
  induction keys generalizing s with
  | nil => exact ⟨LogAdds.lrefl _ s, fun e he => he, rfl⟩
  | cons k ks ih =>
    rw [List.foldl_cons]
    by_cases hhas : peersHas s.peers k = true
    · rw [if_pos hhas]
      by_cases hin : others.contains k = true
      · rw [if_pos hin]
        exact ih s h
      · rw [if_neg hin]
        have hsub : ∀ e ∈ (peersDelete (closePeer k s).peers k), e ∈ s.peers :=
          fun e he => mem_closePeer_peers k s e (mem_peersDelete _ _ _ he).1
        obtain ⟨h1, h2, h3⟩ := ih ({ closePeer k s with peers := peersDelete (closePeer k s).peers k })
          (fun e he => h e (hsub e he))
        refine ⟨LogAdds.lthen ?_ h1, fun e he => hsub e (h2 e he), h3.trans (closePeer_nextId k s)⟩
        obtain ⟨p, hp⟩ : ∃ p, peersGet s.peers k = some p := by
          unfold peersHas at hhas
          cases hg : peersGet s.peers k with
          | none => rw [hg] at hhas; cases hhas
          | some p => exact ⟨p, rfl⟩
        refine ⟨teardownCalls p, closePeer_log k s p hp, ?_⟩
        intro e he
        rw [teardownCalls_connection p e he]
        intro heq
        exact h _ (mem_of_peersGet _ _ _ hp) (Option.some.inj heq)
    · rw [if_neg hhas]
      exact ih s h

/-- The first loop of `syncPeers`, for the entry `pB` of a peer `B` that is not in `others`:
the calls `closePeer` makes for `B` are in the log once, and no other call is made on the
connection of `B`. -/
theorem removeDeparted_departed (others keys : List String) (B : String) (pB : Peer) (s : State)
    (hB : peersGet s.peers B = some pB) (hkey : B ∈ keys) (hout : B ∉ others)
    (hpcs : ∀ e ∈ s.peers, e.1 ≠ B → e.2.pc ≠ pB.pc) :
    ∃ before after, (removeDeparted others keys s).log = s.log ++ before ++ teardownCalls pB ++ after ∧
      (∀ e ∈ before ++ after, e.connection? ≠ some pB.pc) ∧
      (∀ e ∈ (removeDeparted others keys s).peers, e ∈ s.peers ∧ e.1 ≠ B) ∧
      (removeDeparted others keys s).nextId = s.nextId := by
  induction keys generalizing s with
  | nil => cases hkey
  | cons k ks ih =>
    have hstep : removeDeparted others (k :: ks) s = removeDeparted others ks
        (if peersHas s.peers k = true then
          if others.contains k = true then s
          else { closePeer k s with peers := peersDelete (closePeer k s).peers k }
        else s) := by
      unfold removeDeparted
      rw [List.foldl_cons]
    rw [hstep]
    by_cases hk : k = B
    · subst hk
      have hhas : peersHas s.peers k = true := by
        unfold peersHas
        rw [hB]
        rfl
      have hin : ¬ others.contains k = true := by simpa using hout
      rw [if_pos hhas, if_neg hin]
      have hrest : ∀ e ∈ peersDelete (closePeer k s).peers k, e ∈ s.peers ∧ e.1 ≠ k :=
        fun e he => ⟨mem_closePeer_peers k s e (mem_peersDelete _ _ _ he).1, (mem_peersDelete _ _ _ he).2⟩
      obtain ⟨⟨d, hd, hpd⟩, h2, h3⟩ := removeDeparted_away others ks pB.pc
        ({ closePeer k s with peers := peersDelete (closePeer k s).peers k })
        (fun e he => hpcs e (hrest e he).1 (hrest e he).2)
      refine ⟨[], d, ?_, ?_, fun e he => hrest e (h2 e he), h3.trans (closePeer_nextId k s)⟩
      · rw [hd]
        show (closePeer k s).log ++ d = _
        rw [closePeer_log k s pB hB]
        simp
      · intro e he
        exact hpd e (by simpa using he)
    · have hkeys : B ∈ ks := by
        rcases List.mem_cons.1 hkey with h | h
        · exact absurd h.symm hk
        · exact h
      by_cases hhas : peersHas s.peers k = true
      · rw [if_pos hhas]
        by_cases hin : others.contains k = true
        · rw [if_pos hin]
          exact ih s hB hkeys hpcs
        · rw [if_neg hin]
          obtain ⟨p, hp⟩ : ∃ p, peersGet s.peers k = some p := by
            unfold peersHas at hhas
            cases hg : peersGet s.peers k with
            | none => rw [hg] at hhas; cases hhas
            | some p => exact ⟨p, rfl⟩
          have hsub : ∀ e ∈ (peersDelete (closePeer k s).peers k), e ∈ s.peers :=
            fun e he => mem_closePeer_peers k s e (mem_peersDelete _ _ _ he).1
          have hB1 : peersGet (peersDelete (closePeer k s).peers k) B = some pB := by
            rw [peersGet_peersDelete_ne _ _ _ (fun e => hk e.symm), peersGet_closePeer_ne B k s
              (fun e => hk e.symm)]
            exact hB
          obtain ⟨before, after, h1, h2, h3, h4⟩ :=
            ih ({ closePeer k s with peers := peersDelete (closePeer k s).peers k }) hB1 hkeys
              (fun e he => hpcs e (hsub e he))
          refine ⟨teardownCalls p ++ before, after, ?_, ?_, fun e he => ⟨hsub e (h3 e he).1, (h3 e he).2⟩,
            h4.trans (closePeer_nextId k s)⟩
          · rw [h1]
            show (closePeer k s).log ++ before ++ teardownCalls pB ++ after = _
            rw [closePeer_log k s p hp]
            simp
          · intro e he
            rcases List.mem_append.1 he with h5 | h5
            · rcases List.mem_append.1 h5 with h6 | h6
              · rw [teardownCalls_connection p e h6]
                intro heq
                exact hpcs _ (mem_of_peersGet _ _ _ hp) hk (Option.some.inj heq)
              · exact h2 e (List.mem_append_left _ h6)
            · exact h2 e (List.mem_append_right _ h5)
      · rw [if_neg hhas]
        exact ih s hB hkeys hpcs

theorem removeDeparted_stays (others keys : List String) (A : String) (pA : Peer) (s : State)
    (hA : peersGet s.peers A = some pA) (hin : A ∈ others)
    (hpcs : ∀ e ∈ s.peers, e.1 ≠ A → e.2.pc ≠ pA.pc) :
    peersGet (removeDeparted others keys s).peers A = some pA ∧
    LogAdds (fun e => e ≠ .close pA.pc) s (removeDeparted others keys s) := by
  unfold removeDeparted
  induction keys generalizing s with
  | nil => exact ⟨hA, LogAdds.lrefl _ s⟩
  | cons k ks ih =>
    rw [List.foldl_cons]
    by_cases hhas : peersHas s.peers k = true
    · rw [if_pos hhas]
      by_cases hc : others.contains k = true
      · rw [if_pos hc]
        exact ih s hA hpcs
      · rw [if_neg hc]
        have hk : ¬ k = A := by
          intro e
          rw [e] at hc
          exact hc (by simpa using hin)
        obtain ⟨p, hp⟩ : ∃ p, peersGet s.peers k = some p := by
          unfold peersHas at hhas
          cases hg : peersGet s.peers k with
          | none => rw [hg] at hhas; cases hhas
          | some p => exact ⟨p, rfl⟩
        have hsub : ∀ e ∈ (peersDelete (closePeer k s).peers k), e ∈ s.peers :=
          fun e he => mem_closePeer_peers k s e (mem_peersDelete _ _ _ he).1
        have hA1 : peersGet (peersDelete (closePeer k s).peers k) A = some pA := by
          rw [peersGet_peersDelete_ne _ _ _ (fun e => hk e.symm), peersGet_closePeer_ne A k s
            (fun e => hk e.symm)]
          exact hA
        obtain ⟨h1, h2⟩ := ih ({ closePeer k s with peers := peersDelete (closePeer k s).peers k })
          hA1 (fun e he => hpcs e (hsub e he))
        refine ⟨h1, LogAdds.lthen ?_ h2⟩
        refine ⟨teardownCalls p, closePeer_log k s p hp, ?_⟩
        intro e he heq
        rw [heq] at he
        exact hpcs _ (mem_of_peersGet _ _ _ hp) hk (teardownCalls_close p _ he).symm
    · rw [if_neg hhas]
      exact ih s hA hpcs

/-! ### The second loop makes no call on a connection that left the map -/

theorem createPeer_peers_mem (u : String) (s : State) (e : String × Peer)
    (h : e ∈ (createPeer u s).2.peers) : e ∈ s.peers ∨ e.2.pc = s.nextId := by
  unfold createPeer at h
  simp only [syncSenders_peers, emit_peers] at h
  rcases mem_peersSet _ _ _ _ h with h1 | h1
  · rcases mem_peersSet _ _ _ _ h1 with h2 | h2
    · exact Or.inl h2
    · right
      rw [h2]
  · right
    rw [h1]
    exact syncSenders_pc _ _

theorem ensurePeer_away (c : Nat) (u : String) (s : State) (h : Away c s) :
    Away c (ensurePeer u s).2 ∧
    LogAdds (fun e => e.connection? ≠ some c ∧ ∀ pc, e ≠ .close pc) s (ensurePeer u s).2 := by
  unfold ensurePeer
  cases hg : peersGet s.peers u with
  | some p => exact ⟨h, LogAdds.lrefl _ s⟩
  | none =>
    simp only []
    obtain ⟨hpc, ⟨d, hd, hpd⟩, hn⟩ := createPeer_spec u s
    have hne : s.nextId ≠ c := fun e => by have := h.1; omega
    refine ⟨⟨by have := h.1; omega, ?_⟩, ⟨.newConnection s.nextId :: d, hd, ?_⟩⟩
    · intro e he
      rcases createPeer_peers_mem u s e he with h1 | h1
      · exact h.2 e h1
      · rw [h1]
        exact hne
    · intro e he
      rcases List.mem_cons.1 he with h1 | h1
      · rw [h1]
        exact ⟨fun heq => hne (Option.some.inj heq), fun pc hh => by cases hh⟩
      · obtain ⟨h2, h3⟩ := hpd e h1
        refine ⟨?_, h3⟩
        rcases h2 with h4 | h4
        · rw [h4]
          exact fun heq => hne (Option.some.inj heq)
        · rw [h4]
          exact fun heq => by cases heq

theorem updatePeer_away (c : Nat) (u : String) (pc : Nat) (f : Peer → Peer) (s : State)
    (hf : ∀ p, (f p).pc = p.pc) (h : Away c s) : Away c (updatePeer u pc f s) := by
  refine ⟨h.1, ?_⟩
  intro e he
  unfold updatePeer at he
  obtain ⟨e0, he0, heq⟩ := List.mem_map.1 he
  split at heq
  · rw [← heq]
    simp only [hf]
    exact h.2 e0 he0
  · rw [← heq]
    exact h.2 e0 he0

theorem negotiateWith_away (c : Nat) (u : String) (s : State) (h : Away c s) :
    Away c (negotiateWith u s) ∧
    LogAdds (fun e => e.connection? ≠ some c ∧ ∀ pc, e ≠ .close pc) s (negotiateWith u s) := by
  unfold negotiateWith
  simp only []
  obtain ⟨h1, h2⟩ := ensurePeer_away c u s h
  split
  · exact ⟨h1, h2⟩
  · have hmem := mem_of_peersGet _ _ _ (ensurePeer_get u s)
    have hpc : (ensurePeer u s).1.pc ≠ c := h1.2 _ hmem
    have h3 := updatePeer_away c u (ensurePeer u s).1.pc (fun p => { p with makingOffer := true })
      (ensurePeer u s).2 (fun _ => rfl) h1
    refine ⟨⟨h3.1, h3.2⟩, h2.lthen ?_⟩
    exact ⟨[.createOffer (ensurePeer u s).1.pc], rfl, fun e he => by
      rw [List.mem_singleton.1 he]
      exact ⟨fun heq => hpc (Option.some.inj heq), fun pc hh => by cases hh⟩⟩

theorem connectOther_away (c : Nat) (s : State) (u : String) (h : Away c s) :
    Away c (connectOther s u) ∧
    LogAdds (fun e => e.connection? ≠ some c ∧ ∀ pc, e ≠ .close pc) s (connectOther s u) := by
  unfold connectOther
  simp only []
  obtain ⟨h1, h2⟩ := ensurePeer_away c u s h
  split
  · have h3 := updatePeer_away c u (ensurePeer u s).1.pc (fun p => { p with initialOfferSent := true })
      (ensurePeer u s).2 (fun _ => rfl) h1
    obtain ⟨h4, h5⟩ := negotiateWith_away c u _ h3
    refine ⟨h4, h2.lthen ?_⟩
    obtain ⟨d, hd, hpd⟩ := h5
    exact ⟨d, hd, hpd⟩
  · exact ⟨h1, h2⟩

theorem foldl_connectOther_away (c : Nat) (others : List String) (s : State) (h : Away c s) :
    LogAdds (fun e => e.connection? ≠ some c ∧ ∀ pc, e ≠ .close pc) s (others.foldl connectOther s) := by
  induction others generalizing s with
  | nil => exact LogAdds.lrefl _ s
  | cons u us ih =>
    rw [List.foldl_cons]
    obtain ⟨h1, h2⟩ := connectOther_away c s u h
    exact h2.lthen (ih _ h1)

/-! ### The second loop keeps the connection and the senders of an entry -/

theorem updatePeer_keeps (v : String) (pc : Nat) (f : Peer → Peer) (s : State) (u : String) (p : Peer)
    (hf : ∀ q, (f q).pc = q.pc ∧ (f q).senders = q.senders) (h : peersGet s.peers u = some p) :
    ∃ q, peersGet (updatePeer v pc f s).peers u = some q ∧ q.pc = p.pc ∧ q.senders = p.senders := by
  rw [peersGet_updatePeer, h, Option.map_some']
  split
  · exact ⟨_, rfl, (hf p).1, (hf p).2⟩
  · exact ⟨_, rfl, rfl, rfl⟩

theorem negotiateWith_keeps (u v : String) (s : State) (p : Peer)
    (h : peersGet s.peers u = some p) :
    ∃ q, peersGet (negotiateWith v s).peers u = some q ∧ q.pc = p.pc ∧ q.senders = p.senders := by
  unfold negotiateWith
  simp only []
  have h1 := peersGet_ensurePeer_of_some u v s p h
  split
  · exact ⟨p, h1, rfl, rfl⟩
  · simp only [suspend_peers, emit_peers]
    exact updatePeer_keeps v _ _ _ u p (fun _ => ⟨rfl, rfl⟩) h1

theorem connectOther_keeps (s : State) (u v : String) (p : Peer)
    (h : peersGet s.peers u = some p) :
    ∃ q, peersGet (connectOther s v).peers u = some q ∧ q.pc = p.pc ∧ q.senders = p.senders := by
  unfold connectOther
  simp only []
  have h1 := peersGet_ensurePeer_of_some u v s p h
  split
  · obtain ⟨q, hq, hq1, hq2⟩ := updatePeer_keeps v (ensurePeer v s).1.pc
      (fun p => { p with initialOfferSent := true }) (ensurePeer v s).2 u p (fun _ => ⟨rfl, rfl⟩) h1
    obtain ⟨r, hr, hr1, hr2⟩ := negotiateWith_keeps u v _ q hq
    exact ⟨r, hr, hr1.trans hq1, hr2.trans hq2⟩
  · exact ⟨p, h1, rfl, rfl⟩

theorem foldl_connectOther_keeps (others : List String) (s : State) (u : String) (p : Peer)
    (h : peersGet s.peers u = some p) :
    ∃ q, peersGet (others.foldl connectOther s).peers u = some q ∧ q.pc = p.pc ∧
      q.senders = p.senders := by
  induction others generalizing s p with
  | nil => exact ⟨p, h, rfl, rfl⟩
  | cons v vs ih =>
    rw [List.foldl_cons]
    obtain ⟨q, hq, hq1, hq2⟩ := connectOther_keeps s u v p h
    obtain ⟨r, hr, hr1, hr2⟩ := ih _ q hq
    exact ⟨r, hr, hr1.trans hq1, hr2.trans hq2⟩

/-- C4: `syncPeers` with a roster from which the peer `B` of the map is missing.  In a map
whose entries own distinct connections, all handed out before the next object, the calls made
on the connection of `B` are exactly those of one `closePeer`: one `removeTrack` for each slot
that holds a sender, then one `close`, once; afterwards no entry for `B` remains.  Every peer
`A` that stays in the roster keeps its entry on the same connection with the same senders (it
is not recreated), and no `close` is called on that connection. -/
theorem departed_peer_closed_once (roster : List String) (s : State) (B : String) (pB : Peer)
    (hlocal : s.localUser ≠ "") (hB : peersGet s.peers B = some pB) (hmissing : B ∉ roster)
    (hpcs : ∀ e ∈ s.peers, ∀ e1 ∈ s.peers, e.1 ≠ e1.1 → e.2.pc ≠ e1.2.pc)
    (hfresh : ∀ e ∈ s.peers, e.2.pc < s.nextId) :
    peersGet (syncPeers roster s).peers B = none ∧
    (∃ before after,
      (syncPeers roster s).log = s.log ++ before ++ teardownCalls pB ++ after ∧
      ∀ e ∈ before ++ after, e.connection? ≠ some pB.pc) ∧
    (∀ A pA, A ∈ roster → A ≠ "" → A ≠ s.localUser → peersGet s.peers A = some pA →
      (∃ qA, peersGet (syncPeers roster s).peers A = some qA ∧ qA.pc = pA.pc ∧
        qA.senders = pA.senders) ∧
      ∀ added, (syncPeers roster s).log = s.log ++ added → Effect.close pA.pc ∉ added) := by
  have hBmem := mem_of_peersGet _ _ _ hB
  have hsync : syncPeers roster s =
      (roster.filter (fun name => decide (name ≠ "" ∧ name ≠ s.localUser))).foldl connectOther
        (removeDeparted (roster.filter (fun name => decide (name ≠ "" ∧ name ≠ s.localUser)))
          (s.peers.map Prod.fst) s) := by
    unfold syncPeers
    rw [if_neg hlocal]
  have hout : B ∉ roster.filter (fun name => decide (name ≠ "" ∧ name ≠ s.localUser)) :=
    fun h => hmissing (List.mem_filter.1 h).1
  have hkey : B ∈ s.peers.map Prod.fst := List.mem_map.2 ⟨(B, pB), hBmem, rfl⟩
  refine ⟨?_, ?_, ?_⟩
  · rw [peersGet_eq_none_iff, mem_keys_syncPeers roster s B hlocal]
    exact fun h => hmissing h.1
  · obtain ⟨before, after, h1, h2, h3, h4⟩ := removeDeparted_departed
      (roster.filter (fun name => decide (name ≠ "" ∧ name ≠ s.localUser)))
      (s.peers.map Prod.fst) B pB s hB hkey hout
      (fun e he hne => hpcs e he (B, pB) hBmem hne)
    have haway : Away pB.pc (removeDeparted
        (roster.filter (fun name => decide (name ≠ "" ∧ name ≠ s.localUser)))
        (s.peers.map Prod.fst) s) := by
      refine ⟨by rw [h4]; exact hfresh _ hBmem, ?_⟩
      intro e he
      exact hpcs e (h3 e he).1 (B, pB) hBmem (h3 e he).2
    obtain ⟨d, hd, hpd⟩ := foldl_connectOther_away pB.pc
      (roster.filter (fun name => decide (name ≠ "" ∧ name ≠ s.localUser))) _ haway
    refine ⟨before, after ++ d, ?_, ?_⟩
    · rw [hsync, hd, h1]
      simp
    · intro e he
      rcases List.mem_append.1 he with h5 | h5
      · exact h2 e (List.mem_append_left _ h5)
      · rcases List.mem_append.1 h5 with h6 | h6
        · exact h2 e (List.mem_append_right _ h6)
        · exact (hpd e h6).1
  · intro A pA hA1 hA2 hA3 hA
    have hAin : A ∈ roster.filter (fun name => decide (name ≠ "" ∧ name ≠ s.localUser)) := by
      rw [List.mem_filter]
      exact ⟨hA1, by simpa using ⟨hA2, hA3⟩⟩
    have hAmem := mem_of_peersGet _ _ _ hA
    obtain ⟨h1, h2⟩ := removeDeparted_stays
      (roster.filter (fun name => decide (name ≠ "" ∧ name ≠ s.localUser)))
      (s.peers.map Prod.fst) A pA s hA hAin (fun e he hne => hpcs e he (A, pA) hAmem hne)
    constructor
    · rw [hsync]
      exact foldl_connectOther_keeps _ _ A pA h1
    · intro added hadded
      obtain ⟨before, after, _, _, h3, h4⟩ := removeDeparted_departed
        (roster.filter (fun name => decide (name ≠ "" ∧ name ≠ s.localUser)))
        (s.peers.map Prod.fst) B pB s hB hkey hout
        (fun e he hne => hpcs e he (B, pB) hBmem hne)
      have haway : Away pB.pc (removeDeparted
          (roster.filter (fun name => decide (name ≠ "" ∧ name ≠ s.localUser)))
          (s.peers.map Prod.fst) s) := by
        refine ⟨by rw [h4]; exact hfresh _ hBmem, ?_⟩
        intro e he
        exact hpcs e (h3 e he).1 (B, pB) hBmem (h3 e he).2
      obtain ⟨d2, hd2, hpd2⟩ := foldl_connectOther_away pB.pc
        (roster.filter (fun name => decide (name ≠ "" ∧ name ≠ s.localUser))) _ haway
      obtain ⟨d1, hd1, hpd1⟩ := h2
      have hlog : (syncPeers roster s).log = s.log ++ (d1 ++ d2) := by
        rw [hsync, hd2, hd1, List.append_assoc]
      have heq : added = d1 ++ d2 := List.append_cancel_left (hadded.symm.trans hlog)
      rw [heq]
      intro hmem
      rcases List.mem_append.1 hmem with h5 | h5
      · exact hpd1 _ h5 rfl
      · exact (hpd2 _ h5).2 pA.pc rfl

/-- C4 at `sampleState` (local dave; entries for alice, bob and carol) and the roster alice,
carol, dave: bob is missing. -/
theorem departed_peer_closed_once_witness :
    ((sampleState.localUser ≠ "" ∧ peersGet sampleState.peers "bob" = some sampleBob ∧
        "bob" ∉ ["alice", "carol", "dave"]) ∧
      (∀ e ∈ sampleState.peers, ∀ e1 ∈ sampleState.peers, e.1 ≠ e1.1 → e.2.pc ≠ e1.2.pc) ∧
      (∀ e ∈ sampleState.peers, e.2.pc < sampleState.nextId)) ∧
    peersGet (syncPeers ["alice", "carol", "dave"] sampleState).peers "bob" = none ∧
    (syncPeers ["alice", "carol", "dave"] sampleState).log =
      sampleState.log ++ [.removeTrack 2 3, .removeTrack 2 4, .close 2] :=
  ⟨⟨⟨by decide, by decide, by decide⟩, by decide, by decide⟩,
    (departed_peer_closed_once ["alice", "carol", "dave"] sampleState "bob" sampleBob
      (by decide) (by decide) (by decide) (by decide) (by decide)).1,
    by decide⟩

/-! ## The slots stay in line with the local tracks -/

theorem localTrack_congr (s s1 : State) (h1 : s1.localStream = s.localStream)
    (h2 : s1.screenStream = s.screenStream) (k : Kind) : localTrack s1 k = localTrack s k := by
  cases k <;> simp [localTrack, h1, h2]

theorem peerSynced_congr (s s1 : State) (h1 : s1.localStream = s.localStream)
    (h2 : s1.screenStream = s.screenStream) (p : Peer) (h : PeerSynced s p) : PeerSynced s1 p :=
  fun k => (h k).trans (congrArg Option.isSome (localTrack_congr s s1 h1 h2 k)).symm

theorem keeps_refl (s : State) : Keeps s s :=
  ⟨rfl, rfl, fun e he => Or.inl ⟨e, he, rfl⟩⟩

theorem keeps_then {a b c : State} (h1 : Keeps a b) (h2 : Keeps b c) : Keeps a c := by
  refine ⟨h2.1.trans h1.1, h2.2.1.trans h1.2.1, ?_⟩
  intro e he
  rcases h2.2.2 e he with ⟨e0, he0, heq⟩ | hs
  · rcases h1.2.2 e0 he0 with ⟨e1, he1, heq1⟩ | hs1
    · exact Or.inl ⟨e1, he1, heq.trans heq1⟩
    · right
      intro k
      rw [heq]
      exact hs1 k
  · exact Or.inr (peerSynced_congr b a h1.1.symm h1.2.1.symm e.2 hs)

theorem synced_of_keeps {s s1 : State} (hs : Synced s) (h : Keeps s s1) : Synced s1 := by
  intro e he
  rcases h.2.2 e he with ⟨e0, he0, heq⟩ | h1
  · intro k
    rw [heq, localTrack_congr s s1 h.1 h.2.1]
    exact hs e0 he0 k
  · exact peerSynced_congr s s1 h.1 h.2.1 e.2 h1

theorem keeps_of_sameMedia {s s1 : State} (h : SameMedia s s1) : Keeps s s1 :=
  ⟨h.2.1, h.2.2, fun e he => Or.inl ⟨e, h.1 ▸ he, rfl⟩⟩

theorem sameMedia_then {a b c : State} (h1 : SameMedia a b) (h2 : SameMedia b c) : SameMedia a c :=
  ⟨h2.1.trans h1.1, h2.2.1.trans h1.2.1, h2.2.2.trans h1.2.2⟩

theorem sameMedia_sendMessage (m : Message) (s : State) : SameMedia s (sendMessage m s) := by
  unfold sendMessage
  split <;> exact ⟨rfl, rfl, rfl⟩

theorem sameMedia_sendMediaUpdate (s : State) : SameMedia s (sendMediaUpdate s) := by
  unfold sendMediaUpdate
  split
  · exact ⟨rfl, rfl, rfl⟩
  · exact sameMedia_sendMessage _ s

theorem sameMedia_ensureMediaTile (u : String) (s : State) : SameMedia s (ensureMediaTile u s) := by
  unfold ensureMediaTile
  split <;> exact ⟨rfl, rfl, rfl⟩

theorem sameMedia_updateLocalTile (s : State) : SameMedia s (updateLocalTile s) := by
  unfold updateLocalTile updateTileStatus
  split
  · exact ⟨rfl, rfl, rfl⟩
  · exact sameMedia_then (sameMedia_ensureMediaTile _ s) (sameMedia_ensureMediaTile _ _)

theorem sameMedia_updateRemoteMedia (u : String) (m : MediaState) (s : State) :
    SameMedia s (updateRemoteMedia u m s) := by
  unfold updateRemoteMedia updateTileStatus
  exact sameMedia_then ⟨rfl, rfl, rfl⟩ (sameMedia_ensureMediaTile u _)

theorem sameMedia_pruneMediaTiles (participants : List String) (s : State) :
    SameMedia s (pruneMediaTiles participants s) := by
  unfold pruneMediaTiles
  induction s.mediaTiles generalizing s with
  | nil => exact ⟨rfl, rfl, rfl⟩
  | cons u us ih =>
    rw [List.foldl_cons]
    split
    · exact ih s
    · exact sameMedia_then ⟨rfl, rfl, rfl⟩ (ih _)

theorem sameMedia_syncPeerSender (p : Peer) (k : Kind) (s : State) :
    SameMedia s (syncPeerSender p k s).2 := by
  unfold syncPeerSender
  split <;> split <;> exact ⟨rfl, rfl, rfl⟩

theorem sameMedia_stopTracks (tracks : List Track) (s : State) :
    SameMedia s (stopTracks tracks s) := by
  unfold stopTracks
  induction tracks generalizing s with
  | nil => exact ⟨rfl, rfl, rfl⟩
  | cons t ts ih =>
    rw [List.foldl_cons]
    exact sameMedia_then ⟨rfl, rfl, rfl⟩ (ih _)

/-! ### `syncPeerSender` brings a slot in line and keeps the others -/

theorem syncPeerSender_isSome (p : Peer) (k : Kind) (s : State) :
    ((syncPeerSender p k s).1.senders.get k).isSome = (localTrack s k).isSome := by
  cases ht : localTrack s k with
  | some track =>
    have hp := localStreamPresent_of_localTrack s k track ht
    cases hc : p.senders.get k with
    | none => simp [syncPeerSender, ht, hp, hc, Senders.get_set_self]
    | some current => simp [syncPeerSender, ht, hp, hc]
  | none =>
    cases hc : p.senders.get k with
    | none => simp [syncPeerSender, ht, hc]
    | some current => simp [syncPeerSender, ht, hc, Senders.get_set_self]

theorem syncPeerSender_of_synced (p : Peer) (k : Kind) (s : State)
    (h : (p.senders.get k).isSome = (localTrack s k).isSome) : (syncPeerSender p k s).1 = p := by
  cases ht : localTrack s k with
  | some track =>
    have hp := localStreamPresent_of_localTrack s k track ht
    cases hc : p.senders.get k with
    | none => rw [ht, hc] at h; cases h
    | some current => simp [syncPeerSender, ht, hp, hc]
  | none =>
    cases hc : p.senders.get k with
    | none => simp [syncPeerSender, ht, hc]
    | some current => rw [ht, hc] at h; cases h

theorem syncPeerSender_slot (p : Peer) (k j : Kind) (s : State) :
    ((syncPeerSender p k s).1.senders.get j).isSome =
      if j = k then (localTrack s k).isSome else (p.senders.get j).isSome := by
  by_cases h : j = k
  · rw [if_pos h, h]
    exact syncPeerSender_isSome p k s
  · rw [if_neg h, syncPeerSender_get_other p k j s h]

theorem syncSenders_synced (p : Peer) (s : State) : PeerSynced s (syncSenders p s).1 := by
  unfold syncSenders
  simp only []
  have ma := sameMedia_syncPeerSender p .audio s
  have mv := sameMedia_syncPeerSender (syncPeerSender p .audio s).1 .video (syncPeerSender p .audio s).2
  have ta : ∀ k, localTrack (syncPeerSender p .audio s).2 k = localTrack s k :=
    localTrack_congr _ _ ma.2.1 ma.2.2
  have tv : ∀ k, localTrack (syncPeerSender (syncPeerSender p .audio s).1 .video
      (syncPeerSender p .audio s).2).2 k = localTrack s k :=
    fun k => (localTrack_congr _ _ mv.2.1 mv.2.2 k).trans (ta k)
  intro k
  cases k with
  | audio =>
    rw [syncPeerSender_slot, if_neg (by decide), syncPeerSender_slot, if_neg (by decide),
      syncPeerSender_isSome]
  | video =>
    rw [syncPeerSender_slot, if_neg (by decide), syncPeerSender_isSome, ta]
  | screen =>
    rw [syncPeerSender_isSome, tv]

theorem sameMedia_syncSenders (p : Peer) (s : State) : SameMedia s (syncSenders p s).2 := by
  unfold syncSenders
  exact sameMedia_then (sameMedia_then (sameMedia_syncPeerSender _ _ _)
    (sameMedia_syncPeerSender _ _ _)) (sameMedia_syncPeerSender _ _ _)

theorem mem_peersSet_strong (ps : List (String × Peer)) (u : String) (p : Peer) (e : String × Peer)
    (h : e ∈ peersSet ps u p) : (e ∈ ps ∧ e.1 ≠ u) ∨ e = (u, p) := by
  unfold peersSet at h
  split at h
  · obtain ⟨e0, he0, heq⟩ := List.mem_map.1 h
    by_cases hk : e0.1 = u
    · rw [if_pos hk] at heq
      right
      rw [← heq, hk]
    · rw [if_neg hk] at heq
      left
      rw [← heq]
      exact ⟨he0, hk⟩
  · rename_i hhas
    rcases List.mem_append.1 h with h1 | h1
    · left
      refine ⟨h1, ?_⟩
      intro hk
      apply hhas
      rw [peersHas_iff_mem]
      exact List.mem_map.2 ⟨e, h1, hk⟩
    · exact Or.inr (List.mem_singleton.1 h1)

theorem keeps_register (u : String) (p0 : Peer) (s s1 : State)
    (hl : s1.localStream = s.localStream) (hsc : s1.screenStream = s.screenStream)
    (hpe : s1.peers = peersSet s.peers u p0) :
    Keeps s { (syncSenders p0 s1).2 with
      peers := peersSet (syncSenders p0 s1).2.peers u (syncSenders p0 s1).1 } := by
  have hm := sameMedia_syncSenders p0 s1
  refine ⟨hm.2.1.trans hl, hm.2.2.trans hsc, ?_⟩
  intro e he
  simp only [] at he
  rcases mem_peersSet_strong _ _ _ _ he with ⟨h1, h2⟩ | h1
  · rw [hm.1, hpe] at h1
    rcases mem_peersSet_strong _ _ _ _ h1 with ⟨h3, _⟩ | h3
    · exact Or.inl ⟨e, h3, rfl⟩
    · exact absurd (by rw [h3]) h2
  · right
    rw [h1]
    exact peerSynced_congr s1 s hl.symm hsc.symm _ (syncSenders_synced p0 s1)

theorem keeps_createPeer (u : String) (s : State) : Keeps s (createPeer u s).2 := by
  unfold createPeer
  exact keeps_register u _ s _ rfl rfl rfl

theorem keeps_ensurePeer (u : String) (s : State) : Keeps s (ensurePeer u s).2 := by
  unfold ensurePeer
  cases peersGet s.peers u with
  | some p => exact keeps_refl s
  | none => exact keeps_createPeer u s

theorem keeps_updatePeer (u : String) (pc : Nat) (f : Peer → Peer) (s : State)
    (hf : ∀ p, (f p).senders = p.senders) : Keeps s (updatePeer u pc f s) := by
  refine ⟨rfl, rfl, ?_⟩
  intro e he
  unfold updatePeer at he
  obtain ⟨e0, he0, heq⟩ := List.mem_map.1 he
  left
  refine ⟨e0, he0, ?_⟩
  split at heq
  · rw [← heq]
    exact hf _
  · rw [← heq]

theorem keeps_of_subset {s s1 : State} (h1 : s1.localStream = s.localStream)
    (h2 : s1.screenStream = s.screenStream) (h3 : ∀ e ∈ s1.peers, e ∈ s.peers) : Keeps s s1 :=
  ⟨h1, h2, fun e he => Or.inl ⟨e, h3 e he, rfl⟩⟩

theorem sameMedia_releaseSenders (pc : Nat) (slots : List (Option Nat)) (s : State) :
    SameMedia s (releaseSenders pc slots s) := by
  unfold releaseSenders
  induction slots generalizing s with
  | nil => exact ⟨rfl, rfl, rfl⟩
  | cons x xs ih =>
    simp only [List.foldl_cons]
    cases x with
    | none => exact ih s
    | some sender => exact sameMedia_then ⟨rfl, rfl, rfl⟩ (ih _)

theorem keeps_closePeer (u : String) (s : State) : Keeps s (closePeer u s) := by
  refine keeps_of_subset ?_ ?_ (mem_closePeer_peers u s)
  · unfold closePeer
    cases peersGet s.peers u with
    | none => rfl
    | some p => exact (sameMedia_releaseSenders _ _ s).2.1
  · unfold closePeer
    cases peersGet s.peers u with
    | none => rfl
    | some p => exact (sameMedia_releaseSenders _ _ s).2.2

theorem keeps_negotiateWith (u : String) (s : State) : Keeps s (negotiateWith u s) := by
  unfold negotiateWith
  simp only []
  split
  · exact keeps_ensurePeer u s
  · refine keeps_then (keeps_ensurePeer u s) ?_
    refine keeps_then (keeps_updatePeer u (ensurePeer u s).1.pc
      (fun p => { p with makingOffer := true }) _ (fun _ => rfl)) ?_
    exact keeps_of_sameMedia ⟨rfl, rfl, rfl⟩

theorem keeps_connectOther (s : State) (u : String) : Keeps s (connectOther s u) := by
  unfold connectOther
  simp only []
  split
  · refine keeps_then (keeps_ensurePeer u s) ?_
    refine keeps_then (keeps_updatePeer u (ensurePeer u s).1.pc
      (fun p => { p with initialOfferSent := true }) _ (fun _ => rfl)) ?_
    exact keeps_negotiateWith u _
  · exact keeps_ensurePeer u s

theorem keeps_removeDeparted (others keys : List String) (s : State) :
    Keeps s (removeDeparted others keys s) := by
  unfold removeDeparted
  induction keys generalizing s with
  | nil => exact keeps_refl s
  | cons k ks ih =>
    rw [List.foldl_cons]
    refine keeps_then ?_ (ih _)
    split
    · split
      · exact keeps_refl s
      · have h := keeps_closePeer k s
        exact keeps_of_subset h.1 h.2.1
          (fun e he => mem_closePeer_peers k s e (mem_peersDelete _ _ _ he).1)
    · exact keeps_refl s

theorem keeps_syncPeers (roster : List String) (s : State) : Keeps s (syncPeers roster s) := by
  unfold syncPeers
  split
  · exact keeps_refl s
  · have hfold : ∀ (others : List String) (x : State), Keeps x (others.foldl connectOther x) := by
      intro others
      induction others with
      | nil => exact fun x => keeps_refl x
      | cons u us ih => exact fun x => keeps_then (keeps_connectOther x u) (ih _)
    exact keeps_then (keeps_removeDeparted _ _ s) (hfold _ _)

theorem keeps_renderState (participants : List String) (ms : List (String × MediaState))
    (s : State) : Keeps s (renderState participants ms s) := by
  unfold renderState
  simp only []
  have h1 : ∀ (names : List String) (x : State),
      SameMedia x (names.foldl (fun st name => ensureMediaTile name st) x) := by
    intro names
    induction names with
    | nil => exact fun x => ⟨rfl, rfl, rfl⟩
    | cons n ns ih => exact fun x => sameMedia_then (sameMedia_ensureMediaTile n x) (ih _)
  have h2 : ∀ (l : List (String × MediaState)) (x : State),
      SameMedia x (l.foldl (fun st e => updateRemoteMedia e.1 e.2 st) x) := by
    intro l
    induction l with
    | nil => exact fun x => ⟨rfl, rfl, rfl⟩
    | cons n ns ih => exact fun x => sameMedia_then (sameMedia_updateRemoteMedia n.1 n.2 x) (ih _)
  exact keeps_then (keeps_then (keeps_of_sameMedia (sameMedia_then (h1 participants s)
    (sameMedia_pruneMediaTiles participants _))) (keeps_syncPeers participants _))
    (keeps_of_sameMedia (h2 ms _))

theorem keeps_handleOffer (message : Message) (s : State) : Keeps s (handleOffer message s) := by
  unfold handleOffer
  simp only []
  cases message.sdp with
  | none => exact keeps_ensurePeer _ s
  | some sdp => exact keeps_then (keeps_ensurePeer _ s) (keeps_of_sameMedia ⟨rfl, rfl, rfl⟩)

theorem sameMedia_handleAnswer (message : Message) (s : State) :
    SameMedia s (handleAnswer message s) := by
  unfold handleAnswer
  split
  · exact ⟨rfl, rfl, rfl⟩
  · split <;> exact ⟨rfl, rfl, rfl⟩

theorem sameMedia_handleCandidate (message : Message) (s : State) :
    SameMedia s (handleCandidate message s) := by
  unfold handleCandidate
  split <;> exact ⟨rfl, rfl, rfl⟩

theorem keeps_onMessage (data : Message) (s : State) : Keeps s (onMessage data s) := by
  unfold onMessage
  split
  · exact keeps_renderState _ _ s
  · split
    · exact keeps_refl s
    · split
      · exact keeps_refl s
      · split
        · exact keeps_of_sameMedia (sameMedia_updateRemoteMedia _ _ s)
        · split
          · split
            · exact keeps_handleOffer data s
            · exact keeps_refl s
          · split
            · split
              · exact keeps_of_sameMedia (sameMedia_handleAnswer data s)
              · exact keeps_refl s
            · split
              · split
                · exact keeps_of_sameMedia (sameMedia_handleCandidate data s)
                · exact keeps_refl s
              · exact keeps_refl s

/-! ### The media functions bring the slots back in line -/

theorem syncEntries_synced (kind : Kind) (es : List (String × Peer)) (s : State) :
    ∀ e ∈ (syncEntries kind es s).1, ∃ e0 ∈ es,
      ∀ j, (e.2.senders.get j).isSome =
        if j = kind then (localTrack s kind).isSome else (e0.2.senders.get j).isSome := by
  induction es generalizing s with
  | nil => exact fun e he => (by cases he)
  | cons x rest ih =>
    rcases x with ⟨k, p⟩
    intro e he
    simp only [syncEntries] at he
    rcases List.mem_cons.1 he with h | h
    · refine ⟨(k, p), List.mem_cons_self _ _, ?_⟩
      intro j
      rw [h]
      exact syncPeerSender_slot p kind j s
    · obtain ⟨e0, he0, hj⟩ := ih (syncPeerSender p kind s).2 e h
      refine ⟨e0, List.mem_cons_of_mem _ he0, ?_⟩
      intro j
      rw [hj j, localTrack_congr _ _ (sameMedia_syncPeerSender p kind s).2.1
        (sameMedia_syncPeerSender p kind s).2.2]

theorem syncEntries_streams (kind : Kind) (es : List (String × Peer)) (s : State) :
    (syncEntries kind es s).2.localStream = s.localStream ∧
    (syncEntries kind es s).2.screenStream = s.screenStream := by
  induction es generalizing s with
  | nil => exact ⟨rfl, rfl⟩
  | cons x rest ih =>
    rcases x with ⟨k, p⟩
    simp only [syncEntries]
    obtain ⟨h1, h2⟩ := ih (syncPeerSender p kind s).2
    exact ⟨h1.trans (sameMedia_syncPeerSender p kind s).2.1,
      h2.trans (sameMedia_syncPeerSender p kind s).2.2⟩

/-- After the local tracks of one kind have changed, `peers.forEach(syncPeerSender(peer,
kind))` brings every entry back in line. -/
theorem synced_syncAllPeers (kind : Kind) (s x : State) (hs : Synced s) (hp : x.peers = s.peers)
    (ht : ∀ j, j ≠ kind → localTrack x j = localTrack s j) : Synced (syncAllPeers kind x) := by
  intro e he
  unfold syncAllPeers at he
  simp only [] at he
  obtain ⟨e0, he0, hj⟩ := syncEntries_synced kind x.peers x e he
  have hstreams := syncEntries_streams kind x.peers x
  have htr : ∀ j, localTrack (syncAllPeers kind x) j = localTrack x j := by
    intro j
    unfold syncAllPeers
    exact localTrack_congr _ _ hstreams.1 hstreams.2 j
  intro j
  rw [htr j, hj j]
  by_cases h : j = kind
  · rw [if_pos h, h]
  · rw [if_neg h, ht j h]
    exact hs e0 (hp ▸ he0) j

theorem synced_finish (s : State) (h : Synced s) : Synced (sendMediaUpdate (updateLocalTile s)) :=
  synced_of_keeps h (keeps_of_sameMedia
    (sameMedia_then (sameMedia_updateLocalTile s) (sameMedia_sendMediaUpdate _)))

theorem syncEntries_of_synced (kind : Kind) (es : List (String × Peer)) (s : State)
    (h : ∀ e ∈ es, (e.2.senders.get kind).isSome = (localTrack s kind).isSome) :
    (syncEntries kind es s).1 = es := by
  induction es generalizing s with
  | nil => rfl
  | cons x rest ih =>
    rcases x with ⟨k, p⟩
    simp only [syncEntries]
    rw [syncPeerSender_of_synced p kind s (h (k, p) (List.mem_cons_self _ _))]
    rw [ih]
    intro e he
    rw [localTrack_congr _ _ (sameMedia_syncPeerSender p kind s).2.1
      (sameMedia_syncPeerSender p kind s).2.2]
    exact h e (List.mem_cons_of_mem _ he)

theorem syncAllPeers_peers_of_synced (kind : Kind) (s : State) (h : Synced s) :
    (syncAllPeers kind s).peers = s.peers := by
  unfold syncAllPeers
  exact syncEntries_of_synced kind s.peers s (fun e he => h e he kind)

theorem localTrack_audio_update (s : State) (tracks : List Track) (ms : MediaState) (j : Kind)
    (h : j ≠ Kind.audio) :
    localTrack { s with localStream := { s.localStream with audioTracks := tracks },
                        mediaState := ms } j = localTrack s j := by
  cases j with
  | audio => exact absurd rfl h
  | video => rfl
  | screen => rfl

theorem localTrack_video_update (s : State) (tracks : List Track) (ms : MediaState) (j : Kind)
    (h : j ≠ Kind.video) :
    localTrack { s with localStream := { s.localStream with videoTracks := tracks },
                        mediaState := ms } j = localTrack s j := by
  cases j with
  | audio => rfl
  | video => exact absurd rfl h
  | screen => rfl

theorem localTrack_screen_update (s : State) (st : Option MediaStream) (ms : MediaState) (j : Kind)
    (h : j ≠ Kind.screen) :
    localTrack { s with screenStream := st, mediaState := ms } j = localTrack s j := by
  cases j with
  | audio => rfl
  | video => rfl
  | screen => exact absurd rfl h

theorem synced_stopScreenShare (s : State) (h : Synced s) : Synced (stopScreenShare s) := by
  unfold stopScreenShare
  simp only []
  apply synced_finish
  cases hs : s.screenStream with
  | none =>
    refine synced_syncAllPeers .screen s _ h rfl ?_
    intro j hj
    cases j with
    | audio => rfl
    | video => rfl
    | screen => exact absurd rfl hj
  | some st =>
    have hm := sameMedia_stopTracks (st.audioTracks ++ st.videoTracks) s
    refine synced_syncAllPeers .screen s _ h hm.1 ?_
    intro j hj
    cases j with
    | audio => simp [localTrack, hm.2.1]
    | video => simp [localTrack, hm.2.1]
    | screen => exact absurd rfl hj

theorem synced_toggleMic (s : State) (h : Synced s) : Synced (toggleMic s) := by
  unfold toggleMic toggleMicFinish
  split
  · apply synced_finish
    have hm := sameMedia_stopTracks s.localStream.audioTracks s
    refine synced_syncAllPeers .audio s _ h hm.1 ?_
    intro j hj
    cases j with
    | audio => exact absurd rfl hj
    | video => simp [localTrack, stopAudioTracks, hm.2.1]
    | screen => simp [localTrack, stopAudioTracks, hm.2.2]
  · exact synced_of_keeps h (keeps_of_sameMedia ⟨rfl, rfl, rfl⟩)

theorem synced_toggleCamera (s : State) (h : Synced s) : Synced (toggleCamera s) := by
  unfold toggleCamera toggleCameraFinish
  split
  · apply synced_finish
    have hm := sameMedia_stopTracks s.localStream.videoTracks s
    refine synced_syncAllPeers .video s _ h hm.1 ?_
    intro j hj
    cases j with
    | audio => simp [localTrack, stopVideoTracks, hm.2.1]
    | video => exact absurd rfl hj
    | screen => simp [localTrack, stopVideoTracks, hm.2.2]
  · exact synced_of_keeps h (keeps_of_sameMedia ⟨rfl, rfl, rfl⟩)

theorem synced_toggleScreenShare (s : State) (h : Synced s) : Synced (toggleScreenShare s) := by
  unfold toggleScreenShare
  split
  · exact synced_stopScreenShare s h
  · exact synced_of_keeps h (keeps_of_sameMedia ⟨rfl, rfl, rfl⟩)

theorem synced_onSocketClose (s : State) : Synced (onSocketClose s) := by
  intro e he
  have hc : (cleanupPeers { s with socketOpen := false }).peers = [] := rfl
  have h := (stopAllMedia_of_no_peers _ hc).1
  unfold onSocketClose at he
  rw [h] at he
  cases he

theorem synced_resumeTask (t : Task) (r : Outcome) (s s1 : State) (h : Synced s)
    (hr : resumeTask t r s = some s1) : Synced s1 := by
  cases t with
  | negotiateCreateOffer user pc =>
    cases r with
    | description offer =>
      simp only [resumeTask, Option.some.injEq] at hr
      rw [← hr]
      exact synced_of_keeps h (keeps_of_sameMedia ⟨rfl, rfl, rfl⟩)
    | rejected =>
      simp only [resumeTask, Option.some.injEq] at hr
      rw [← hr]
      exact synced_of_keeps h (keeps_then
        (keeps_updatePeer user pc (fun p => { p with makingOffer := false }) s (fun _ => rfl))
        (keeps_of_sameMedia ⟨rfl, rfl, rfl⟩))
    | fulfilled => simp [resumeTask] at hr
    | stream c => simp [resumeTask] at hr
  | negotiateSetLocal user pc offer =>
    cases r with
    | fulfilled =>
      simp only [resumeTask, Option.some.injEq] at hr
      rw [← hr]
      exact synced_of_keeps h (keeps_then (keeps_of_sameMedia (sameMedia_sendMessage _ s))
        (keeps_updatePeer user pc _ _ (fun _ => rfl)))
    | rejected =>
      simp only [resumeTask, Option.some.injEq] at hr
      rw [← hr]
      exact synced_of_keeps h (keeps_then
        (keeps_updatePeer user pc (fun p => { p with makingOffer := false }) s (fun _ => rfl))
        (keeps_of_sameMedia ⟨rfl, rfl, rfl⟩))
    | description d => simp [resumeTask] at hr
    | stream c => simp [resumeTask] at hr
  | offerSetRemote user pc =>
    cases r with
    | fulfilled =>
      simp only [resumeTask, Option.some.injEq] at hr
      rw [← hr]
      exact synced_of_keeps h (keeps_of_sameMedia ⟨rfl, rfl, rfl⟩)
    | rejected =>
      simp only [resumeTask, Option.some.injEq] at hr
      rw [← hr]
      exact synced_of_keeps h (keeps_of_sameMedia ⟨rfl, rfl, rfl⟩)
    | description d => simp [resumeTask] at hr
    | stream c => simp [resumeTask] at hr
  | offerCreateAnswer user pc =>
    cases r with
    | description answer =>
      simp only [resumeTask, Option.some.injEq] at hr
      rw [← hr]
      exact synced_of_keeps h (keeps_of_sameMedia ⟨rfl, rfl, rfl⟩)
    | rejected =>
      simp only [resumeTask, Option.some.injEq] at hr
      rw [← hr]
      exact synced_of_keeps h (keeps_of_sameMedia ⟨rfl, rfl, rfl⟩)
    | fulfilled => simp [resumeTask] at hr
    | stream c => simp [resumeTask] at hr
  | offerSetLocal user pc answer =>
    cases r with
    | fulfilled =>
      simp only [resumeTask, Option.some.injEq] at hr
      rw [← hr]
      exact synced_of_keeps h (keeps_of_sameMedia (sameMedia_sendMessage _ s))
    | rejected =>
      simp only [resumeTask, Option.some.injEq] at hr
      rw [← hr]
      exact synced_of_keeps h (keeps_of_sameMedia ⟨rfl, rfl, rfl⟩)
    | description d => simp [resumeTask] at hr
    | stream c => simp [resumeTask] at hr
  | answerSetRemote user pc =>
    cases r with
    | fulfilled =>
      simp only [resumeTask, Option.some.injEq] at hr
      rw [← hr]
      exact h
    | rejected =>
      simp only [resumeTask, Option.some.injEq] at hr
      rw [← hr]
      exact synced_of_keeps h (keeps_of_sameMedia ⟨rfl, rfl, rfl⟩)
    | description d => simp [resumeTask] at hr
    | stream c => simp [resumeTask] at hr
  | candidateAdd user pc =>
    cases r with
    | fulfilled =>
      simp only [resumeTask, Option.some.injEq] at hr
      rw [← hr]
      exact h
    | rejected =>
      simp only [resumeTask, Option.some.injEq] at hr
      rw [← hr]
      exact synced_of_keeps h (keeps_of_sameMedia ⟨rfl, rfl, rfl⟩)
    | description d => simp [resumeTask] at hr
    | stream c => simp [resumeTask] at hr
  | micCapture =>
    cases r with
    | stream captured =>
      simp only [resumeTask, Option.some.injEq] at hr
      rw [← hr]
      unfold toggleMicFinish
      apply synced_finish
      exact synced_syncAllPeers .audio s _ h rfl (fun j hj => localTrack_audio_update s _ _ j hj)
    | rejected =>
      simp only [resumeTask, Option.some.injEq] at hr
      rw [← hr]
      unfold toggleMicFinish
      apply synced_finish
      refine synced_syncAllPeers .audio s _ h rfl ?_
      intro j _
      rfl
    | fulfilled => simp [resumeTask] at hr
    | description d => simp [resumeTask] at hr
  | cameraCapture =>
    cases r with
    | stream captured =>
      simp only [resumeTask, Option.some.injEq] at hr
      rw [← hr]
      unfold toggleCameraFinish
      apply synced_finish
      exact synced_syncAllPeers .video s _ h rfl (fun j hj => localTrack_video_update s _ _ j hj)
    | rejected =>
      simp only [resumeTask, Option.some.injEq] at hr
      rw [← hr]
      unfold toggleCameraFinish
      apply synced_finish
      refine synced_syncAllPeers .video s _ h rfl ?_
      intro j _
      rfl
    | fulfilled => simp [resumeTask] at hr
    | description d => simp [resumeTask] at hr
  | screenCapture =>
    cases r with
    | stream captured =>
      simp only [resumeTask, Option.some.injEq] at hr
      rw [← hr]
      apply synced_finish
      exact synced_syncAllPeers .screen s _ h rfl (fun j hj => localTrack_screen_update s _ _ j hj)
    | rejected =>
      simp only [resumeTask, Option.some.injEq] at hr
      rw [← hr]
      exact synced_of_keeps h (keeps_of_sameMedia ⟨rfl, rfl, rfl⟩)
    | fulfilled => simp [resumeTask] at hr
    | description d => simp [resumeTask] at hr

theorem synced_settle (index : Nat) (r : Outcome) (s : State) (h : Synced s) :
    Synced (settle index r s) := by
  unfold settle
  cases s.tasks.get? index with
  | none => exact h
  | some t =>
    simp only []
    have h0 : Synced { s with tasks := s.tasks.eraseIdx index } :=
      synced_of_keeps h (keeps_of_sameMedia ⟨rfl, rfl, rfl⟩)
    cases hr : resumeTask t r { s with tasks := s.tasks.eraseIdx index } with
    | none => exact h
    | some s1 => exact synced_resumeTask t r _ s1 h0 hr

theorem synced_react (s : State) (e : Event) (h : Synced s) : Synced (react s e) := by
  cases e with
  | message data => exact synced_of_keeps h (keeps_onMessage data s)
  | negotiationNeeded user =>
    simp only [react, onNegotiationNeeded]
    split
    · exact synced_of_keeps h (keeps_negotiateWith user s)
    · exact h
  | iceCandidate user candidate =>
    simp only [react, onIceCandidate]
    cases candidate with
    | none => exact h
    | some c => exact synced_of_keeps h (keeps_of_sameMedia (sameMedia_sendMessage _ s))
  | connectionStateChange user cs =>
    simp only [react, onConnectionStateChange]
    split
    · exact synced_of_keeps h (keeps_closePeer user s)
    · exact h
  | track user hasStream =>
    simp only [react, handleRemoteTrack]
    split
    · exact synced_of_keeps h (keeps_of_sameMedia (sameMedia_ensureMediaTile user s))
    · exact h
  | micClick => exact synced_toggleMic s h
  | cameraClick => exact synced_toggleCamera s h
  | screenClick => exact synced_toggleScreenShare s h
  | screenEnded => exact synced_stopScreenShare s h
  | socketClose => exact synced_onSocketClose s
  | settled index outcome => exact synced_settle index outcome s h

theorem synced_run (events : List Event) (s : State) (h : Synced s) : Synced (run s events) := by
  unfold run
  induction events generalizing s with
  | nil => exact h
  | cons e es ih => exact ih _ (synced_react s e h)

@[simp] theorem syncPeerSender_mediaState (p : Peer) (k : Kind) (s : State) :
    (syncPeerSender p k s).2.mediaState = s.mediaState := by
  unfold syncPeerSender; split <;> split <;> rfl

@[simp] theorem syncAllPeers_mediaState (kind : Kind) (s : State) :
    (syncAllPeers kind s).mediaState = s.mediaState := by
  unfold syncAllPeers
  simp only []
  induction s.peers generalizing s with
  | nil => rfl
  | cons e rest ih =>
    rcases e with ⟨k, p⟩
    simp only [syncEntries]
    rw [ih, syncPeerSender_mediaState]

@[simp] theorem sendMediaUpdate_mediaState (s : State) :
    (sendMediaUpdate s).mediaState = s.mediaState := by
  unfold sendMediaUpdate sendMessage
  split
  · rfl
  · split <;> rfl

/-- C14: turning a device on fails.  In any state the client reaches from a fresh join, when
the capture request of `toggleMic`, `toggleCamera` or `toggleScreenShare` rejects, the three
local media flags are what they were (so the flag of a device that is off stays false, and the
two others are unchanged) and the map of peers is what it was: no entry is removed and no
sender slot of any peer changes. -/
theorem failed_capture_changes_nothing (localUser : String) (events : List Event) (index : Nat)
    (task : Task)
    (hpending : (run (initialState localUser) events).tasks.get? index = some task)
    (hcapture : task = .micCapture ∨ task = .cameraCapture ∨ task = .screenCapture) :
    (settle index .rejected (run (initialState localUser) events)).mediaState =
      (run (initialState localUser) events).mediaState ∧
    (settle index .rejected (run (initialState localUser) events)).peers =
      (run (initialState localUser) events).peers := by
  have hs : Synced (run (initialState localUser) events) :=
    synced_run events _ (fun e he => by cases he)
  generalize run (initialState localUser) events = s at hpending hs
  unfold settle
  rw [hpending]
  simp only []
  have h0 : Synced (emit (.error "x") { s with tasks := s.tasks.eraseIdx index }) :=
    synced_of_keeps hs (keeps_of_sameMedia ⟨rfl, rfl, rfl⟩)
  rcases hcapture with h | h | h
  · rw [h]
    simp only [resumeTask, toggleMicFinish, sendMediaUpdate_mediaState, updateLocalTile_mediaState,
      syncAllPeers_mediaState, sendMediaUpdate_peers, updateLocalTile_peers]
    refine ⟨rfl, ?_⟩
    rw [syncAllPeers_peers_of_synced]
    · rfl
    · exact synced_of_keeps hs (keeps_of_sameMedia ⟨rfl, rfl, rfl⟩)
  · rw [h]
    simp only [resumeTask, toggleCameraFinish, sendMediaUpdate_mediaState,
      updateLocalTile_mediaState, syncAllPeers_mediaState, sendMediaUpdate_peers,
      updateLocalTile_peers]
    refine ⟨rfl, ?_⟩
    rw [syncAllPeers_peers_of_synced]
    · rfl
    · exact synced_of_keeps hs (keeps_of_sameMedia ⟨rfl, rfl, rfl⟩)
  · rw [h]
    exact ⟨rfl, rfl⟩

/-- C14 on the side of bob, with alice in the roster: bob clicks the microphone button and the
capture request (the second suspended call) rejects. -/
theorem failed_capture_changes_nothing_witness :
    ((run (initialState "bob")
        [.message { type := "state", participants := ["alice", "bob"] }, .micClick]).tasks.get? 1
        = some .micCapture ∧
      (Task.micCapture = .micCapture ∨ Task.micCapture = .cameraCapture ∨
        Task.micCapture = .screenCapture)) ∧
    (settle 1 .rejected (run (initialState "bob")
        [.message { type := "state", participants := ["alice", "bob"] }, .micClick])).mediaState =
      (run (initialState "bob")
        [.message { type := "state", participants := ["alice", "bob"] }, .micClick]).mediaState ∧
    (settle 1 .rejected (run (initialState "bob")
        [.message { type := "state", participants := ["alice", "bob"] }, .micClick])).peers =
      (run (initialState "bob")
        [.message { type := "state", participants := ["alice", "bob"] }, .micClick]).peers :=
  ⟨⟨by decide, by decide⟩,
    failed_capture_changes_nothing "bob"
      [.message { type := "state", participants := ["alice", "bob"] }, .micClick] 1 .micCapture
      (by decide) (by decide)⟩

end StudyRoom
